import Mathlib

/-!
# A shallow embedding of the satgpt CDCL SAT solver

This file embeds the Rust sources of the repository (src/src/lib.rs,
src/src/preprocessing.rs, src/src/main.rs) into Lean and proves or refutes
the specification claims about them.

Modelling conventions:
* Rust `Vec`s become Lean lists; indexed reads become `getD` and indexed
  writes become `List.set`.  Rust panics on an out-of-range index (and
  `List.set` ignores the write); every concrete run studied here stays in
  range, and the reachability relation used for the invariant claims guards
  the variable ranges exactly where Rust would panic.  The one panic that a
  claim is about (`% 0` in `RandomStrategy::pick_branch` when
  `num_vars = 0`) is modelled explicitly with `Except Unit`.
* `usize`/`u64` arithmetic is `Nat`; the xorshift PRNG, where wrapping
  matters, reduces modulo `2 ^ 64` exactly as the `u64` operations do.
  `usize::count_ones` is modelled by an unbounded bit count; the two agree
  for every argument below `2 ^ 64`, and all callers cap the width at 12.
* Loops become structural recursion; unbounded loops (propagation, the CDCL
  loop, conflict analysis) take a fuel argument and return `none` when the
  fuel runs out.  Loops with an intrinsic bound (`backtrack`) receive the
  exact bound as fuel and are total.
* Rust `HashMap`/`HashSet` are embedded as association lists / duplicate-free
  lists.  Iteration order of a Rust `HashSet` is unspecified; it is modelled
  as ascending order, and every result proved about an extraction is
  independent of that order for the inputs considered.
* The branching heuristic is specialised to `RandomStrategy` (the reference
  test/bench heuristic used by `run_solver_on_content`); its `on_conflict`,
  `on_assign` and `on_unassign` hooks are no-ops and never touch solver
  state, so they are omitted from the state transitions.
-/

set_option maxRecDepth 4096

/-- Decidable equality for `Except` (used to evaluate run verdicts). -/
instance {ε α : Type} [DecidableEq ε] [DecidableEq α] : DecidableEq (Except ε α) :=
  fun a b =>
  match a, b with
  | Except.ok x, Except.ok y =>
    if h : x = y then isTrue (congrArg Except.ok h)
    else isFalse (fun hh => h (Except.ok.inj hh))
  | Except.ok _, Except.error _ => isFalse (fun hh => Except.noConfusion hh)
  | Except.error _, Except.ok _ => isFalse (fun hh => Except.noConfusion hh)
  | Except.error x, Except.error y =>
    if h : x = y then isTrue (congrArg Except.error h)
    else isFalse (fun hh => h (Except.error.inj hh))

namespace SatLib

/-- `Lit` from lib.rs: variable `v` with sign encoded as `2*v + (neg as u32)`. -/
structure Lit where
  code : Nat
deriving DecidableEq, Repr

/-- `Lit::new`: `((var << 1) as u32) | (is_negated as u32)`. -/
def Lit.new (var : Nat) (is_negated : Bool) : Lit :=
  ⟨2 * var + (if is_negated then 1 else 0)⟩

/-- `Lit::var`: `self.0 >> 1`. -/
def Lit.var (l : Lit) : Nat := l.code / 2

/-- `Lit::is_neg`: `(self.0 & 1) != 0`. -/
def Lit.neg (l : Lit) : Bool := l.code % 2 == 1

/-- `Lit::not`: XOR with 1 flips the sign bit. -/
def Lit.not (l : Lit) : Lit := ⟨l.code ^^^ 1⟩

instance : Inhabited Lit := ⟨Lit.new 0 false⟩

/-- `VarValue` from lib.rs.  `True`/`False` are renamed to avoid the
propositions of the same name. -/
inductive VarValue
  | Unassigned
  | VTrue
  | VFalse
deriving DecidableEq, Repr

/-- `Clause` from lib.rs. -/
structure Clause where
  lits : List Lit
  learned : Bool
deriving DecidableEq, Repr

instance : Inhabited Clause := ⟨⟨[], false⟩⟩

/-- `Watcher` from lib.rs: clause index plus cached blocking literal. -/
structure Watcher where
  clause_idx : Nat
  blocker : Lit
deriving DecidableEq, Repr

/-- `Vec::swap` on a list (total; Rust panics out of range, unreached here). -/
def list_swap {α : Type} (xs : List α) (i j : Nat) : List α :=
  match xs.get? i, xs.get? j with
  | some a, some b => (xs.set i b).set j a
  | _, _ => xs

/-- The `Solver` struct from lib.rs.  The preallocated analysis buffers are
part of the state, as in the source. -/
structure Solver where
  clauses : List Clause
  watches : List (List Watcher)
  assignments : List VarValue
  level : List Nat
  reason : List (Option Nat)
  trail : List Lit
  trail_lim : List Nat
  q_head : Nat
  num_vars : Nat
  analyze_seen : List Bool
  analyze_toclear : List Nat
  analyze_clause : List Lit
deriving DecidableEq, Repr

/-- `Solver::new`. -/
def Solver.new (num_vars : Nat) : Solver where
  clauses := []
  watches := List.replicate (num_vars * 2) []
  assignments := List.replicate num_vars VarValue.Unassigned
  level := List.replicate num_vars 0
  reason := List.replicate num_vars none
  trail := []
  trail_lim := []
  q_head := 0
  num_vars := num_vars
  analyze_seen := List.replicate num_vars false
  analyze_toclear := []
  analyze_clause := []

/-- `Solver::decision_level`: `trail_lim.len()`. -/
def Solver.decision_level (s : Solver) : Nat := s.trail_lim.length

/-- `Solver::value_lit`. -/
def value_lit (assignments : List VarValue) (l : Lit) : VarValue :=
  match assignments.getD l.var VarValue.Unassigned with
  | VarValue.Unassigned => VarValue.Unassigned
  | VarValue.VTrue => if l.neg then VarValue.VFalse else VarValue.VTrue
  | VarValue.VFalse => if l.neg then VarValue.VTrue else VarValue.VFalse

/-- `Solver::unchecked_enqueue`.  If the variable is already assigned the
function returns immediately and the state is untouched. -/
def unchecked_enqueue (s : Solver) (lit : Lit) (reason : Option Nat) : Solver :=
  let var := lit.var
  if s.assignments.getD var VarValue.Unassigned ≠ VarValue.Unassigned then s
  else
    { s with
      assignments := s.assignments.set var
        (if lit.neg then VarValue.VFalse else VarValue.VTrue)
      level := s.level.set var s.trail_lim.length
      reason := s.reason.set var reason
      trail := s.trail ++ [lit] }

/-- Append a watcher to one watch list (`self.watches[idx].push(w)`). -/
def push_watch (w : List (List Watcher)) (idx : Nat) (x : Watcher) :
    List (List Watcher) :=
  w.set idx (w.getD idx [] ++ [x])

/-- Insertion step of the stable sort `lits.sort_by_key(|l| l.to_usize())`. -/
def insert_by_code (l : Lit) : List Lit → List Lit
  | [] => [l]
  | x :: xs => if l.code ≤ x.code then l :: x :: xs else x :: insert_by_code l xs

/-- `lits.sort_by_key(|l| l.to_usize())` as insertion sort. -/
def sort_by_code : List Lit → List Lit
  | [] => []
  | x :: xs => insert_by_code x (sort_by_code xs)

/-- `Vec::dedup`: drop adjacent duplicates. -/
def dedup_adj {α : Type} [DecidableEq α] : List α → List α
  | [] => []
  | [a] => [a]
  | a :: b :: rest =>
      if a = b then dedup_adj (b :: rest) else a :: dedup_adj (b :: rest)

/-- The scan `for k in 2..clause.lits.len()` looking for the first literal
that is not `False` under the current assignment. -/
def find_new_watch (assignments : List VarValue) (lits : List Lit) : Option Nat :=
  ((List.range lits.length).drop 2).find?
    (fun k => decide (value_lit assignments (lits.getD k default) ≠ VarValue.VFalse))

/-- One entry of the inner watcher loop of `Solver::propagate`, folded over
the detached watcher list.  Arguments: the dequeued (true) literal `p`, the
state, the conflict recorded so far, the kept prefix (write cursor), and the
remaining entries (read cursor). -/
def process_watchers (p : Lit) :
    Solver → Option Nat → List Watcher → List Watcher →
    Solver × Option Nat × List Watcher
  | s, conflict, kept, [] => (s, conflict, kept)
  | s, conflict, kept, w :: rest =>
    if conflict.isSome then
      process_watchers p s conflict (kept ++ [w]) rest
    else if value_lit s.assignments w.blocker = VarValue.VTrue then
      process_watchers p s conflict (kept ++ [w]) rest
    else
      let cr_idx := w.clause_idx
      let clause0 := s.clauses.getD cr_idx default
      let false_lit := p.not
      let clause1 :=
        if clause0.lits.getD 0 default = false_lit then
          { clause0 with lits := list_swap clause0.lits 0 1 }
        else clause0
      let s := { s with clauses := s.clauses.set cr_idx clause1 }
      let other := clause1.lits.getD 0 default
      if value_lit s.assignments other = VarValue.VTrue then
        process_watchers p s conflict (kept ++ [{ w with blocker := other }]) rest
      else
        match find_new_watch s.assignments clause1.lits with
        | some k =>
          let clause2 := { clause1 with lits := list_swap clause1.lits 1 k }
          let s := { s with clauses := s.clauses.set cr_idx clause2 }
          let newlit := clause2.lits.getD 1 default
          let s := { s with watches := push_watch s.watches newlit.not.code ⟨cr_idx, other⟩ }
          process_watchers p s conflict kept rest
        | none =>
          if value_lit s.assignments other = VarValue.VFalse then
            process_watchers p s (some cr_idx) (kept ++ [w]) rest
          else
            let s := unchecked_enqueue s other (some cr_idx)
            process_watchers p s conflict (kept ++ [w]) rest

/-- One dequeue step of `Solver::propagate`: take the watch list of the
newly falsified literal, filter it in place, and reattach the kept prefix. -/
def propagate_step (s : Solver) : Solver × Option Nat :=
  let p := s.trail.getD s.q_head default
  let s := { s with q_head := s.q_head + 1 }
  let idx := p.code
  let taken := s.watches.getD idx []
  let s := { s with watches := s.watches.set idx [] }
  match process_watchers p s none [] taken with
  | (s, conflict, kept) => ({ s with watches := s.watches.set idx kept }, conflict)

/-- `Solver::propagate`, with fuel for the outer `while q_head < trail.len()`
loop; `none` means the fuel ran out. -/
def propagate (fuel : Nat) (s : Solver) : Option (Solver × Option Nat) :=
  if s.q_head < s.trail.length then
    match fuel with
    | 0 => none
    | f + 1 =>
      match propagate_step s with
      | (s, some c) => some (s, some c)
      | (s, none) => propagate f s
  else some (s, none)

/-- `Solver::add_clause`.  Unit clauses are enqueued and propagated at once;
the Bool result is `false` exactly when the source reports UNSAT. -/
def add_clause (fuel : Nat) (s : Solver) (lits0 : List Lit) :
    Option (Solver × Bool) :=
  if lits0.isEmpty then some (s, false)
  else
    let lits := dedup_adj (sort_by_code lits0)
    if lits.length = 1 then
      let s := unchecked_enqueue s (lits.getD 0 default) none
      match propagate fuel s with
      | none => none
      | some (s, c) => some (s, c.isNone)
    else
      let clause_idx := s.clauses.length
      let l0 := lits.getD 0 default
      let l1 := lits.getD 1 default
      let s := { s with watches := push_watch s.watches l0.not.code ⟨clause_idx, l1⟩ }
      let s := { s with watches := push_watch s.watches l1.not.code ⟨clause_idx, l0⟩ }
      some ({ s with clauses := s.clauses ++ [⟨lits, false⟩] }, true)

/-- `Solver::rebuild_watches`: clear every watch list, then re-add watchers
for the first two literals of every clause of length at least two. -/
def rebuild_watches (s : Solver) : Solver :=
  let w := s.clauses.enum.foldl
    (fun w ic =>
      if ic.2.lits.length > 1 then
        let l0 := ic.2.lits.getD 0 default
        let l1 := ic.2.lits.getD 1 default
        push_watch (push_watch w l0.not.code ⟨ic.1, l1⟩) l1.not.code ⟨ic.1, l0⟩
      else w)
    (s.watches.map (fun _ => []))
  { s with watches := w }

/-- The literal scan of one resolvent inside `Solver::analyze`: marks
variables as seen and splits them between the conflict counter (current
level) and the learned-clause buffer (lower levels).  `dl` is the decision
level, `p` the pivot to skip at index 0. -/
def analyze_lits (dl : Nat) (p : Option Lit) :
    Nat → List Lit → Solver → Int → Solver × Int
  | _, [], s, counter => (s, counter)
  | i, lit :: rest, s, counter =>
    if i = 0 ∧ p = some lit then
      analyze_lits dl p (i + 1) rest s counter
    else
      let var := lit.var
      if s.analyze_seen.getD var false = false ∧ s.level.getD var 0 > 0 then
        let s := { s with
          analyze_seen := s.analyze_seen.set var true
          analyze_toclear := s.analyze_toclear ++ [var] }
        if s.level.getD var 0 = dl then
          analyze_lits dl p (i + 1) rest s (counter + 1)
        else
          analyze_lits dl p (i + 1) rest
            { s with analyze_clause := s.analyze_clause ++ [lit] } counter
      else
        analyze_lits dl p (i + 1) rest s counter

/-- The backward trail scan `while !seen[trail[index-1].var()] { index -= 1 }`
of `Solver::analyze`.  Returns the index value at loop exit; `none` models the
out-of-bounds panic at `trail[-1]`. -/
def scan_seen (seen : List Bool) (trail : List Lit) : Nat → Option Nat
  | 0 => none
  | i + 1 =>
    if seen.getD (trail.getD i default).var false then some (i + 1)
    else scan_seen seen trail i

/-- The resolution loop of `Solver::analyze`, with fuel; stops at the first
UIP (counter hits zero) and returns the final state and the UIP literal. -/
def analyze_loop (dl : Nat) :
    Nat → Solver → Int → Option Nat → Option Lit → Nat → Option (Solver × Lit)
  | 0, _, _, _, _, _ => none
  | fuel + 1, s, counter, current_clause_idx, p, index =>
    let sc :=
      match current_clause_idx with
      | some c_idx => analyze_lits dl p 0 (s.clauses.getD c_idx default).lits s counter
      | none => (s, counter)
    let s := sc.1
    let counter := sc.2
    match scan_seen s.analyze_seen s.trail index with
    | none => none
    | some idx1 =>
      let index := idx1 - 1
      let current_lit := s.trail.getD index default
      let p := some current_lit
      let cci := s.reason.getD current_lit.var none
      let s := { s with analyze_seen := s.analyze_seen.set current_lit.var false }
      let counter := counter - 1
      if counter = 0 then some (s, current_lit)
      else analyze_loop dl fuel s counter cci p index

/-- `Solver::analyze`: reset the scratch buffers, run the resolution loop,
prepend the negated UIP and compute the backjump level. -/
def analyze (fuel : Nat) (s : Solver) (conflict_idx : Nat) :
    Option (List Lit × Nat × Solver) :=
  let seen := s.analyze_toclear.foldl (fun f v => f.set v false) s.analyze_seen
  let s := { s with analyze_seen := seen, analyze_toclear := [], analyze_clause := [] }
  let dl := s.trail_lim.length
  match analyze_loop dl fuel s 0 (some conflict_idx) none s.trail.length with
  | none => none
  | some (s, plit) =>
    let s := { s with analyze_clause := plit.not :: s.analyze_clause }
    let bl :=
      if s.analyze_clause.length > 1 then
        ((s.analyze_clause.drop 1).map (fun l => s.level.getD l.var 0)).foldl max 0
      else 0
    some (s.analyze_clause, bl, s)

/-- The inner loop of `Solver::backtrack`: pop trail entries down to `limit`,
clearing value, reason and level.  (`on_unassign` is a no-op for the
reference random strategy.)  Fueled; callers pass the trail length. -/
def pop_trail (limit : Nat) : Nat → Solver → Solver
  | 0, s => s
  | f + 1, s =>
    if limit < s.trail.length then
      let lit := s.trail.getLastD default
      let var := lit.var
      let s := { s with
        trail := s.trail.dropLast
        assignments := s.assignments.set var VarValue.Unassigned
        reason := s.reason.set var none
        level := s.level.set var 0 }
      pop_trail limit f s
    else s

/-- The outer loop of `Solver::backtrack`: one decision level per round. -/
def backtrack_loop (level : Nat) : Nat → Solver → Solver
  | 0, s => s
  | f + 1, s =>
    if level < s.trail_lim.length then
      let limit := s.trail_lim.getLastD 0
      let s := pop_trail limit s.trail.length s
      let s := { s with trail_lim := s.trail_lim.dropLast }
      backtrack_loop level f s
    else s

/-- `Solver::backtrack`: unwind to `level` and reset the queue head.  The
fuel equals the number of decision levels, the exact iteration count. -/
def backtrack (s : Solver) (level : Nat) : Solver :=
  let s := backtrack_loop level s.trail_lim.length s
  { s with q_head := s.trail.length }

/-- One round of the outer loop of `Solver::backtrack`, factored out for the
proofs: pop the trail down to the last saved limit and drop that limit. -/
def bt_step (s : Solver) : Solver :=
  let limit := s.trail_lim.getLastD 0
  let s := pop_trail limit s.trail.length s
  { s with trail_lim := s.trail_lim.dropLast }

/-- `RandomStrategy` from lib.rs. -/
structure RandomStrategy where
  rng_state : Nat
  num_vars : Nat
deriving DecidableEq, Repr

/-- `RandomStrategy::new`: fixed seed for reproducibility. -/
def RandomStrategy.new (num_vars : Nat) : RandomStrategy :=
  ⟨123456789, num_vars⟩

/-- `RandomStrategy::next_rand`: the xorshift steps of the source on `u64`. -/
def next_rand (x0 : Nat) : Nat :=
  let x := (x0 ^^^ (x0 <<< 13)) % 2 ^ 64
  let x := x ^^^ (x >>> 7)
  (x ^^^ (x <<< 17)) % 2 ^ 64

/-- `RandomStrategy::pick_branch`.  `Except.error ()` models the arithmetic
panic of `self.next_rand() % self.num_vars` when `num_vars = 0`. -/
def pick_branch (st : RandomStrategy) (s : Solver) :
    RandomStrategy × Except Unit (Option Lit) :=
  let r1 := next_rand st.rng_state
  let st1 := { st with rng_state := r1 }
  if st.num_vars = 0 then (st1, Except.error ())
  else
    let start := r1 % st.num_vars
    match (List.range st.num_vars).find?
        (fun i =>
          s.assignments.getD ((start + i) % st.num_vars) VarValue.Unassigned
            == VarValue.Unassigned) with
    | some i =>
      let idx := (start + i) % st.num_vars
      let r2 := next_rand r1
      let st2 := { st1 with rng_state := r2 }
      (st2, Except.ok (some (Lit.new idx (r2 % 2 == 0))))
    | none => (st1, Except.ok none)

/-! ## Preprocessing (src/src/preprocessing.rs) -/

/-- `XorConstraint`: `x1 ^ ... ^ xn = rhs`. -/
structure XorConstraint where
  vars : List Nat
  rhs : Bool
deriving DecidableEq, Repr

/-- `PreprocessResult`. -/
structure PreprocessResult where
  clauses : List Clause
  units : List Lit
deriving DecidableEq, Repr

/-- `BitRow`: a GF(2) row as 64-bit chunks plus a right-hand side. -/
structure BitRow where
  chunks : List Nat
  rhs : Bool
deriving DecidableEq, Repr

instance : Inhabited BitRow := ⟨⟨[], false⟩⟩

/-- `BitRow::new`. -/
def BitRow.new (size : Nat) (rhs : Bool) : BitRow :=
  ⟨List.replicate ((size + 63) / 64) 0, rhs⟩

/-- `BitRow::set_bit`. -/
def BitRow.set_bit (r : BitRow) (idx : Nat) : BitRow :=
  let chunk := idx / 64
  let offset := idx % 64
  if chunk < r.chunks.length then
    { r with chunks := r.chunks.set chunk (r.chunks.getD chunk 0 ||| (1 <<< offset)) }
  else r

/-- `BitRow::get_bit`. -/
def BitRow.get_bit (r : BitRow) (idx : Nat) : Bool :=
  let chunk := idx / 64
  let offset := idx % 64
  if chunk < r.chunks.length then
    (r.chunks.getD chunk 0 &&& (1 <<< offset)) != 0
  else false

/-- `BitRow::xor_with` (`zip` pairs chunks up to the shorter length, as in
the source; rows in one matrix share a length). -/
def BitRow.xor_with (r o : BitRow) : BitRow :=
  ⟨List.zipWith (fun a b => a ^^^ b) r.chunks o.chunks, Bool.xor r.rhs o.rhs⟩

/-- `BitRow::is_zero_row`. -/
def BitRow.is_zero_row (r : BitRow) : Bool :=
  r.chunks.all (fun c => c == 0)

/-- Association-list model of the `HashMap<usize,(usize,bool)>` of variable
replacements: `insert` overwrites an existing key. -/
def hm_insert (m : List (Nat × Nat × Bool)) (k : Nat) (v : Nat × Bool) :
    List (Nat × Nat × Bool) :=
  if m.any (fun e => e.1 == k) then
    m.map (fun e => if e.1 = k then (k, v) else e)
  else m ++ [(k, v)]

/-- `HashMap::get` on the association-list model. -/
def hm_get (m : List (Nat × Nat × Bool)) (k : Nat) : Option (Nat × Bool) :=
  (m.find? (fun e => e.1 == k)).map (fun e => e.2)

/-- The bounded replacement chase of `apply_replacements`: the source loop
applies the map at most 101 times (`depth` passes 100 after the 101st
application) and stops early at the first non-key. -/
def chase (map : List (Nat × Nat × Bool)) : Nat → Nat → Bool → Nat × Bool
  | 0, var, neg => (var, neg)
  | depth + 1, var, neg =>
    match hm_get map var with
    | none => (var, neg)
    | some rv => chase map depth rv.1 (if rv.2 then !neg else neg)

/-- The per-literal body of `apply_replacements`: chase the replacement
chain of the literal's variable, accumulating the inversions. -/
def subst_lit (map : List (Nat × Nat × Bool)) (lit : Lit) : Lit :=
  let vb := chase map 101 lit.var lit.neg
  Lit.new vb.1 vb.2

/-- `apply_replacements`. -/
def apply_replacements (lits : List Lit) (map : List (Nat × Nat × Bool)) :
    List Lit :=
  lits.map (subst_lit map)

/-- `simplify_clause`: sort-dedup, and report a tautology when two adjacent
literals share a variable.  Returns the rewritten literals and the flag. -/
def simplify_clause (lits0 : List Lit) : List Lit × Bool :=
  let lits := dedup_adj (sort_by_code lits0)
  let taut := (List.range (lits.length - 1)).any
    (fun i => (lits.getD i default).var == (lits.getD (i + 1) default).var)
  (lits, taut)

/-- `u32::count_ones`, fueled bit count (fuel `n` always suffices). -/
def count_ones_aux : Nat → Nat → Nat
  | 0, _ => 0
  | f + 1, n => if n = 0 then 0 else n % 2 + count_ones_aux f (n / 2)

/-- `i.count_ones()` for the mask loop of `xor_to_cnf`. -/
def count_ones (n : Nat) : Nat := count_ones_aux n n

/-- `xor_to_cnf`: one clause per mask whose popcount parity matches
`target_negations_parity`; bit `b` of the mask is the sign of `vars[b]`. -/
def xor_to_cnf (vars : List Nat) (rhs : Bool) : List Clause :=
  let n := vars.length
  let target_negations_parity := if rhs then 0 else 1
  ((List.range (2 ^ n)).filter
      (fun i => count_ones i % 2 == target_negations_parity)).map
    (fun i =>
      ⟨vars.enum.map (fun bv => Lit.new bv.2 ((i >>> bv.1) &&& 1 == 1)), false⟩)

/-- Bit `b` of mask `i`: the sign `(i >> bit_idx) & 1 == 1` of `xor_to_cnf`. -/
def bit_of (i b : Nat) : Bool := (i >>> b) &&& 1 == 1

/-- The clause `xor_to_cnf` emits for mask `i`. -/
def xor_clause (vars : List Nat) (i : Nat) : Clause :=
  ⟨vars.enum.map (fun bv => Lit.new bv.2 (bit_of i bv.1)), false⟩

/-- A literal under a total boolean assignment. -/
def lit_sat (a : Nat → Bool) (l : Lit) : Bool := a (Lit.var l) != Lit.neg l

/-- A clause under a total boolean assignment: some literal is true. -/
def clause_sat (a : Nat → Bool) (c : Clause) : Bool := c.lits.any (lit_sat a)

/-- XOR of the values of `vars` under assignment `a`. -/
def xor_val (a : Nat → Bool) (vars : List Nat) : Bool := (vars.map a).foldl Bool.xor false

/-- Little-endian encoding of a list of signs as a mask. -/
def encode_mask : List Bool → Nat
  | [] => 0
  | b :: t => (if b then 1 else 0) + 2 * encode_mask t

/-- Number of masks below `2 ^ k` whose popcount has parity `p`. -/
def parity_count (p k : Nat) : Nat :=
  ((List.range (2 ^ k)).filter (fun i => count_ones i % 2 == p)).length

/-- The value of input variable `v` under mask `i` in
`check_semantic_xor_logic` (the `current_assignment` HashMap). -/
def lookup_input (inputs : List Nat) (i : Nat) (v : Nat) : Option Bool :=
  (inputs.enum.find? (fun bv => bv.2 == v)).map
    (fun bv => (i >>> bv.1) &&& 1 == 1)

/-- Parity of the input assignment encoded by mask `i`. -/
def input_parity (inputs : List Nat) (i : Nat) : Bool :=
  (List.range inputs.length).foldl
    (fun par bit => if (i >>> bit) &&& 1 == 1 then !par else par) false

/-- The per-clause scan of `check_semantic_xor_logic`: whether the clause is
satisfied by the inputs alone (scanning stops there, as the source breaks)
and the last literal of the target variable seen before that. -/
def clause_scan (target : Nat) (inputs : List Nat) (i : Nat) (lits : List Lit) :
    Bool × Option Lit :=
  lits.foldl
    (fun acc lit =>
      if acc.1 then acc
      else if lit.var = target then (false, some lit)
      else
        match lookup_input inputs i lit.var with
        | some val =>
          if (val ∧ ¬lit.neg) ∨ (¬val ∧ lit.neg) then (true, acc.2) else acc
        | none => acc)
    (false, none)

/-- Accumulate `forced_true` / `forced_false` over the relevant clauses for
one input row; `none` is the early `return None` (input row forbidden). -/
def forced_flags (target : Nat) (inputs : List Nat) (i : Nat)
    (clauses : List Clause) : List Nat → Bool → Bool → Option (Bool × Bool)
  | [], ft, ff => some (ft, ff)
  | c_idx :: rest, ft, ff =>
    let c := clauses.getD c_idx default
    let st := clause_scan target inputs i c.lits
    if st.1 then forced_flags target inputs i clauses rest ft ff
    else
      match st.2 with
      | some t =>
        if t.neg then forced_flags target inputs i clauses rest ft true
        else forced_flags target inputs i clauses rest true ff
      | none => none

/-- The input-row loop of `check_semantic_xor_logic`, threading the constant
relation `target_val ^ input_parity`. -/
def check_rows (target : Nat) (inputs : List Nat) (relevant : List Nat)
    (clauses : List Clause) : List Nat → Option Bool → Option (Option Bool)
  | [], rel => some rel
  | i :: rest, rel =>
    match forced_flags target inputs i clauses relevant false false with
    | none => none
    | some fts =>
      if fts.1 ∧ fts.2 then none
      else if ¬fts.1 ∧ ¬fts.2 then none
      else
        let relation := Bool.xor fts.1 (input_parity inputs i)
        match rel with
        | some er =>
          if er ≠ relation then none
          else check_rows target inputs relevant clauses rest rel
        | none => check_rows target inputs relevant clauses rest (some relation)

/-- `check_semantic_xor_logic`. -/
def check_semantic_xor_logic (target : Nat) (inputs : List Nat)
    (relevant : List Nat) (clauses : List Clause) : Option Bool :=
  match check_rows target inputs relevant clauses
      (List.range (2 ^ inputs.length)) none with
  | none => none
  | some rel => rel

/-- Ascending duplicate-free list of naturals (canonical model of the
`HashSet<usize>` iteration in `extract_semantic_xors`). -/
def insert_nat (n : Nat) : List Nat → List Nat
  | [] => [n]
  | x :: xs => if n ≤ x then n :: x :: xs else x :: insert_nat n xs

/-- Insertion sort for naturals. -/
def sort_nats : List Nat → List Nat
  | [] => []
  | x :: xs => insert_nat x (sort_nats xs)

/-- Sorted, duplicate-free view of a list of naturals. -/
def sort_dedup_nats (l : List Nat) : List Nat :=
  dedup_adj (sort_nats l)

/-- Set-insertion of a batch of clause indices into the `used_clauses` set. -/
def used_insert (used : List Nat) (idxs : List Nat) : List Nat :=
  idxs.foldl (fun u i => if u.contains i then u else u ++ [i]) used

/-- `extract_semantic_xors`: the adjacency map, the neighborhood filter and
the semantic truth-table check, per candidate output variable. -/
def extract_semantic_xors (clauses : List Clause) (num_vars : Nat) :
    List XorConstraint × List Nat :=
  let adj : List (List Nat) := clauses.enum.foldl
    (fun adj ic =>
      if ic.2.lits.length > 6 then adj
      else ic.2.lits.foldl
        (fun adj lit => adj.set lit.var (adj.getD lit.var [] ++ [ic.1])) adj)
    (List.replicate num_vars [])
  (List.range num_vars).foldl
    (fun acc var =>
      let clause_indices := adj.getD var []
      if clause_indices.isEmpty then acc
      else
        let neighbor_vec := sort_dedup_nats
          (clause_indices.foldl
            (fun ns c_idx =>
              ns ++ (clauses.getD c_idx default).lits.filterMap
                (fun l => if l.var ≠ var then some l.var else none))
            [])
        if neighbor_vec.length < 2 ∨ neighbor_vec.length > 4 then acc
        else
          match check_semantic_xor_logic var neighbor_vec clause_indices clauses with
          | none => acc
          | some rhs =>
            let xor_vars := neighbor_vec ++ [var]
            let consumed := clause_indices.filter
              (fun idx =>
                (clauses.getD idx default).lits.all
                  (fun l => l.var == var || neighbor_vec.contains l.var))
            (acc.1 ++ [⟨xor_vars, rhs⟩], used_insert acc.2 consumed))
    ([], [])

/-- The elimination of one pivot column: XOR the pivot row into every other
row with that bit set. -/
def ge_eliminate (matrix : List BitRow) (pivot_idx col : Nat) : List BitRow :=
  let pivotRow := matrix.getD pivot_idx default
  matrix.enum.map
    (fun ic =>
      if ic.1 ≠ pivot_idx ∧ ic.2.get_bit col then ic.2.xor_with pivotRow
      else ic.2)

/-- The column loop of the Gaussian elimination in `preprocess`. -/
def ge_loop : List Nat → Nat → List BitRow → List BitRow
  | [], _, m => m
  | col :: cols, pidx, m =>
    if pidx ≥ m.length then m
    else
      match ((List.range m.length).drop pidx).find?
          (fun r => (m.getD r default).get_bit col) with
      | some r =>
        let m := list_swap m pidx r
        let m := ge_eliminate m pidx col
        ge_loop cols (pidx + 1) m
      | none => ge_loop cols pidx m

/-- The chunk scan that lists the variables of a row in ascending order. -/
def row_vars (row : BitRow) : List Nat :=
  row.chunks.enum.foldl
    (fun acc ic =>
      if ic.2 = 0 then acc
      else
        acc ++ (List.range 64).filterMap
          (fun bit =>
            if (ic.2 &&& (1 <<< bit)) != 0 then some (ic.1 * 64 + bit) else none))
    []

/-- The result-interpretation loop of `preprocess` over the reduced rows:
collects expanded XOR clauses, units and replacements; the Bool is
`found_conflict` (which breaks the loop); `none` is the early
`return None` for rows wider than 12. -/
def interpret_rows :
    List BitRow → List Clause → List Lit → List (Nat × Nat × Bool) →
    Option (List Clause × List Lit × List (Nat × Nat × Bool) × Bool)
  | [], cl, us, reps => some (cl, us, reps, false)
  | row :: rest, cl, us, reps =>
    if row.is_zero_row then
      if row.rhs then some (cl, us, reps, true)
      else interpret_rows rest cl us reps
    else
      let vars := row_vars row
      if vars.isEmpty then interpret_rows rest cl us reps
      else if vars.length = 1 then
        interpret_rows rest cl (us ++ [Lit.new (vars.getD 0 0) !row.rhs]) reps
      else if vars.length = 2 then
        let v1 := vars.getD 0 0
        let v2 := vars.getD 1 0
        let ts := if v1 > v2 then (v1, v2) else (v2, v1)
        interpret_rows rest cl us (hm_insert reps ts.1 (ts.2, row.rhs))
      else if vars.length > 12 then none
      else interpret_rows rest (cl ++ xor_to_cnf vars row.rhs) us reps

/-- The substitution-and-rebuild loop of `preprocess` step 5 over one clause
list; `none` is the early return on an empty clause after substitution. -/
def subst_clauses (replacements : List (Nat × Nat × Bool)) :
    List Clause → List Clause → Option (List Clause)
  | [], acc => some acc
  | c :: rest, acc =>
    let nl := simplify_clause (apply_replacements c.lits replacements)
    if nl.2 then subst_clauses replacements rest acc
    else if nl.1.isEmpty then none
    else subst_clauses replacements rest (acc ++ [⟨nl.1, c.learned⟩])

/-- `preprocess`. -/
def preprocess (clauses : List Clause) (num_vars : Nat) :
    Option PreprocessResult :=
  let ex := extract_semantic_xors clauses num_vars
  let xors := ex.1
  let indices_to_remove := ex.2
  if xors.isEmpty then none
  else
    let matrix := xors.map
      (fun x => x.vars.foldl (fun row v => row.set_bit v) (BitRow.new num_vars x.rhs))
    let matrix := ge_loop (List.range num_vars) 0 matrix
    match interpret_rows matrix [] [] [] with
    | none => none
    | some (new_xor_clauses, units, replacements, found_conflict) =>
      if found_conflict then some ⟨[⟨[], false⟩], []⟩
      else
        let originals := (clauses.enum.filter
          (fun ic => ¬indices_to_remove.contains ic.1)).map (fun ic => ic.2)
        match subst_clauses replacements originals [] with
        | none => some ⟨[⟨[], false⟩], []⟩
        | some final1 =>
          match subst_clauses replacements new_xor_clauses final1 with
          | none => some ⟨[⟨[], false⟩], []⟩
          | some final_clauses =>
            if final_clauses.length ≥ clauses.length ∧ units.isEmpty ∧
                replacements.isEmpty then none
            else some ⟨final_clauses, units⟩

/-! ## The CDCL loop (`Solver::solve`) -/

/-- The part of one CDCL iteration after propagation: either handle the
conflict (analyze, backtrack, learn) or branch.  `Sum.inl` is a final
verdict (with the final state), `Sum.inr` continues. -/
def solve_step_after (pfuel : Nat) (st : RandomStrategy) (s : Solver)
    (conflict : Option Nat) :
    Option (Sum (Except Unit Bool × Solver) (Solver × RandomStrategy)) :=
  match conflict with
  | some conflict_idx =>
    if s.trail_lim.length = 0 then some (Sum.inl (Except.ok false, s))
    else
      match analyze pfuel s conflict_idx with
      | none => none
      | some (learned, bl, s) =>
        let s := backtrack s bl
        if learned.isEmpty then some (Sum.inr (s, st))
        else
          let lidx := s.clauses.length
          let c0 := learned.getD 0 default
          let c1 := if learned.length > 1 then learned.getD 1 default else c0
          let s :=
            if learned.length > 1 then
              let s := { s with watches := push_watch s.watches c0.not.code ⟨lidx, c1⟩ }
              { s with watches := push_watch s.watches c1.not.code ⟨lidx, c0⟩ }
            else
              let s := { s with watches := push_watch s.watches c0.not.code ⟨lidx, c0⟩ }
              { s with watches := push_watch s.watches c0.not.code ⟨lidx, c0⟩ }
          let s := { s with clauses := s.clauses ++ [⟨learned, true⟩] }
          let s := unchecked_enqueue s c0 (some lidx)
          some (Sum.inr (s, st))
  | none =>
    match pick_branch st s with
    | (_, Except.error e) => some (Sum.inl (Except.error e, s))
    | (_, Except.ok none) => some (Sum.inl (Except.ok true, s))
    | (st, Except.ok (some lit)) =>
      let s := { s with trail_lim := s.trail_lim ++ [s.trail.length] }
      let s := unchecked_enqueue s lit none
      some (Sum.inr (s, st))

/-- One iteration of the CDCL loop of `Solver::solve`: propagate, then
`solve_step_after`.  `pfuel` is the fuel handed to the propagation and
analysis loops; a fuel exhaustion inside them surfaces as `none`. -/
def solve_step (pfuel : Nat) (x : Solver × RandomStrategy) :
    Option (Sum (Except Unit Bool × Solver) (Solver × RandomStrategy)) :=
  match propagate pfuel x.1 with
  | none => none
  | some (s, conflict) => solve_step_after pfuel x.2 s conflict

/-- The CDCL loop: iterate `solve_step` until a verdict, with fuel. -/
def solve_loop (pfuel : Nat) :
    Nat → Solver × RandomStrategy → Option (Except Unit Bool × Solver)
  | 0, _ => none
  | fuel + 1, x =>
    match solve_step pfuel x with
    | none => none
    | some (Sum.inl r) => some r
    | some (Sum.inr y) => solve_loop pfuel fuel y

/-- The preprocessing prologue of `Solver::solve`: install the preprocessor
result when there is one (replace the clause database, rebuild the watch
lists, enqueue the units at root), otherwise leave the state untouched. -/
def solve_prologue (s : Solver) : Solver :=
  match preprocess s.clauses s.num_vars with
  | some result =>
    let s := { s with clauses := result.clauses }
    let s := rebuild_watches s
    result.units.foldl (fun s lit => unchecked_enqueue s lit none) s
  | none => s

/-- `Solver::solve`: run the preprocessor, install its result if any, then
run the CDCL loop.  The final solver state is returned alongside the
verdict, since the Rust caller keeps reading `self` (notably `assignments`)
after `solve` returns. -/
def solve (fuel : Nat) (s : Solver) (st : RandomStrategy) :
    Option (Except Unit Bool × Solver) :=
  solve_loop fuel fuel (solve_prologue s, st)

/-- Insert a list of clauses with `add_clause`, ignoring the Bool results as
`run_solver_on_content` does. -/
def add_clauses (fuel : Nat) : Solver → List (List Lit) → Option Solver
  | s, [] => some s
  | s, c :: rest =>
    match add_clause fuel s c with
    | none => none
    | some (s, _) => add_clauses fuel s rest

/-- The pipeline of `run_solver_on_content` after parsing: fresh solver,
insert every clause, solve with the fresh random strategy. -/
def run_solver (fuel : Nat) (num_vars : Nat) (clause_lists : List (List Lit)) :
    Option (Except Unit Bool × Solver) :=
  match add_clauses fuel (Solver.new num_vars) clause_lists with
  | none => none
  | some s => solve fuel s (RandomStrategy.new num_vars)

/-- The verdict of the full pipeline, without the state. -/
def run_verdict (fuel : Nat) (num_vars : Nat) (clause_lists : List (List Lit)) :
    Option (Except Unit Bool) :=
  (run_solver fuel num_vars clause_lists).map (fun p => p.1)

/-! ### Branch views of the fueled loops

The following definitions name the continuation of each loop after its
scrutinee has been computed; the accompanying equations (proved on
symbolic arguments) let a concrete run be replayed one step at a time. -/

/-- The continuation of `propagate` after one dequeue step. -/
def propagate_branch (f : Nat) : Solver × Option Nat → Option (Solver × Option Nat)
  | (s, some c) => some (s, some c)
  | (s, none) => propagate f s

/-- The continuation of `solve_step` after propagation. -/
def solve_step_branch (pfuel : Nat) (st : RandomStrategy) :
    Option (Solver × Option Nat) →
    Option (Sum (Except Unit Bool × Solver) (Solver × RandomStrategy))
  | none => none
  | some (s, c) => solve_step_after pfuel st s c

/-- The continuation of `solve_loop` after one iteration. -/
def solve_loop_branch (pf f : Nat) :
    Option (Sum (Except Unit Bool × Solver) (Solver × RandomStrategy)) →
    Option (Except Unit Bool × Solver)
  | none => none
  | some (Sum.inl r) => some r
  | some (Sum.inr y) => solve_loop pf f y

/-- The continuation of `run_solver` after clause insertion. -/
def run_solver_branch (fuel num_vars : Nat) :
    Option Solver → Option (Except Unit Bool × Solver)
  | none => none
  | some s => solve fuel s (RandomStrategy.new num_vars)

/-- Classification of a fueled run: fuel exhausted, Rust panic, SAT or
UNSAT verdict. -/
inductive RunOutcome
  | fuel_out
  | panicked
  | sat
  | unsat
deriving DecidableEq, Repr

/-- Classify the result of `solve` / `run_solver`. -/
def outcome (r : Option (Except Unit Bool × Solver)) : RunOutcome :=
  match r with
  | none => RunOutcome.fuel_out
  | some (Except.error _, _) => RunOutcome.panicked
  | some (Except.ok true, _) => RunOutcome.sat
  | some (Except.ok false, _) => RunOutcome.unsat

/-- Truth of a clause under an assignment: some literal evaluates to
`VTrue`.  This is the evaluation notion of spec property P1. -/
def clause_true (a : List VarValue) (lits : List Lit) : Bool :=
  lits.any (fun l => value_lit a l == VarValue.VTrue)

/-! ## Concrete inputs and intermediate states for the claim theorems -/

/-- The failing input for claim C1: the CNF encoding of
`x1 XOR x2 XOR x3 = 1` (four clauses) together with the CNF encoding of
`x1 XOR x2 XOR x4 = 0` (four clauses), written as literal codes
(`2*var + neg`). -/
def c1_formula : List (List Lit) :=
  [[⟨0⟩, ⟨2⟩, ⟨4⟩], [⟨1⟩, ⟨3⟩, ⟨4⟩], [⟨1⟩, ⟨2⟩, ⟨5⟩], [⟨0⟩, ⟨3⟩, ⟨5⟩],
   [⟨1⟩, ⟨2⟩, ⟨6⟩], [⟨0⟩, ⟨3⟩, ⟨6⟩], [⟨0⟩, ⟨2⟩, ⟨7⟩], [⟨1⟩, ⟨3⟩, ⟨7⟩]]

/-- The solver state after inserting `c1_formula` into a fresh solver. -/
def c1_s0 : Solver :=
{ clauses := [{ lits := [{ code := 0 }, { code := 2 }, { code := 4 }], learned := false },
              { lits := [{ code := 1 }, { code := 3 }, { code := 4 }], learned := false },
              { lits := [{ code := 1 }, { code := 2 }, { code := 5 }], learned := false },
              { lits := [{ code := 0 }, { code := 3 }, { code := 5 }], learned := false },
              { lits := [{ code := 1 }, { code := 2 }, { code := 6 }], learned := false },
              { lits := [{ code := 0 }, { code := 3 }, { code := 6 }], learned := false },
              { lits := [{ code := 0 }, { code := 2 }, { code := 7 }], learned := false },
              { lits := [{ code := 1 }, { code := 3 }, { code := 7 }], learned := false }],
  watches := [[{ clause_idx := 1, blocker := { code := 3 } },
               { clause_idx := 2, blocker := { code := 2 } },
               { clause_idx := 4, blocker := { code := 2 } },
               { clause_idx := 7, blocker := { code := 3 } }],
              [{ clause_idx := 0, blocker := { code := 2 } },
               { clause_idx := 3, blocker := { code := 3 } },
               { clause_idx := 5, blocker := { code := 3 } },
               { clause_idx := 6, blocker := { code := 2 } }],
              [{ clause_idx := 1, blocker := { code := 1 } },
               { clause_idx := 3, blocker := { code := 0 } },
               { clause_idx := 5, blocker := { code := 0 } },
               { clause_idx := 7, blocker := { code := 1 } }],
              [{ clause_idx := 0, blocker := { code := 0 } },
               { clause_idx := 2, blocker := { code := 1 } },
               { clause_idx := 4, blocker := { code := 1 } },
               { clause_idx := 6, blocker := { code := 0 } }],
              [],
              [],
              [],
              []],
  assignments := [VarValue.Unassigned,
                  VarValue.Unassigned,
                  VarValue.Unassigned,
                  VarValue.Unassigned],
  level := [0, 0, 0, 0],
  reason := [none, none, none, none],
  trail := [],
  trail_lim := [],
  q_head := 0,
  num_vars := 4,
  analyze_seen := [false, false, false, false],
  analyze_toclear := [],
  analyze_clause := [] }

/-- The state after the preprocessing prologue: the preprocessor consumed all eight clauses, re-expanded one three-variable XOR row and recorded the replacement of variable 3 by variable 2, dropping the equivalence itself. -/
def c1_s1 : Solver :=
{ clauses := [{ lits := [{ code := 1 }, { code := 2 }, { code := 5 }], learned := false },
              { lits := [{ code := 0 }, { code := 3 }, { code := 5 }], learned := false },
              { lits := [{ code := 0 }, { code := 2 }, { code := 4 }], learned := false },
              { lits := [{ code := 1 }, { code := 3 }, { code := 4 }], learned := false }],
  watches := [[{ clause_idx := 0, blocker := { code := 2 } }, { clause_idx := 3, blocker := { code := 3 } }],
              [{ clause_idx := 1, blocker := { code := 3 } }, { clause_idx := 2, blocker := { code := 2 } }],
              [{ clause_idx := 1, blocker := { code := 0 } }, { clause_idx := 3, blocker := { code := 1 } }],
              [{ clause_idx := 0, blocker := { code := 1 } }, { clause_idx := 2, blocker := { code := 0 } }],
              [],
              [],
              [],
              []],
  assignments := [VarValue.Unassigned,
                  VarValue.Unassigned,
                  VarValue.Unassigned,
                  VarValue.Unassigned],
  level := [0, 0, 0, 0],
  reason := [none, none, none, none],
  trail := [],
  trail_lim := [],
  q_head := 0,
  num_vars := 4,
  analyze_seen := [false, false, false, false],
  analyze_toclear := [],
  analyze_clause := [] }

/-- The state after the first decision. -/
def c1_s2 : Solver :=
{ clauses := [{ lits := [{ code := 1 }, { code := 2 }, { code := 5 }], learned := false },
              { lits := [{ code := 0 }, { code := 3 }, { code := 5 }], learned := false },
              { lits := [{ code := 0 }, { code := 2 }, { code := 4 }], learned := false },
              { lits := [{ code := 1 }, { code := 3 }, { code := 4 }], learned := false }],
  watches := [[{ clause_idx := 0, blocker := { code := 2 } }, { clause_idx := 3, blocker := { code := 3 } }],
              [{ clause_idx := 1, blocker := { code := 3 } }, { clause_idx := 2, blocker := { code := 2 } }],
              [{ clause_idx := 1, blocker := { code := 0 } }, { clause_idx := 3, blocker := { code := 1 } }],
              [{ clause_idx := 0, blocker := { code := 1 } }, { clause_idx := 2, blocker := { code := 0 } }],
              [],
              [],
              [],
              []],
  assignments := [VarValue.Unassigned,
                  VarValue.Unassigned,
                  VarValue.Unassigned,
                  VarValue.VFalse],
  level := [0, 0, 0, 1],
  reason := [none, none, none, none],
  trail := [{ code := 7 }],
  trail_lim := [0],
  q_head := 0,
  num_vars := 4,
  analyze_seen := [false, false, false, false],
  analyze_toclear := [],
  analyze_clause := [] }

/-- The PRNG state after the first decision. -/
def c1_r1 : RandomStrategy :=
{ rng_state := 14571250924493977904, num_vars := 4 }

/-- The state after the second decision. -/
def c1_s3 : Solver :=
{ clauses := [{ lits := [{ code := 1 }, { code := 2 }, { code := 5 }], learned := false },
              { lits := [{ code := 0 }, { code := 3 }, { code := 5 }], learned := false },
              { lits := [{ code := 0 }, { code := 2 }, { code := 4 }], learned := false },
              { lits := [{ code := 1 }, { code := 3 }, { code := 4 }], learned := false }],
  watches := [[{ clause_idx := 0, blocker := { code := 2 } }, { clause_idx := 3, blocker := { code := 3 } }],
              [{ clause_idx := 1, blocker := { code := 3 } }, { clause_idx := 2, blocker := { code := 2 } }],
              [{ clause_idx := 1, blocker := { code := 0 } }, { clause_idx := 3, blocker := { code := 1 } }],
              [{ clause_idx := 0, blocker := { code := 1 } }, { clause_idx := 2, blocker := { code := 0 } }],
              [],
              [],
              [],
              []],
  assignments := [VarValue.Unassigned,
                  VarValue.Unassigned,
                  VarValue.VFalse,
                  VarValue.VFalse],
  level := [0, 0, 2, 1],
  reason := [none, none, none, none],
  trail := [{ code := 7 }, { code := 5 }],
  trail_lim := [0, 1],
  q_head := 1,
  num_vars := 4,
  analyze_seen := [false, false, false, false],
  analyze_toclear := [],
  analyze_clause := [] }

/-- The PRNG state after the second decision. -/
def c1_r2 : RandomStrategy :=
{ rng_state := 1914567331323306758, num_vars := 4 }

/-- The state after the third decision. -/
def c1_s4 : Solver :=
{ clauses := [{ lits := [{ code := 1 }, { code := 2 }, { code := 5 }], learned := false },
              { lits := [{ code := 0 }, { code := 3 }, { code := 5 }], learned := false },
              { lits := [{ code := 0 }, { code := 2 }, { code := 4 }], learned := false },
              { lits := [{ code := 1 }, { code := 3 }, { code := 4 }], learned := false }],
  watches := [[{ clause_idx := 0, blocker := { code := 2 } }, { clause_idx := 3, blocker := { code := 3 } }],
              [{ clause_idx := 1, blocker := { code := 3 } }, { clause_idx := 2, blocker := { code := 2 } }],
              [{ clause_idx := 1, blocker := { code := 0 } }, { clause_idx := 3, blocker := { code := 1 } }],
              [{ clause_idx := 0, blocker := { code := 1 } }, { clause_idx := 2, blocker := { code := 0 } }],
              [],
              [],
              [],
              []],
  assignments := [VarValue.VFalse, VarValue.Unassigned, VarValue.VFalse, VarValue.VFalse],
  level := [3, 0, 2, 1],
  reason := [none, none, none, none],
  trail := [{ code := 7 }, { code := 5 }, { code := 1 }],
  trail_lim := [0, 1, 2],
  q_head := 2,
  num_vars := 4,
  analyze_seen := [false, false, false, false],
  analyze_toclear := [],
  analyze_clause := [] }

/-- The PRNG state after the third decision. -/
def c1_r3 : RandomStrategy :=
{ rng_state := 8359656556782340826, num_vars := 4 }

/-- The state after the first propagation dequeue of the final iteration. -/
def c1_t1 : Solver :=
{ clauses := [{ lits := [{ code := 1 }, { code := 2 }, { code := 5 }], learned := false },
              { lits := [{ code := 3 }, { code := 5 }, { code := 0 }], learned := false },
              { lits := [{ code := 2 }, { code := 0 }, { code := 4 }], learned := false },
              { lits := [{ code := 1 }, { code := 3 }, { code := 4 }], learned := false }],
  watches := [[{ clause_idx := 0, blocker := { code := 2 } }, { clause_idx := 3, blocker := { code := 3 } }],
              [{ clause_idx := 2, blocker := { code := 2 } }],
              [{ clause_idx := 1, blocker := { code := 0 } }, { clause_idx := 3, blocker := { code := 1 } }],
              [{ clause_idx := 0, blocker := { code := 1 } }, { clause_idx := 2, blocker := { code := 0 } }],
              [{ clause_idx := 1, blocker := { code := 3 } }],
              [],
              [],
              []],
  assignments := [VarValue.VFalse, VarValue.VTrue, VarValue.VFalse, VarValue.VFalse],
  level := [3, 3, 2, 1],
  reason := [none, some 2, none, none],
  trail := [{ code := 7 }, { code := 5 }, { code := 1 }, { code := 2 }],
  trail_lim := [0, 1, 2],
  q_head := 3,
  num_vars := 4,
  analyze_seen := [false, false, false, false],
  analyze_toclear := [],
  analyze_clause := [] }

/-- The final solver state of the run on `c1_formula`: SAT is reported with assignment x1=F, x2=T, x3=F, x4=F, which falsifies the original clause `[x1, -x2, x4]` (index 5). -/
def c1_final : Solver :=
{ clauses := [{ lits := [{ code := 1 }, { code := 2 }, { code := 5 }], learned := false },
              { lits := [{ code := 5 }, { code := 3 }, { code := 0 }], learned := false },
              { lits := [{ code := 2 }, { code := 0 }, { code := 4 }], learned := false },
              { lits := [{ code := 1 }, { code := 3 }, { code := 4 }], learned := false }],
  watches := [[{ clause_idx := 0, blocker := { code := 2 } }, { clause_idx := 3, blocker := { code := 3 } }],
              [{ clause_idx := 2, blocker := { code := 2 } }],
              [{ clause_idx := 1, blocker := { code := 5 } }, { clause_idx := 3, blocker := { code := 1 } }],
              [{ clause_idx := 0, blocker := { code := 1 } }, { clause_idx := 2, blocker := { code := 0 } }],
              [{ clause_idx := 1, blocker := { code := 3 } }],
              [],
              [],
              []],
  assignments := [VarValue.VFalse, VarValue.VTrue, VarValue.VFalse, VarValue.VFalse],
  level := [3, 3, 2, 1],
  reason := [none, some 2, none, none],
  trail := [{ code := 7 }, { code := 5 }, { code := 1 }, { code := 2 }],
  trail_lim := [0, 1, 2],
  q_head := 4,
  num_vars := 4,
  analyze_seen := [false, false, false, false],
  analyze_toclear := [],
  analyze_clause := [] }

/-- The solver state after `add_clause([1])` on a one-variable solver:
variable 0 is `True` on the trail at level 0 and the queue is drained. -/
def c2_s1 : Solver :=
{ clauses := [],
  watches := [[], []],
  assignments := [VarValue.VTrue],
  level := [0],
  reason := [none],
  trail := [⟨0⟩],
  trail_lim := [],
  q_head := 1,
  num_vars := 1,
  analyze_seen := [false],
  analyze_toclear := [],
  analyze_clause := [] }

/-- The clause database a preprocessor contradiction produces: a single
empty clause (claim C3).  `Solver.clauses` is public in the source, so this
state is directly constructible; it is also exactly what `solve` would hold
after installing such a preprocessor result. -/
def c3_state : Solver :=
  { Solver.new 1 with clauses := [⟨[], false⟩] }

/-- The spec example for claim C3: the XOR chain x1+x2=1, x2+x3=1, x3+x1=0
in CNF (six clauses over three variables). -/
def chain_formula : List Clause :=
  [⟨[⟨0⟩, ⟨2⟩], false⟩, ⟨[⟨1⟩, ⟨3⟩], false⟩,
   ⟨[⟨2⟩, ⟨4⟩], false⟩, ⟨[⟨3⟩, ⟨5⟩], false⟩,
   ⟨[⟨0⟩, ⟨5⟩], false⟩, ⟨[⟨1⟩, ⟨4⟩], false⟩]

/-- A one-variable state with variable 0 already assigned (claim C10's
witness). -/
def c10_state : Solver :=
  unchecked_enqueue (Solver.new 1) (Lit.new 0 false) none

/-- One step of the replacement chain of `apply_replacements`: the source
variable of the map entry, or the variable itself when it is not a key. -/
def step_var (map : List (Nat × Nat × Bool)) (v : Nat) : Nat :=
  match hm_get map v with
  | some rv => rv.1
  | none => v

/-- A replacement map whose chains terminate within the source's depth
bound: from every variable, at most 100 steps reach a non-key. -/
def chains_terminate (map : List (Nat × Nat × Bool)) : Prop :=
  ∀ v : Nat, ∃ k, k ≤ 100 ∧ hm_get map ((step_var map)^[k] v) = none

/-- The example replacement map for claim C9's witness: rewrite variable 3
to variable 2, as `preprocess` produces for the GF(2) row x3 XOR x4 = 0. -/
def c9_map : List (Nat × Nat × Bool) := [(3, (2, false))]

/-- A two-variable state for claim C7's witness: variable 0 assigned `True`
at level 0 (a root unit), variable 1 assigned `True` by the decision that
opened level 1. -/
def c7_state : Solver :=
{ clauses := [],
  watches := [[], [], [], []],
  assignments := [VarValue.VTrue, VarValue.VTrue],
  level := [0, 1],
  reason := [none, none],
  trail := [⟨0⟩, ⟨2⟩],
  trail_lim := [1],
  q_head := 2,
  num_vars := 2,
  analyze_seen := [false, false],
  analyze_toclear := [],
  analyze_clause := [] }

/-! ## The trail invariant of claim C8 -/

/-- The state invariant of claim C8 on trail and assignments, strengthened
to an inductive shape: the assignment array has one slot per variable, every
trail literal is in range, no variable occurs twice on the trail, a variable
is assigned exactly when it is on the trail, and every stored clause only
mentions in-range variables. -/
def TrailInv (s : Solver) : Prop :=
  s.assignments.length = s.num_vars ∧
  (∀ l ∈ s.trail, Lit.var l < s.num_vars) ∧
  (s.trail.map Lit.var).Nodup ∧
  (∀ v : Nat, s.assignments.getD v VarValue.Unassigned ≠ VarValue.Unassigned ↔
    v ∈ s.trail.map Lit.var) ∧
  (∀ c ∈ s.clauses, ∀ l ∈ c.lits, Lit.var l < s.num_vars)

/-- A watcher entry actually points at a stored clause with at least two
literals (otherwise the propagation loop of the source indexes out of
bounds). -/
def WValid (s : Solver) (w : Watcher) : Prop :=
  w.clause_idx < s.clauses.length ∧
  2 ≤ (s.clauses.getD w.clause_idx default).lits.length

/-- All watcher lists are valid. -/
def WatchOK (s : Solver) : Prop :=
  ∀ i : Nat, ∀ w ∈ s.watches.getD i [], WValid s w

/-- Solver states reachable from a fresh solver by the five operations the
CDCL loop performs: clause insertion, propagation, conflict analysis,
backtracking and decisions.  The `add` and `decide` steps carry the range
conditions under which the source does not index out of bounds. -/
inductive Reach : Solver → Prop where
  | init : ∀ n : Nat, Reach (Solver.new n)
  | add : ∀ (s : Solver) (fuel : Nat) (lits0 : List Lit) (r : Solver) (b : Bool),
      Reach s → (∀ l ∈ lits0, Lit.var l < s.num_vars) →
      add_clause fuel s lits0 = some (r, b) → Reach r
  | prop : ∀ (s : Solver) (fuel : Nat) (r : Solver) (c : Option Nat),
      Reach s → propagate fuel s = some (r, c) → Reach r
  | analyzeStep : ∀ (s : Solver) (fuel conflict_idx : Nat) (learned : List Lit)
      (bl : Nat) (r : Solver),
      Reach s → analyze fuel s conflict_idx = some (learned, bl, r) → Reach r
  | backtrackStep : ∀ (s : Solver) (lvl : Nat), Reach s → Reach (backtrack s lvl)
  | decideStep : ∀ (s : Solver) (lit : Lit), Reach s → Lit.var lit < s.num_vars →
      Reach (unchecked_enqueue
        { s with trail_lim := s.trail_lim ++ [s.trail.length] } lit none)

/-- The tail of one `analyze_loop` round after the clause scan: the backward
trail scan, the seen-bit reset of the pivot, and the exit test.  Factored out
for the frame proofs. -/
def analyze_loop_tail (dl fuel : Nat) (s : Solver) (counter : Int) (index : Nat) :
    Option (Solver × Lit) :=
  match scan_seen s.analyze_seen s.trail index with
  | none => none
  | some idx1 =>
    let index2 := idx1 - 1
    let current_lit := s.trail.getD index2 default
    let s2 := { s with analyze_seen := s.analyze_seen.set current_lit.var false }
    if counter - 1 = 0 then some (s2, current_lit)
    else analyze_loop dl fuel s2 (counter - 1)
      (s.reason.getD current_lit.var none) (some current_lit) index2

/-- The state reached from a fresh one-variable solver by inserting the unit
clause `[x1]`: the witness state for claim C8. -/
def c8_state : Solver :=
{ clauses := [],
  watches := [[], []],
  assignments := [VarValue.VTrue],
  level := [0],
  reason := [none],
  trail := [⟨0⟩],
  trail_lim := [],
  q_head := 1,
  num_vars := 1,
  analyze_seen := [false],
  analyze_toclear := [],
  analyze_clause := [] }

/-- A literal as the conflict-analysis scan expects it: false under the
current assignment, assigned at a level at most `dl`, and sitting on the
trail strictly below position `index`. -/
def LitOK (s : Solver) (dl index : Nat) (l : Lit) : Prop :=
  value_lit s.assignments l = VarValue.VFalse ∧
  s.level.getD (Lit.var l) 0 ≤ dl ∧
  ∃ (j : Nat) (hj : j < s.trail.length), j < index ∧ Lit.var s.trail[j] = Lit.var l

/-- The number of seen conflict-level trail entries below position
`index` (`s` holds the static fields, `T` the evolving seen bits). -/
def DlSeen (s T : Solver) (dl index : Nat) : Nat :=
  (s.trail.take index).countP
    (fun l => T.analyze_seen.getD (Lit.var l) false &&
      (s.level.getD (Lit.var l) 0 == dl))

/-- The facts about a conflict state that `analyze` relies on: a
duplicate-free trail of true literals carrying the assigned variables,
levels bounded by the decision level and arranged in blocks delimited by
`trail_lim`, and reason clauses whose head is the implied (true) literal
with all other literals false and assigned earlier on the trail. -/
def AStatic (s : Solver) : Prop :=
  (s.trail.map Lit.var).Nodup ∧
  (∀ v : Nat, s.assignments.getD v VarValue.Unassigned ≠ VarValue.Unassigned ↔
    v ∈ s.trail.map Lit.var) ∧
  (∀ (i : Nat) (hi : i < s.trail.length),
    value_lit s.assignments s.trail[i] = VarValue.VTrue) ∧
  (∀ (i : Nat) (hi : i < s.trail.length),
    s.level.getD (Lit.var s.trail[i]) 0 ≤ s.trail_lim.length) ∧
  (∀ (k : Nat), k < s.trail_lim.length → ∀ (i : Nat) (hi : i < s.trail.length),
    (s.trail_lim.getD k 0 ≤ i ↔ k < s.level.getD (Lit.var s.trail[i]) 0)) ∧
  (∀ (i : Nat) (hi : i < s.trail.length), Lit.var s.trail[i] < s.num_vars) ∧
  (∀ (v c : Nat), s.reason.getD v none = some c →
    value_lit s.assignments ((s.clauses.getD c default).lits.getD 0 default)
        = VarValue.VTrue ∧
    Lit.var ((s.clauses.getD c default).lits.getD 0 default) = v ∧
    (∀ l ∈ (s.clauses.getD c default).lits.drop 1,
      value_lit s.assignments l = VarValue.VFalse) ∧
    (∀ (i : Nat) (hi : i < s.trail.length), Lit.var s.trail[i] = v →
      ∀ l ∈ (s.clauses.getD c default).lits.drop 1,
        ∃ (j : Nat) (hj : j < s.trail.length), Lit.var s.trail[j] = Lit.var l ∧ j < i))

/-- The running invariant of `analyze_loop`: the evolving state agrees with
the conflict state outside the analysis buffers, the counter is
non-negative and bounded by the seen conflict-level entries below the scan
frontier, and the learned-clause buffer holds false literals of
intermediate levels. -/
def ALoopInv (s T : Solver) (counter : Int) (index : Nat) : Prop :=
  T.assignments = s.assignments ∧ T.trail = s.trail ∧ T.level = s.level ∧
  T.reason = s.reason ∧ T.clauses = s.clauses ∧ T.trail_lim = s.trail_lim ∧
  T.analyze_seen.length = s.num_vars ∧
  index ≤ s.trail.length ∧
  0 ≤ counter ∧
  counter ≤ (DlSeen s T s.trail_lim.length index : Int) ∧
  (∀ l ∈ T.analyze_clause, value_lit s.assignments l = VarValue.VFalse ∧
    0 < s.level.getD (Lit.var l) 0 ∧
    s.level.getD (Lit.var l) 0 < s.trail_lim.length)

/-- The clause about to be scanned by an `analyze_loop` round is in the
shape the scan expects: on the first round every literal is a false trail
literal, on later rounds the head is the pivot and the rest are false
trail literals assigned below the scan frontier. -/
def AScanOK (s : Solver) (index : Nat) (cci : Option Nat) (p : Option Lit) : Prop :=
  match cci with
  | none => True
  | some c =>
    match p with
    | none =>
      ∀ l ∈ (s.clauses.getD c default).lits, LitOK s s.trail_lim.length index l
    | some pl =>
      ((s.clauses.getD c default).lits = [] ∨
        (s.clauses.getD c default).lits.getD 0 default = pl) ∧
      ∀ l ∈ (s.clauses.getD c default).lits.drop 1,
        LitOK s s.trail_lim.length index l

/-- The progress condition of an `analyze_loop` round: either some seen
conflict-level entry remains, or this is the first round and the conflict
clause still contributes an unseen conflict-level literal. -/
def AProgress (s T : Solver) (cci : Option Nat) (p : Option Lit)
    (counter : Int) : Prop :=
  1 ≤ counter ∨
  (p = none ∧ ∃ c, cci = some c ∧ ∃ l ∈ (s.clauses.getD c default).lits,
    s.level.getD (Lit.var l) 0 = s.trail_lim.length ∧
    T.analyze_seen.getD (Lit.var l) false = false)

/-! ## Claim theorems -/

/-- Equation: one propagation round when the queue is non-empty. -/
theorem propagate_succ (f : Nat) (s : Solver) (h : s.q_head < s.trail.length) :
    propagate (f + 1) s = propagate_branch f (propagate_step s) := by
  unfold propagate
  rw [if_pos h]
  generalize propagate_step s = ps
  rcases ps with ⟨s1, c⟩
  cases c <;> rfl

/-- Equation: propagation returns when the queue is drained. -/
theorem propagate_stop (f : Nat) (s : Solver) (h : ¬ s.q_head < s.trail.length) :
    propagate f s = some (s, none) := by
  unfold propagate
  rw [if_neg h]

/-- Equation: the no-conflict branch of a propagation round. -/
theorem propagate_branch_none (f : Nat) (s : Solver) :
    propagate_branch f (s, none) = propagate f s := rfl

/-- Equation: `solve_step` is propagation followed by its continuation. -/
theorem solve_step_eq (pf : Nat) (x : Solver × RandomStrategy) :
    solve_step pf x = solve_step_branch pf x.2 (propagate pf x.1) := rfl

/-- Equation: the continuation of `solve_step` on a propagation result. -/
theorem solve_step_branch_some (pf : Nat) (st : RandomStrategy) (s : Solver)
    (c : Option Nat) :
    solve_step_branch pf st (some (s, c)) = solve_step_after pf st s c := rfl

/-- Equation: one CDCL iteration. -/
theorem solve_loop_succ (pf f : Nat) (x : Solver × RandomStrategy) :
    solve_loop pf (f + 1) x = solve_loop_branch pf f (solve_step pf x) := rfl

/-- Equation: a final verdict stops the CDCL loop. -/
theorem solve_loop_branch_inl (pf f : Nat) (r : Except Unit Bool × Solver) :
    solve_loop_branch pf f (some (Sum.inl r)) = some r := rfl

/-- Equation: a continuing iteration of the CDCL loop. -/
theorem solve_loop_branch_inr (pf f : Nat) (y : Solver × RandomStrategy) :
    solve_loop_branch pf f (some (Sum.inr y)) = solve_loop pf f y := rfl

/-- Equation: `solve` is the prologue followed by the CDCL loop. -/
theorem solve_eq (f : Nat) (s : Solver) (st : RandomStrategy) :
    solve f s st = solve_loop f f (solve_prologue s, st) := rfl

/-- Equation: `run_solver` is clause insertion followed by `solve`. -/
theorem run_solver_eq (fuel nv : Nat) (cls : List (List Lit)) :
    run_solver fuel nv cls = run_solver_branch fuel nv (add_clauses fuel (Solver.new nv) cls) := rfl

/-- Equation: `run_solver` continues with `solve` after a successful insert. -/
theorem run_solver_branch_some (fuel nv : Nat) (s : Solver) :
    run_solver_branch fuel nv (some s) = solve fuel s (RandomStrategy.new nv) := rfl

/-- Step lemma: inserting the eight clauses of `c1_formula`. -/
theorem c1_add : add_clauses 8 (Solver.new 4) c1_formula = some c1_s0 := by decide

/-- Step lemma: the preprocessing prologue rewrites the clause database. -/
theorem c1_pro : solve_prologue c1_s0 = c1_s1 := by decide

/-- Step lemma: first CDCL iteration (a decision). -/
theorem c1_step1 :
    solve_step 8 (c1_s1, RandomStrategy.new 4) = some (Sum.inr (c1_s2, c1_r1)) := by decide

/-- Step lemma: second CDCL iteration. -/
theorem c1_step2 : solve_step 8 (c1_s2, c1_r1) = some (Sum.inr (c1_s3, c1_r2)) := by decide

/-- Step lemma: third CDCL iteration. -/
theorem c1_step3 : solve_step 8 (c1_s3, c1_r2) = some (Sum.inr (c1_s4, c1_r3)) := by decide

/-- Step lemma: first propagation dequeue of the final iteration. -/
theorem c1_q1 : propagate_step c1_s4 = (c1_t1, none) := by decide

/-- Step lemma: second propagation dequeue of the final iteration. -/
theorem c1_q2 : propagate_step c1_t1 = (c1_final, none) := by decide

/-- Step lemma: the full propagation of the final iteration. -/
theorem c1_prop : propagate 8 c1_s4 = some (c1_final, none) :=
  (propagate_succ 7 c1_s4 (by decide)).trans <|
  (congrArg (propagate_branch 7) c1_q1).trans <|
  (propagate_branch_none 7 c1_t1).trans <|
  (propagate_succ 6 c1_t1 (by decide)).trans <|
  (congrArg (propagate_branch 6) c1_q2).trans <|
  (propagate_branch_none 6 c1_final).trans <|
  propagate_stop 6 c1_final (by decide)

/-- Step lemma: the branch taken after the final propagation (every variable
is assigned, so `pick_branch` returns `none` and SAT is reported). -/
theorem c1_after :
    solve_step_after 8 c1_r3 c1_final none
      = some (Sum.inl (Except.ok true, c1_final)) := by decide

/-- Step lemma: final CDCL iteration, reporting SAT. -/
theorem c1_step4 :
    solve_step 8 (c1_s4, c1_r3) = some (Sum.inl (Except.ok true, c1_final)) :=
  (solve_step_eq 8 (c1_s4, c1_r3)).trans <|
  (congrArg (solve_step_branch 8 c1_r3) c1_prop).trans <|
  (solve_step_branch_some 8 c1_r3 c1_final none).trans c1_after

/-- The complete run of the pipeline on `c1_formula`. -/
theorem c1_run_eq : run_solver 8 4 c1_formula = some (Except.ok true, c1_final) :=
  (run_solver_eq 8 4 c1_formula).trans <|
  (congrArg (run_solver_branch 8 4) c1_add).trans <|
  (run_solver_branch_some 8 4 c1_s0).trans <|
  (solve_eq 8 c1_s0 (RandomStrategy.new 4)).trans <|
  (congrArg (fun s => solve_loop 8 8 (s, RandomStrategy.new 4)) c1_pro).trans <|
  (solve_loop_succ 8 7 (c1_s1, RandomStrategy.new 4)).trans <|
  (congrArg (solve_loop_branch 8 7) c1_step1).trans <|
  (solve_loop_branch_inr 8 7 (c1_s2, c1_r1)).trans <|
  (solve_loop_succ 8 6 (c1_s2, c1_r1)).trans <|
  (congrArg (solve_loop_branch 8 6) c1_step2).trans <|
  (solve_loop_branch_inr 8 6 (c1_s3, c1_r2)).trans <|
  (solve_loop_succ 8 5 (c1_s3, c1_r2)).trans <|
  (congrArg (solve_loop_branch 8 5) c1_step3).trans <|
  (solve_loop_branch_inr 8 5 (c1_s4, c1_r3)).trans <|
  (solve_loop_succ 8 4 (c1_s4, c1_r3)).trans <|
  (congrArg (solve_loop_branch 8 4) c1_step4).trans <|
  solve_loop_branch_inl 8 4 (Except.ok true, c1_final)

/-- Claim C1: the claim states that whenever `solve` returns SAT, the
reported assignment satisfies every original input clause.  The code
violates it: on `c1_formula` (a satisfiable formula) the reference pipeline
returns SAT, yet the reported assignment falsifies original clause 5,
`[x1, -x2, x4]` — the preprocessor rewrote variable 4 to variable 3 without
recording the dropped equivalence, and the branching heuristic later gave
variable 4 the wrong polarity. -/
theorem solve_sat_assignment_falsifies_original_clause :
    run_verdict 8 4 c1_formula = some (Except.ok true) ∧
    (run_solver 8 4 c1_formula).map
      (fun p => clause_true p.2.assignments (c1_formula.getD 5 [])) = some false := by
  constructor
  · rw [run_verdict, c1_run_eq]
    rfl
  · rw [c1_run_eq]
    show some (clause_true c1_final.assignments (c1_formula.getD 5 [])) = some false
    decide

/-- Claim C2: for the two unit clauses `[1]`, `[-1]`, the claim states that
either the second `add_clause` reports the conflict or `solve` returns
UNSAT.  The code does neither: `unchecked_enqueue` silently drops the
contradictory unit, both insertions report success, and `solve` returns SAT
with the state unchanged. -/
theorem add_unit_conflict_lost_and_solve_returns_sat :
    add_clause 4 (Solver.new 1) [Lit.new 0 false] = some (c2_s1, true) ∧
    add_clause 4 c2_s1 [Lit.new 0 true] = some (c2_s1, true) ∧
    solve 4 c2_s1 (RandomStrategy.new 1) = some (Except.ok true, c2_s1) :=
  ⟨by decide, by decide, by decide⟩

/-- Claim C3: the claim states that when the clause database is the single
empty clause a preprocessor contradiction produces, the subsequent `solve`
returns UNSAT.  The code returns SAT: an empty clause is never watched, so
propagation never observes it.  Moreover, on the spec example XOR chain
x1+x2=1, x2+x3=1, x3+x1=0 the preprocessor abstains entirely (and that
formula is in fact satisfiable, e.g. x1=T, x2=F, x3=T). -/
theorem solve_on_empty_clause_database_returns_sat :
    outcome (solve 4 c3_state (RandomStrategy.new 1)) = RunOutcome.sat ∧
    preprocess chain_formula 3 = none :=
  ⟨by decide, by decide⟩

/-- Claim C5: the claim states that on the empty formula with zero
variables `solve` terminates normally with SAT and no error branch is
reachable.  The code instead evaluates `next_rand() % num_vars` with
`num_vars = 0` in `RandomStrategy::pick_branch`, a division-by-zero panic,
for every fuel bound. -/
theorem solve_empty_formula_zero_vars_panics :
    ∀ fuel : Nat, run_verdict (fuel + 1) 0 [] = some (Except.error ()) :=
  fun _ => rfl

/-- Claim C10: enqueuing a literal whose variable is already assigned
returns with the entire solver state unchanged — even when the existing
assignment contradicts the enqueued literal, no conflict is recorded
anywhere in the state. -/
theorem unchecked_enqueue_assigned_noop (s : Solver) (lit : Lit) (r : Option Nat)
    (h : s.assignments.getD lit.var VarValue.Unassigned ≠ VarValue.Unassigned) :
    unchecked_enqueue s lit r = s := by
  unfold unchecked_enqueue
  exact if_pos h

/-- `Lit.new` then `Lit.var` recovers the variable. -/
theorem Lit_var_new (v : Nat) (b : Bool) : (Lit.new v b).var = v := by
  cases b <;> simp [Lit.new, Lit.var] <;> omega

/-- `Lit.new` then `Lit.neg` recovers the sign. -/
theorem Lit_neg_new (v : Nat) (b : Bool) : (Lit.new v b).neg = b := by
  cases b <;> simp [Lit.new, Lit.neg, Nat.mul_add_mod]

/-- `chase` does not move from a variable that is not a key of the map. -/
theorem chase_of_not_key (map : List (Nat × Nat × Bool)) (fuel v : Nat) (n : Bool)
    (h : hm_get map v = none) : chase map fuel v n = (v, n) := by
  cases fuel with
  | zero => rfl
  | succ f => simp [chase, h]

/-- If the replacement chain from `v` reaches a non-key within `k ≤ fuel`
steps, `chase` ends on a variable that is not a key of the map. -/
theorem chase_reaches_not_key (map : List (Nat × Nat × Bool)) :
    ∀ (k fuel v : Nat) (n : Bool), k ≤ fuel →
      hm_get map ((step_var map)^[k] v) = none →
      hm_get map (chase map fuel v n).1 = none := by
  intro k
  induction k with
  | zero =>
    intro fuel v n _ h0
    simp only [Function.iterate_zero, id] at h0
    rw [chase_of_not_key map fuel v n h0]
    exact h0
  | succ k ih =>
    intro fuel v n hk h0
    cases hv : hm_get map v with
    | none =>
      rw [chase_of_not_key map fuel v n hv]
      exact hv
    | some rv =>
      cases fuel with
      | zero => omega
      | succ f =>
        have hstep : step_var map v = rv.1 := by simp [step_var, hv]
        rw [Function.iterate_succ_apply, hstep] at h0
        show hm_get map (chase map (f + 1) v n).1 = none
        simp only [chase, hv]
        exact ih f rv.1 (if rv.2 then !n else n) (by omega) h0

/-- One substitution pass sends every literal to a non-key variable, so a
second pass is the identity on it. -/
theorem subst_lit_idem (map : List (Nat × Nat × Bool))
    (h : chains_terminate map) (l : Lit) :
    subst_lit map (subst_lit map l) = subst_lit map l := by
  obtain ⟨k, hk, h0⟩ := h l.var
  have hw : hm_get map (chase map 101 l.var l.neg).1 = none :=
    chase_reaches_not_key map k 101 l.var l.neg (by omega) h0
  show subst_lit map
      (Lit.new (chase map 101 l.var l.neg).1 (chase map 101 l.var l.neg).2)
      = subst_lit map l
  unfold subst_lit
  rw [Lit_var_new, Lit_neg_new, chase_of_not_key map 101 _ _ hw]

/-- Claim C9: `apply_replacements` is idempotent on every literal list for
every replacement map whose chains terminate within the source's depth
bound (at most 100 steps to a non-key), as holds for the maps `preprocess`
produces. -/
theorem apply_replacements_idem (lits : List Lit) (map : List (Nat × Nat × Bool))
    (h : chains_terminate map) :
    apply_replacements (apply_replacements lits map) map
      = apply_replacements lits map := by
  unfold apply_replacements
  rw [List.map_map]
  exact List.map_congr_left (fun a _ => subst_lit_idem map h a)

/-- Witness for claim C9: the chains of `c9_map` (the map `preprocess`
derives from x3 XOR x4 = 0) terminate, and applying the substitution twice
to a concrete clause equals applying it once. -/
theorem apply_replacements_idem_witness :
    chains_terminate c9_map ∧
    apply_replacements
        (apply_replacements [Lit.new 3 false, Lit.new 0 true] c9_map) c9_map
      = apply_replacements [Lit.new 3 false, Lit.new 0 true] c9_map := by
  have hterm : chains_terminate c9_map := by
    intro v
    by_cases hv : v = 3
    · exact ⟨1, by omega, by subst hv; decide⟩
    · refine ⟨0, by omega, ?_⟩
      show hm_get c9_map v = none
      simp [hm_get, c9_map]
      omega
  exact ⟨hterm, apply_replacements_idem [Lit.new 3 false, Lit.new 0 true] c9_map hterm⟩


/-! ### Claim C7: the backtrack postconditions -/

/-- `getD` after writing the read default at the same index. -/
theorem getD_set_write_default {α : Type} (l : List α) (i : Nat) (x : α) :
    (l.set i x).getD i x = x := by
  by_cases h : i < l.length
  · rw [List.getD_eq_getElem?_getD, List.getElem?_set_self h]
    rfl
  · rw [List.set_eq_of_length_le (by omega), List.getD_eq_getElem?_getD,
      List.getElem?_eq_none (by omega)]
    rfl

/-- `getD` at a different index than a write. -/
theorem getD_set_ne {α : Type} (l : List α) (i j : Nat) (x d : α) (h : i ≠ j) :
    (l.set i x).getD j d = l.getD j d := by
  rw [List.getD_eq_getElem?_getD, List.getD_eq_getElem?_getD, List.getElem?_set_ne h]

/-- `getLastD` ignores its default on a non-empty list. -/
theorem getLastD_irrel {α : Type} (b : α) (u : List α) (d1 d2 : α) :
    (b :: u).getLastD d1 = (b :: u).getLastD d2 := by
  induction u generalizing b with
  | nil => rfl
  | cons c u ih =>
    rw [List.getLastD_eq_getLast?, List.getLast?_eq_getLast _ (List.cons_ne_nil b (c :: u)),
      List.getLastD_eq_getLast?, List.getLast?_eq_getLast _ (List.cons_ne_nil b (c :: u))]
    rfl

/-- Every member of a `≤`-sorted list is at most its last element. -/
theorem sorted_mem_le_getLastD (l : List Nat) (h : l.Sorted (· ≤ ·)) :
    ∀ x ∈ l, x ≤ l.getLastD 0 := by
  induction l with
  | nil => intro x hx; cases hx
  | cons a t ih =>
    intro x hx
    rw [List.sorted_cons] at h
    cases t with
    | nil =>
      rcases List.mem_singleton.mp hx with rfl
      rfl
    | cons b u =>
      rw [List.getLastD_cons, getLastD_irrel b u a 0]
      rcases List.mem_cons.mp hx with rfl | hx
      · exact le_trans (h.1 b (List.mem_cons_self b u)) (ih h.2 b (List.mem_cons_self b u))
      · exact ih h.2 x hx

/-- `getLastD` as `getD` at the final index. -/
theorem getLastD_eq_getD {α : Type} (l : List α) (d : α) (h : l ≠ []) :
    l.getLastD d = l.getD (l.length - 1) d := by
  rw [List.getLastD_eq_getLast?, List.getLast?_eq_getElem?, List.getD_eq_getElem?_getD]

/-- The last element of a non-empty list is a member. -/
theorem getLastD_mem {α : Type} (l : List α) (d : α) (h : l ≠ []) :
    l.getLastD d ∈ l := by
  rw [List.getLastD_eq_getLast?, List.getLast?_eq_getLast l h]
  exact List.getLast_mem h

/-- An in-range `getD` is a member. -/
theorem getD_mem_of_lt {α : Type} (l : List α) (i : Nat) (d : α) (h : i < l.length) :
    l.getD i d ∈ l := by
  rw [List.getD_eq_getElem l d h]
  exact List.getElem_mem h

/-- Splitting off the popped last entry of the trail. -/
theorem drop_eq_drop_dropLast {α : Type} [Inhabited α] (l : List α) (n : Nat)
    (h : n < l.length) :
    l.drop n = l.dropLast.drop n ++ [l.getLastD default] := by
  have hne : l ≠ [] := by
    intro e
    rw [e] at h
    simp at h
  have hlast : l.getLastD default = l.getLast hne := by
    rw [List.getLastD_eq_getLast?, List.getLast?_eq_getLast l hne]
    rfl
  rw [hlast]
  conv_lhs => rw [← List.dropLast_append_getLast hne]
  rw [List.drop_append_of_le_length]
  rw [List.length_dropLast]
  omega

/-- The inner loop of `backtrack`: complete description of the resulting
state.  The fuel hypothesis is satisfied by the caller, which passes the
trail length. -/
theorem pop_trail_spec (limit : Nat) :
    ∀ (fuel : Nat) (s : Solver), s.trail.length ≤ limit + fuel →
      (pop_trail limit fuel s).trail = s.trail.take limit ∧
      (pop_trail limit fuel s).clauses = s.clauses ∧
      (pop_trail limit fuel s).watches = s.watches ∧
      (pop_trail limit fuel s).trail_lim = s.trail_lim ∧
      (pop_trail limit fuel s).q_head = s.q_head ∧
      (pop_trail limit fuel s).num_vars = s.num_vars ∧
      (∀ v : Nat, v ∉ (s.trail.drop limit).map Lit.var →
        (pop_trail limit fuel s).assignments.getD v VarValue.Unassigned
            = s.assignments.getD v VarValue.Unassigned ∧
        (pop_trail limit fuel s).level.getD v 0 = s.level.getD v 0 ∧
        (pop_trail limit fuel s).reason.getD v none = s.reason.getD v none) ∧
      (∀ v ∈ (s.trail.drop limit).map Lit.var,
        (pop_trail limit fuel s).assignments.getD v VarValue.Unassigned
            = VarValue.Unassigned ∧
        (pop_trail limit fuel s).level.getD v 0 = 0 ∧
        (pop_trail limit fuel s).reason.getD v none = none) := by
  intro fuel
  induction fuel with
  | zero =>
    intro s hs
    have hle : s.trail.length ≤ limit := by omega
    have hdrop : s.trail.drop limit = [] := List.drop_eq_nil_of_le hle
    refine ⟨?_, rfl, rfl, rfl, rfl, rfl, ?_, ?_⟩
    · exact (List.take_of_length_le hle).symm
    · intro v _
      exact ⟨rfl, rfl, rfl⟩
    · intro v hv
      rw [hdrop] at hv
      cases hv
  | succ f ih =>
    intro s hs
    show _
    by_cases hlt : limit < s.trail.length
    · have hstep : pop_trail limit (f + 1) s =
          pop_trail limit f
            { s with
              trail := s.trail.dropLast
              assignments := s.assignments.set (s.trail.getLastD default).var
                VarValue.Unassigned
              reason := s.reason.set (s.trail.getLastD default).var none
              level := s.level.set (s.trail.getLastD default).var 0 } := by
        conv_lhs => rw [pop_trail]
        rw [if_pos hlt]
      set w := (s.trail.getLastD default).var with hw
      set s1 : Solver :=
        { s with
          trail := s.trail.dropLast
          assignments := s.assignments.set w VarValue.Unassigned
          reason := s.reason.set w none
          level := s.level.set w 0 } with hs1
      have hlen1 : s1.trail.length ≤ limit + f := by
        show s.trail.dropLast.length ≤ limit + f
        rw [List.length_dropLast]
        omega
      obtain ⟨htr, hcl, hwa, htl, hqh, hnv, hframe, hclear⟩ := ih s1 hlen1
      have hsplit : s.trail.drop limit = s.trail.dropLast.drop limit ++ [s.trail.getLastD default] :=
        drop_eq_drop_dropLast s.trail limit hlt
      have hmem : ∀ v : Nat, v ∈ (s.trail.drop limit).map Lit.var ↔
          v ∈ (s.trail.dropLast.drop limit).map Lit.var ∨ v = w := by
        intro v
        rw [hsplit, List.map_append, List.mem_append]
        simp [hw]
      rw [hstep]
      refine ⟨?_, hcl, hwa, htl, hqh, hnv, ?_, ?_⟩
      · rw [htr]
        show s.trail.dropLast.take limit = s.trail.take limit
        rw [List.dropLast_eq_take, List.take_take]
        congr 1
        omega
      · intro v hv
        have hv1 : v ∉ (s1.trail.drop limit).map Lit.var := by
          intro hc
          exact hv ((hmem v).mpr (Or.inl hc))
        have hvw : v ≠ w := by
          intro hc
          exact hv ((hmem v).mpr (Or.inr hc))
        obtain ⟨ha, hl, hr⟩ := hframe v hv1
        refine ⟨?_, ?_, ?_⟩
        · rw [ha]
          exact getD_set_ne s.assignments w v VarValue.Unassigned VarValue.Unassigned
            (fun e => hvw e.symm)
        · rw [hl]
          exact getD_set_ne s.level w v 0 0 (fun e => hvw e.symm)
        · rw [hr]
          exact getD_set_ne s.reason w v none none (fun e => hvw e.symm)
      · intro v hv
        by_cases hv1 : v ∈ (s1.trail.drop limit).map Lit.var
        · exact hclear v hv1
        · have hvw : v = w := by
            rcases (hmem v).mp hv with hc | hc
            · exact absurd hc hv1
            · exact hc
          obtain ⟨ha, hl, hr⟩ := hframe v hv1
          refine ⟨?_, ?_, ?_⟩
          · rw [ha, hvw]
            exact getD_set_write_default s.assignments w VarValue.Unassigned
          · rw [hl, hvw]
            exact getD_set_write_default s.level w 0
          · rw [hr, hvw]
            exact getD_set_write_default s.reason w none
    · have hstep : pop_trail limit (f + 1) s = s := by
        conv_lhs => rw [pop_trail]
        rw [if_neg hlt]
      have hle : s.trail.length ≤ limit := by omega
      have hdrop : s.trail.drop limit = [] := List.drop_eq_nil_of_le hle
      rw [hstep]
      refine ⟨(List.take_of_length_le hle).symm, rfl, rfl, rfl, rfl, rfl, ?_, ?_⟩
      · intro v _
        exact ⟨rfl, rfl, rfl⟩
      · intro v hv
        rw [hdrop] at hv
        cases hv


/-- `backtrack_loop` does nothing once the decision level is low enough. -/
theorem backtrack_loop_noop (lvl fuel : Nat) (s : Solver)
    (h : ¬ lvl < s.trail_lim.length) : backtrack_loop lvl fuel s = s := by
  cases fuel with
  | zero => rfl
  | succ f =>
    conv_lhs => rw [backtrack_loop]
    rw [if_neg h]

/-- The outer loop of `Solver::backtrack`: complete description of the
result, assuming the standard shape of `trail_lim` (sorted, bounded by the
trail length) and enough fuel. -/
theorem backtrack_loop_spec (lvl : Nat) :
    ∀ (fuel : Nat) (s : Solver), s.trail_lim.length ≤ fuel →
      lvl < s.trail_lim.length →
      s.trail_lim.Sorted (· ≤ ·) →
      (∀ x ∈ s.trail_lim, x ≤ s.trail.length) →
      (backtrack_loop lvl fuel s).trail_lim = s.trail_lim.take lvl ∧
      (backtrack_loop lvl fuel s).trail = s.trail.take (s.trail_lim.getD lvl 0) ∧
      (backtrack_loop lvl fuel s).clauses = s.clauses ∧
      (backtrack_loop lvl fuel s).watches = s.watches ∧
      (backtrack_loop lvl fuel s).q_head = s.q_head ∧
      (backtrack_loop lvl fuel s).num_vars = s.num_vars ∧
      (∀ v : Nat, v ∉ (s.trail.drop (s.trail_lim.getD lvl 0)).map Lit.var →
        (backtrack_loop lvl fuel s).assignments.getD v VarValue.Unassigned
            = s.assignments.getD v VarValue.Unassigned ∧
        (backtrack_loop lvl fuel s).level.getD v 0 = s.level.getD v 0 ∧
        (backtrack_loop lvl fuel s).reason.getD v none = s.reason.getD v none) ∧
      (∀ v ∈ (s.trail.drop (s.trail_lim.getD lvl 0)).map Lit.var,
        (backtrack_loop lvl fuel s).assignments.getD v VarValue.Unassigned
            = VarValue.Unassigned ∧
        (backtrack_loop lvl fuel s).level.getD v 0 = 0 ∧
        (backtrack_loop lvl fuel s).reason.getD v none = none) := by
  intro fuel
  induction fuel with
  | zero =>
    intro s hf hlvl _ _
    omega
  | succ f ih =>
    intro s hf hlvl hsort hbound
    have hne : s.trail_lim ≠ [] := by
      intro e
      rw [e] at hlvl
      simp at hlvl
    have hstep : backtrack_loop lvl (f + 1) s = backtrack_loop lvl f (bt_step s) := by
      conv_lhs => rw [backtrack_loop]
      rw [if_pos hlvl]
      rfl
    obtain ⟨p_tr, p_cl, p_wa, p_tl, p_qh, p_nv, p_frame, p_clear⟩ :=
      pop_trail_spec (s.trail_lim.getLastD 0) s.trail.length s (Nat.le_add_left _ _)
    have e_tl : (bt_step s).trail_lim = s.trail_lim.dropLast := by
      show (pop_trail (s.trail_lim.getLastD 0) s.trail.length s).trail_lim.dropLast = _
      rw [p_tl]
    have e_tr : (bt_step s).trail = s.trail.take (s.trail_lim.getLastD 0) := by
      show (pop_trail (s.trail_lim.getLastD 0) s.trail.length s).trail = _
      rw [p_tr]
    have e_as : (bt_step s).assignments
        = (pop_trail (s.trail_lim.getLastD 0) s.trail.length s).assignments := rfl
    have e_lv : (bt_step s).level
        = (pop_trail (s.trail_lim.getLastD 0) s.trail.length s).level := rfl
    have e_rs : (bt_step s).reason
        = (pop_trail (s.trail_lim.getLastD 0) s.trail.length s).reason := rfl
    have e_cl : (bt_step s).clauses = s.clauses := by
      show (pop_trail (s.trail_lim.getLastD 0) s.trail.length s).clauses = _
      rw [p_cl]
    have e_wa : (bt_step s).watches = s.watches := by
      show (pop_trail (s.trail_lim.getLastD 0) s.trail.length s).watches = _
      rw [p_wa]
    have e_qh : (bt_step s).q_head = s.q_head := by
      show (pop_trail (s.trail_lim.getLastD 0) s.trail.length s).q_head = _
      rw [p_qh]
    have e_nv : (bt_step s).num_vars = s.num_vars := by
      show (pop_trail (s.trail_lim.getLastD 0) s.trail.length s).num_vars = _
      rw [p_nv]
    have hlim_le : s.trail_lim.getLastD 0 ≤ s.trail.length :=
      hbound _ (getLastD_mem s.trail_lim 0 hne)
    have hL_mem : s.trail_lim.getD lvl 0 ∈ s.trail_lim :=
      getD_mem_of_lt s.trail_lim lvl 0 hlvl
    have hLle : s.trail_lim.getD lvl 0 ≤ s.trail_lim.getLastD 0 :=
      sorted_mem_le_getLastD s.trail_lim hsort _ hL_mem
    have hL_le_trail : s.trail_lim.getD lvl 0 ≤ s.trail.length := le_trans hLle hlim_le
    rw [hstep]
    by_cases hcase : lvl < s.trail_lim.length - 1
    · have hf2 : (bt_step s).trail_lim.length ≤ f := by
        rw [e_tl, List.length_dropLast]
        omega
      have hlvl2 : lvl < (bt_step s).trail_lim.length := by
        rw [e_tl, List.length_dropLast]
        omega
      have hsort2 : (bt_step s).trail_lim.Sorted (· ≤ ·) := by
        rw [e_tl]
        exact hsort.sublist (List.dropLast_sublist _)
      have hbound2 : ∀ x ∈ (bt_step s).trail_lim, x ≤ (bt_step s).trail.length := by
        rw [e_tl, e_tr]
        intro x hx
        have hx1 : x ∈ s.trail_lim := List.dropLast_subset _ hx
        have hx2 : x ≤ s.trail_lim.getLastD 0 :=
          sorted_mem_le_getLastD s.trail_lim hsort _ hx1
        have hx3 : x ≤ s.trail.length := hbound _ hx1
        rw [List.length_take]
        omega
      obtain ⟨i_tl, i_tr, i_cl, i_wa, i_qh, i_nv, i_frame, i_clear⟩ :=
        ih (bt_step s) hf2 hlvl2 hsort2 hbound2
      have eL : (bt_step s).trail_lim.getD lvl 0 = s.trail_lim.getD lvl 0 := by
        rw [e_tl, List.getD_eq_getElem?_getD, List.getD_eq_getElem?_getD,
          List.dropLast_eq_take, List.getElem?_take, if_pos hcase]
      have hsplit : s.trail.drop (s.trail_lim.getD lvl 0) =
          (s.trail.take (s.trail_lim.getLastD 0)).drop (s.trail_lim.getD lvl 0) ++
            s.trail.drop (s.trail_lim.getLastD 0) := by
        conv_lhs => rw [← List.take_append_drop (s.trail_lim.getLastD 0) s.trail]
        rw [List.drop_append_of_le_length]
        rw [List.length_take]
        omega
      have hmem : ∀ v : Nat, v ∈ (s.trail.drop (s.trail_lim.getD lvl 0)).map Lit.var ↔
          (v ∈ ((s.trail.take (s.trail_lim.getLastD 0)).drop
              (s.trail_lim.getD lvl 0)).map Lit.var ∨
           v ∈ (s.trail.drop (s.trail_lim.getLastD 0)).map Lit.var) := by
        intro v
        rw [hsplit, List.map_append, List.mem_append]
      rw [e_tr, eL] at i_frame i_clear i_tr
      rw [e_tl] at i_tl
      refine ⟨?_, ?_, ?_, ?_, ?_, ?_, ?_, ?_⟩
      · rw [i_tl, List.dropLast_eq_take, List.take_take]
        congr 1
        omega
      · rw [i_tr, List.take_take]
        congr 1
        omega
      · rw [i_cl]
        exact e_cl
      · rw [i_wa]
        exact e_wa
      · rw [i_qh]
        exact e_qh
      · rw [i_nv]
        exact e_nv
      · intro v hv
        have hvi : v ∉ ((s.trail.take (s.trail_lim.getLastD 0)).drop
            (s.trail_lim.getD lvl 0)).map Lit.var :=
          fun hc => hv ((hmem v).mpr (Or.inl hc))
        have hvp : v ∉ (s.trail.drop (s.trail_lim.getLastD 0)).map Lit.var :=
          fun hc => hv ((hmem v).mpr (Or.inr hc))
        obtain ⟨f1, f2, f3⟩ := i_frame v hvi
        obtain ⟨g1, g2, g3⟩ := p_frame v hvp
        refine ⟨?_, ?_, ?_⟩
        · rw [f1, e_as]
          exact g1
        · rw [f2, e_lv]
          exact g2
        · rw [f3, e_rs]
          exact g3
      · intro v hv
        rcases (hmem v).mp hv with hin | hpop
        · exact i_clear v hin
        · by_cases hvi : v ∈ ((s.trail.take (s.trail_lim.getLastD 0)).drop
              (s.trail_lim.getD lvl 0)).map Lit.var
          · exact i_clear v hvi
          · obtain ⟨f1, f2, f3⟩ := i_frame v hvi
            obtain ⟨g1, g2, g3⟩ := p_clear v hpop
            refine ⟨?_, ?_, ?_⟩
            · rw [f1, e_as]
              exact g1
            · rw [f2, e_lv]
              exact g2
            · rw [f3, e_rs]
              exact g3
    · have hstop : ¬ lvl < (bt_step s).trail_lim.length := by
        rw [e_tl, List.length_dropLast]
        omega
      rw [backtrack_loop_noop lvl f (bt_step s) hstop]
      have hlvl_eq : lvl = s.trail_lim.length - 1 := by omega
      have eLlim : s.trail_lim.getD lvl 0 = s.trail_lim.getLastD 0 := by
        rw [getLastD_eq_getD s.trail_lim 0 hne, hlvl_eq]
      refine ⟨?_, ?_, e_cl, e_wa, e_qh, e_nv, ?_, ?_⟩
      · rw [e_tl, List.dropLast_eq_take, ← hlvl_eq]
      · rw [e_tr, eLlim]
      · intro v hv
        rw [eLlim] at hv
        obtain ⟨g1, g2, g3⟩ := p_frame v hv
        refine ⟨?_, ?_, ?_⟩
        · rw [e_as]
          exact g1
        · rw [e_lv]
          exact g2
        · rw [e_rs]
          exact g3
      · intro v hv
        rw [eLlim] at hv
        obtain ⟨g1, g2, g3⟩ := p_clear v hv
        refine ⟨?_, ?_, ?_⟩
        · rw [e_as]
          exact g1
        · rw [e_lv]
          exact g2
        · rw [e_rs]
          exact g3

/-- Claim C7: for every level strictly below the current decision level,
after `backtrack(level)` the decision level equals `level`, `q_head`
equals the trail length, every variable popped from the trail is
`Unassigned` with reason `none` and level 0, and the value, level and
reason of every variable assigned at a decision level at most `level` are
unchanged.  The hypotheses are the shape invariants the solver maintains:
`trail_lim` is sorted and bounded by the trail length, and every literal
past the saved limit was assigned at a level above `level`. -/
theorem backtrack_spec (s : Solver) (lvl : Nat)
    (h1 : lvl < s.trail_lim.length)
    (h2 : s.trail_lim.Sorted (· ≤ ·))
    (h3 : ∀ x ∈ s.trail_lim, x ≤ s.trail.length)
    (h4 : ∀ l ∈ s.trail.drop (s.trail_lim.getD lvl 0), lvl < s.level.getD l.var 0) :
    (backtrack s lvl).trail_lim.length = lvl ∧
    (backtrack s lvl).q_head = (backtrack s lvl).trail.length ∧
    (backtrack s lvl).trail = s.trail.take (s.trail_lim.getD lvl 0) ∧
    (∀ v ∈ (s.trail.drop (s.trail_lim.getD lvl 0)).map Lit.var,
      (backtrack s lvl).assignments.getD v VarValue.Unassigned = VarValue.Unassigned ∧
      (backtrack s lvl).level.getD v 0 = 0 ∧
      (backtrack s lvl).reason.getD v none = none) ∧
    (∀ v : Nat, s.assignments.getD v VarValue.Unassigned ≠ VarValue.Unassigned →
      s.level.getD v 0 ≤ lvl →
      (backtrack s lvl).assignments.getD v VarValue.Unassigned
          = s.assignments.getD v VarValue.Unassigned ∧
      (backtrack s lvl).level.getD v 0 = s.level.getD v 0 ∧
      (backtrack s lvl).reason.getD v none = s.reason.getD v none) := by
  obtain ⟨b_tl, b_tr, b_cl, b_wa, b_qh, b_nv, b_frame, b_clear⟩ :=
    backtrack_loop_spec lvl s.trail_lim.length s (le_refl _) h1 h2 h3
  refine ⟨?_, ?_, ?_, ?_, ?_⟩
  · show (backtrack_loop lvl s.trail_lim.length s).trail_lim.length = lvl
    rw [b_tl, List.length_take]
    omega
  · rfl
  · exact b_tr
  · intro v hv
    exact b_clear v hv
  · intro v hva hvl
    have hv : v ∉ (s.trail.drop (s.trail_lim.getD lvl 0)).map Lit.var := by
      intro hc
      rw [List.mem_map] at hc
      obtain ⟨lit, hlit, rfl⟩ := hc
      exact absurd hvl (not_le.mpr (h4 lit hlit))
    exact b_frame v hv

/-- Witness for claim C7: in `c7_state`, backtracking from decision level 1
to level 0 pops the decision literal on variable 1, clears it completely,
and leaves the root-level assignment of variable 0 untouched. -/
theorem backtrack_spec_witness :
    (backtrack c7_state 0).trail_lim.length = 0 ∧
    (backtrack c7_state 0).q_head = (backtrack c7_state 0).trail.length ∧
    (backtrack c7_state 0).trail = c7_state.trail.take (c7_state.trail_lim.getD 0 0) ∧
    (∀ v ∈ (c7_state.trail.drop (c7_state.trail_lim.getD 0 0)).map Lit.var,
      (backtrack c7_state 0).assignments.getD v VarValue.Unassigned = VarValue.Unassigned ∧
      (backtrack c7_state 0).level.getD v 0 = 0 ∧
      (backtrack c7_state 0).reason.getD v none = none) ∧
    (∀ v : Nat, c7_state.assignments.getD v VarValue.Unassigned ≠ VarValue.Unassigned →
      c7_state.level.getD v 0 ≤ 0 →
      (backtrack c7_state 0).assignments.getD v VarValue.Unassigned
          = c7_state.assignments.getD v VarValue.Unassigned ∧
      (backtrack c7_state 0).level.getD v 0 = c7_state.level.getD v 0 ∧
      (backtrack c7_state 0).reason.getD v none = c7_state.reason.getD v none) :=
  backtrack_spec c7_state 0 (by decide) (by decide) (by decide) (by decide)


/-! ### Claim C6: xor_to_cnf -/

/-- `xor_to_cnf` as a map of `xor_clause` over the filtered mask range. -/
theorem xor_to_cnf_eq (vars : List Nat) (rhs : Bool) :
    xor_to_cnf vars rhs =
      ((List.range (2 ^ vars.length)).filter
          (fun i => count_ones i % 2 == (if rhs then 0 else 1))).map (xor_clause vars) := rfl

/-- Bit 0 of a mask is its parity. -/
theorem bit_of_zero (i : Nat) : bit_of i 0 = (i % 2 == 1) := by
  show ((i >>> 0) &&& 1 == 1) = (i % 2 == 1)
  rw [Nat.shiftRight_zero, Nat.and_one_is_mod]

/-- Bit `b + 1` of a mask is bit `b` of its half. -/
theorem bit_of_succ (i b : Nat) : bit_of i (b + 1) = bit_of (i / 2) b := by
  show ((i >>> (b + 1)) &&& 1 == 1) = (((i / 2) >>> b) &&& 1 == 1)
  have h : b + 1 = 1 + b := by omega
  rw [h, Nat.shiftRight_add, Nat.shiftRight_one]

/-- `count_ones_aux` does not depend on the fuel once it covers the input. -/
theorem count_ones_aux_stable :
    ∀ (f g n : Nat), n ≤ f → n ≤ g → count_ones_aux f n = count_ones_aux g n := by
  intro f
  induction f with
  | zero =>
    intro g n hf _
    have hn : n = 0 := by omega
    subst hn
    cases g <;> simp [count_ones_aux]
  | succ f ih =>
    intro g n hf hg
    by_cases hn : n = 0
    · subst hn
      cases g <;> simp [count_ones_aux]
    · obtain ⟨g1, rfl⟩ : ∃ g1, g = g1 + 1 := ⟨g - 1, by omega⟩
      show (if n = 0 then 0 else n % 2 + count_ones_aux f (n / 2))
          = (if n = 0 then 0 else n % 2 + count_ones_aux g1 (n / 2))
      rw [if_neg hn, if_neg hn]
      congr 1
      exact ih g1 (n / 2) (by omega) (by omega)

/-- The binary recurrence of `count_ones`. -/
theorem count_ones_rec (m : Nat) : count_ones m = m % 2 + count_ones (m / 2) := by
  cases m with
  | zero => rfl
  | succ k =>
    show count_ones_aux (k + 1) (k + 1)
        = (k + 1) % 2 + count_ones_aux ((k + 1) / 2) ((k + 1) / 2)
    have h1 : count_ones_aux (k + 1) (k + 1)
        = (k + 1) % 2 + count_ones_aux k ((k + 1) / 2) := by
      show (if k + 1 = 0 then 0 else (k + 1) % 2 + count_ones_aux k ((k + 1) / 2)) = _
      rw [if_neg (Nat.succ_ne_zero k)]
    rw [h1]
    congr 1
    exact count_ones_aux_stable k ((k + 1) / 2) ((k + 1) / 2) (by omega) (le_refl _)

/-- Adding a fresh high bit adds one to the popcount. -/
theorem shift_count : ∀ (n i : Nat), i < 2 ^ n → count_ones (2 ^ n + i) = count_ones i + 1 := by
  intro n
  induction n with
  | zero =>
    intro i hi
    have h0 : (2 : Nat) ^ 0 = 1 := rfl
    have : i = 0 := by omega
    subst this
    decide
  | succ n ih =>
    intro i hi
    have h2 : 2 ^ (n + 1) = 2 * 2 ^ n := by
      rw [pow_succ]
      ring
    have e1 : (2 ^ (n + 1) + i) % 2 = i % 2 := by omega
    have e2 : (2 ^ (n + 1) + i) / 2 = 2 ^ n + i / 2 := by omega
    have hi2 : i / 2 < 2 ^ n := by omega
    rw [count_ones_rec (2 ^ (n + 1) + i), e1, e2, ih (i / 2) hi2, count_ones_rec i]
    omega

/-- The popcount of an encoded sign list counts its `true` entries. -/
theorem count_ones_encode : ∀ bs : List Bool, count_ones (encode_mask bs) = bs.count true := by
  intro bs
  induction bs with
  | nil => rfl
  | cons b t ih =>
    have hm : encode_mask (b :: t) = (if b then 1 else 0) + 2 * encode_mask t := rfl
    rw [count_ones_rec (encode_mask (b :: t)), hm]
    have e1 : ((if b then 1 else 0) + 2 * encode_mask t) % 2 = if b then 1 else 0 := by
      cases b
      · show (0 + 2 * encode_mask t) % 2 = 0
        omega
      · show (1 + 2 * encode_mask t) % 2 = 1
        omega
    have e2 : ((if b then 1 else 0) + 2 * encode_mask t) / 2 = encode_mask t := by
      cases b
      · show (0 + 2 * encode_mask t) / 2 = encode_mask t
        omega
      · show (1 + 2 * encode_mask t) / 2 = encode_mask t
        omega
    rw [e1, e2, ih, List.count_cons]
    cases b
    · show 0 + List.count true t = List.count true t + 0
      omega
    · show 1 + List.count true t = List.count true t + 1
      omega

/-- The encoding of a sign list stays below `2 ^ length`. -/
theorem encode_mask_lt : ∀ bs : List Bool, encode_mask bs < 2 ^ bs.length := by
  intro bs
  induction bs with
  | nil => decide
  | cons b t ih =>
    have h2 : 2 ^ (b :: t).length = 2 * 2 ^ t.length := by
      show 2 ^ (t.length + 1) = 2 * 2 ^ t.length
      rw [pow_succ]
      ring
    have hm : encode_mask (b :: t) = (if b then 1 else 0) + 2 * encode_mask t := rfl
    rw [hm, h2]
    cases b
    · show 0 + 2 * encode_mask t < 2 * 2 ^ t.length
      omega
    · show 1 + 2 * encode_mask t < 2 * 2 ^ t.length
      omega

/-- Bits of the encoding recover the sign list. -/
theorem bit_of_encode : ∀ (bs : List Bool) (b : Nat), b < bs.length →
    bit_of (encode_mask bs) b = bs.getD b false := by
  intro bs
  induction bs with
  | nil =>
    intro b hb
    simp at hb
  | cons x t ih =>
    intro b hb
    cases b with
    | zero =>
      rw [bit_of_zero]
      cases x
      · show ((0 + 2 * encode_mask t) % 2 == 1) = false
        have e : (0 + 2 * encode_mask t) % 2 = 0 := by omega
        rw [e]
        decide
      · show ((1 + 2 * encode_mask t) % 2 == 1) = true
        have e : (1 + 2 * encode_mask t) % 2 = 1 := by omega
        rw [e]
        decide
    | succ b =>
      rw [bit_of_succ]
      have e : encode_mask (x :: t) / 2 = encode_mask t := by
        cases x
        · show (0 + 2 * encode_mask t) / 2 = encode_mask t
          omega
        · show (1 + 2 * encode_mask t) / 2 = encode_mask t
          omega
      rw [e]
      have hlen : (x :: t).length = t.length + 1 := rfl
      exact ih b (by omega)

/-- A mask below `2 ^ length` agreeing with the encoding on every bit is the
encoding. -/
theorem encode_eq_of_bits : ∀ (bs : List Bool) (i : Nat), i < 2 ^ bs.length →
    (∀ b, b < bs.length → bit_of i b = bs.getD b false) → i = encode_mask bs := by
  intro bs
  induction bs with
  | nil =>
    intro i hi _
    have h1 : (2 : Nat) ^ ([] : List Bool).length = 1 := rfl
    show i = 0
    omega
  | cons x t ih =>
    intro i hi hbits
    have hlen : (x :: t).length = t.length + 1 := rfl
    have h2 : 2 ^ (x :: t).length = 2 * 2 ^ t.length := by
      rw [hlen, pow_succ]
      ring
    have hb0 : (i % 2 == 1) = x := by
      have h := hbits 0 (by omega)
      rw [bit_of_zero] at h
      exact h
    have hrest : ∀ b, b < t.length → bit_of (i / 2) b = t.getD b false := by
      intro b hb
      have h := hbits (b + 1) (by omega)
      rw [bit_of_succ] at h
      exact h
    have hi2 : i / 2 < 2 ^ t.length := by omega
    have hrec := ih (i / 2) hi2 hrest
    have hm : encode_mask (x :: t) = (if x then 1 else 0) + 2 * encode_mask t := rfl
    rw [hm, ← hrec]
    cases x
    · have hmod : i % 2 = 0 := by
        rcases Nat.mod_two_eq_zero_or_one i with h | h
        · exact h
        · rw [h] at hb0
          exact absurd hb0 (by decide)
      show i = 0 + 2 * (i / 2)
      omega
    · have hmod : i % 2 = 1 := by
        rcases Nat.mod_two_eq_zero_or_one i with h | h
        · rw [h] at hb0
          exact absurd hb0 (by decide)
        · exact h
      show i = 1 + 2 * (i / 2)
      omega

/-- Folding XOR over a list computes the parity of its `true` count. -/
theorem foldl_xor_count : ∀ (l : List Bool) (acc : Bool),
    l.foldl Bool.xor acc = Bool.xor acc (l.count true % 2 == 1) := by
  intro l
  induction l with
  | nil =>
    intro acc
    cases acc <;> rfl
  | cons b t ih =>
    intro acc
    rw [List.foldl_cons, ih (Bool.xor acc b), List.count_cons]
    cases b
    · show Bool.xor (Bool.xor acc false) (List.count true t % 2 == 1)
          = Bool.xor acc ((List.count true t + 0) % 2 == 1)
      rw [Nat.add_zero]
      cases acc <;> cases hd : (List.count true t % 2 == 1) <;> rfl
    · show Bool.xor (Bool.xor acc true) (List.count true t % 2 == 1)
          = Bool.xor acc ((List.count true t + 1) % 2 == 1)
      have hp : ((List.count true t + 1) % 2 == 1) = !(List.count true t % 2 == 1) := by
        rcases Nat.mod_two_eq_zero_or_one (List.count true t) with h | h
        · rw [Nat.add_mod, h]
          decide
        · rw [Nat.add_mod, h]
          decide
      rw [hp]
      cases acc <;> cases hd : (List.count true t % 2 == 1) <;> rfl

/-- `countP` respects pointwise equal predicates. -/
theorem countP_congr_on {α : Type} (l : List α) (p q : α → Bool)
    (h : ∀ x ∈ l, p x = q x) : l.countP p = l.countP q := by
  rw [List.countP_eq_length_filter, List.countP_eq_length_filter, List.filter_congr h]

/-- `parity_count` as a `countP`. -/
theorem parity_count_eq_countP (p k : Nat) :
    parity_count p k = (List.range (2 ^ k)).countP (fun i => count_ones i % 2 == p) :=
  (List.countP_eq_length_filter _ _).symm

/-- Doubling the range swaps the parity classes (even side). -/
theorem parity_count_zero_succ (k : Nat) :
    parity_count 0 (k + 1) = parity_count 0 k + parity_count 1 k := by
  have h2 : 2 ^ (k + 1) = 2 ^ k + 2 ^ k := by
    rw [pow_succ]
    ring
  have hcg : ∀ i ∈ List.range (2 ^ k),
      ((fun i => count_ones i % 2 == 0) ∘ fun x => 2 ^ k + x) i
        = (fun i => count_ones i % 2 == 1) i := by
    intro i hi
    show (count_ones (2 ^ k + i) % 2 == 0) = (count_ones i % 2 == 1)
    rw [shift_count k i (List.mem_range.mp hi)]
    rcases Nat.mod_two_eq_zero_or_one (count_ones i) with h | h
    · rw [Nat.add_mod, h]
      decide
    · rw [Nat.add_mod, h]
      decide
  rw [parity_count_eq_countP, parity_count_eq_countP, parity_count_eq_countP, h2,
    List.range_add, List.countP_append, List.countP_map,
    countP_congr_on (List.range (2 ^ k)) _ _ hcg]

/-- Doubling the range swaps the parity classes (odd side). -/
theorem parity_count_one_succ (k : Nat) :
    parity_count 1 (k + 1) = parity_count 1 k + parity_count 0 k := by
  have h2 : 2 ^ (k + 1) = 2 ^ k + 2 ^ k := by
    rw [pow_succ]
    ring
  have hcg : ∀ i ∈ List.range (2 ^ k),
      ((fun i => count_ones i % 2 == 1) ∘ fun x => 2 ^ k + x) i
        = (fun i => count_ones i % 2 == 0) i := by
    intro i hi
    show (count_ones (2 ^ k + i) % 2 == 1) = (count_ones i % 2 == 0)
    rw [shift_count k i (List.mem_range.mp hi)]
    rcases Nat.mod_two_eq_zero_or_one (count_ones i) with h | h
    · rw [Nat.add_mod, h]
      decide
    · rw [Nat.add_mod, h]
      decide
  rw [parity_count_eq_countP, parity_count_eq_countP, parity_count_eq_countP, h2,
    List.range_add, List.countP_append, List.countP_map,
    countP_congr_on (List.range (2 ^ k)) _ _ hcg]

/-- For a positive number of bits, the two parity classes each hold half of
the masks. -/
theorem parity_count_val (k : Nat) :
    parity_count 0 (k + 1) = 2 ^ k ∧ parity_count 1 (k + 1) = 2 ^ k := by
  induction k with
  | zero => constructor <;> decide
  | succ k ih =>
    obtain ⟨h0, h1⟩ := ih
    constructor
    · rw [parity_count_zero_succ, h0, h1, pow_succ]
      ring
    · rw [parity_count_one_succ, h0, h1, pow_succ]
      ring


/-- `lit_sat` on a freshly built literal. -/
theorem lit_sat_new (a : Nat → Bool) (v : Nat) (ng : Bool) :
    lit_sat a (Lit.new v ng) = (a v != ng) := by
  show (a (Lit.new v ng).var != (Lit.new v ng).neg) = (a v != ng)
  rw [Lit_var_new, Lit_neg_new]

/-- The clause for mask `i` is falsified exactly by the assignment reading
off the bits of `i`. -/
theorem clause_sat_xor_clause_false (a : Nat → Bool) (vars : List Nat) (i : Nat) :
    clause_sat a (xor_clause vars i) = false ↔
      ∀ (b : Nat) (hb : b < vars.length), a vars[b] = bit_of i b := by
  show ((vars.enum.map (fun bv => Lit.new bv.2 (bit_of i bv.1))).any (lit_sat a)) = false ↔ _
  rw [List.any_eq_false]
  constructor
  · intro h b hb
    have hmem : Lit.new vars[b] (bit_of i b)
        ∈ vars.enum.map (fun bv => Lit.new bv.2 (bit_of i bv.1)) := by
      rw [List.mem_iff_getElem]
      refine ⟨b, ?_, ?_⟩
      · rw [List.length_map, List.enum_length]
        exact hb
      · rw [List.getElem_map, List.getElem_enum]
    have h2 := h _ hmem
    rw [lit_sat_new] at h2
    by_contra hne
    exact h2 (bne_iff_ne.mpr hne)
  · intro h l hl
    rw [List.mem_iff_getElem] at hl
    obtain ⟨j, hj, rfl⟩ := hl
    rw [List.length_map, List.enum_length] at hj
    rw [List.getElem_map, List.getElem_enum]
    show ¬ lit_sat a (Lit.new vars[j] (bit_of i j)) = true
    rw [lit_sat_new, h j hj]
    simp

/-- The variables of the clause for mask `i` are exactly `vars`, in order. -/
theorem xor_clause_vars (vars : List Nat) (i : Nat) :
    (xor_clause vars i).lits.map Lit.var = vars := by
  show (vars.enum.map (fun bv => Lit.new bv.2 (bit_of i bv.1))).map Lit.var = vars
  rw [List.map_map]
  have hcg : ∀ bv ∈ vars.enum,
      (Lit.var ∘ fun bv => Lit.new bv.2 (bit_of i bv.1)) bv = Prod.snd bv := by
    intro bv _
    show (Lit.new bv.2 (bit_of i bv.1)).var = bv.2
    rw [Lit_var_new]
  rw [List.map_congr_left hcg, List.enum_map_snd]

/-- Each member of `vars` appears in the clause for mask `i` as many times
as it appears in `vars`; with distinct variables, exactly once. -/
theorem xor_clause_count (vars : List Nat) (i : Nat) (hnd : vars.Nodup) (v : Nat)
    (hv : v ∈ vars) :
    ((xor_clause vars i).lits.filter (fun l => Lit.var l == v)).length = 1 := by
  rw [← List.countP_eq_length_filter]
  show (vars.enum.map (fun bv => Lit.new bv.2 (bit_of i bv.1))).countP
      (fun l => Lit.var l == v) = 1
  rw [List.countP_map]
  have hcg : ∀ bv ∈ vars.enum,
      ((fun l => Lit.var l == v) ∘ fun bv => Lit.new bv.2 (bit_of i bv.1)) bv
        = ((fun x => x == v) ∘ Prod.snd) bv := by
    intro bv _
    show (Lit.var (Lit.new bv.2 (bit_of i bv.1)) == v) = (bv.2 == v)
    rw [Lit_var_new]
  rw [countP_congr_on vars.enum _ _ hcg, ← List.countP_map, List.enum_map_snd,
    ← List.count_eq_countP]
  exact List.count_eq_one_of_mem hnd hv

/-- The semantic half of claim C6: the assignments satisfying every emitted
clause are exactly the assignments whose XOR over `vars` equals `rhs`. -/
theorem xor_cnf_sat_iff (vars : List Nat) (rhs : Bool) (a : Nat → Bool) :
    (∀ c ∈ xor_to_cnf vars rhs, clause_sat a c = true) ↔ xor_val a vars = rhs := by
  have hMlt : encode_mask (vars.map a) < 2 ^ vars.length := by
    have h := encode_mask_lt (vars.map a)
    rw [List.length_map] at h
    exact h
  have hMbits : ∀ (b : Nat) (hb : b < vars.length),
      a vars[b] = bit_of (encode_mask (vars.map a)) b := by
    intro b hb
    have hb1 : b < (vars.map a).length := by
      rw [List.length_map]
      exact hb
    have h1 := bit_of_encode (vars.map a) b hb1
    rw [List.getD_eq_getElem (vars.map a) false hb1, List.getElem_map] at h1
    exact h1.symm
  have hxv : xor_val a vars = ((vars.map a).count true % 2 == 1) := by
    show (vars.map a).foldl Bool.xor false = _
    rw [foldl_xor_count, Bool.false_xor]
  constructor
  · intro hall
    have hMnot : encode_mask (vars.map a) ∉
        (List.range (2 ^ vars.length)).filter
          (fun i => count_ones i % 2 == (if rhs then 0 else 1)) := by
      intro hM
      have hc : xor_clause vars (encode_mask (vars.map a)) ∈ xor_to_cnf vars rhs := by
        rw [xor_to_cnf_eq]
        exact List.mem_map_of_mem _ hM
      have hsat := hall _ hc
      have hfalse : clause_sat a (xor_clause vars (encode_mask (vars.map a))) = false :=
        (clause_sat_xor_clause_false a vars _).mpr hMbits
      rw [hsat] at hfalse
      exact Bool.noConfusion hfalse
    have hMrange : encode_mask (vars.map a) ∈ List.range (2 ^ vars.length) :=
      List.mem_range.mpr hMlt
    have hpar : ¬ ((count_ones (encode_mask (vars.map a)) % 2
        == (if rhs then 0 else 1)) = true) :=
      fun hp => hMnot (List.mem_filter.mpr ⟨hMrange, hp⟩)
    rw [count_ones_encode] at hpar
    rw [hxv]
    rcases Nat.mod_two_eq_zero_or_one ((vars.map a).count true) with h | h <;>
      cases rhs <;> rw [h] at hpar ⊢ <;> first | rfl | exact absurd rfl hpar
  · intro hxr c hc
    rw [xor_to_cnf_eq, List.mem_map] at hc
    obtain ⟨i, hi, rfl⟩ := hc
    rw [List.mem_filter] at hi
    obtain ⟨hir, hip⟩ := hi
    have hilt : i < 2 ^ vars.length := List.mem_range.mp hir
    by_contra hcs
    have hfalse : clause_sat a (xor_clause vars i) = false := by
      cases hcv : clause_sat a (xor_clause vars i)
      · rfl
      · exact absurd hcv hcs
    have hbits := (clause_sat_xor_clause_false a vars i).mp hfalse
    have hieq : i = encode_mask (vars.map a) := by
      apply encode_eq_of_bits
      · rw [List.length_map]
        exact hilt
      · intro b hb
        rw [List.length_map] at hb
        have hb1 : b < (vars.map a).length := by
          rw [List.length_map]
          exact hb
        have h1 := hbits b hb
        rw [List.getD_eq_getElem (vars.map a) false hb1, List.getElem_map]
        exact h1.symm
    rw [hieq, count_ones_encode] at hip
    rw [hxv] at hxr
    rcases Nat.mod_two_eq_zero_or_one ((vars.map a).count true) with h | h <;>
      cases rhs <;> rw [h] at hip hxr <;>
      first | exact Bool.noConfusion hip | exact Bool.noConfusion hxr

/-- Claim C6: for every non-empty list of `k` distinct variables and every
boolean `rhs`, `xor_to_cnf` returns exactly `2 ^ (k - 1)` clauses, each of
whose literal lists carries exactly the `k` variables (each exactly once),
and a total assignment satisfies all returned clauses exactly when the XOR
of the variables' values equals `rhs`. -/
theorem xor_to_cnf_spec (vars : List Nat) (rhs : Bool)
    (hne : vars ≠ []) (hnd : vars.Nodup) :
    (xor_to_cnf vars rhs).length = 2 ^ (vars.length - 1) ∧
    (∀ c ∈ xor_to_cnf vars rhs,
      c.lits.map Lit.var = vars ∧
      ∀ v ∈ vars, (c.lits.filter (fun l => Lit.var l == v)).length = 1) ∧
    (∀ a : Nat → Bool,
      (∀ c ∈ xor_to_cnf vars rhs, clause_sat a c = true) ↔ xor_val a vars = rhs) := by
  refine ⟨?_, ?_, ?_⟩
  · rw [xor_to_cnf_eq, List.length_map]
    show parity_count (if rhs then 0 else 1) vars.length = 2 ^ (vars.length - 1)
    have hpos : 0 < vars.length := List.length_pos.mpr hne
    obtain ⟨k, hk⟩ : ∃ k, vars.length = k + 1 := ⟨vars.length - 1, by omega⟩
    rw [hk]
    have hk1 : k + 1 - 1 = k := rfl
    rw [hk1]
    cases rhs
    · show parity_count 1 (k + 1) = 2 ^ k
      exact (parity_count_val k).2
    · show parity_count 0 (k + 1) = 2 ^ k
      exact (parity_count_val k).1
  · intro c hc
    rw [xor_to_cnf_eq, List.mem_map] at hc
    obtain ⟨i, hi, rfl⟩ := hc
    exact ⟨xor_clause_vars vars i, fun v hv => xor_clause_count vars i hnd v hv⟩
  · intro a
    exact xor_cnf_sat_iff vars rhs a

/-- Witness for claim C6: the two-variable constraint x1 XOR x2 = 1 yields
two clauses over exactly the variables 1 and 2, and its models are the
assignments giving x1 and x2 different values. -/
theorem xor_to_cnf_spec_witness :
    (xor_to_cnf [1, 2] true).length = 2 ^ (([1, 2] : List Nat).length - 1) ∧
    (∀ c ∈ xor_to_cnf [1, 2] true,
      c.lits.map Lit.var = [1, 2] ∧
      ∀ v ∈ ([1, 2] : List Nat),
        (c.lits.filter (fun l => Lit.var l == v)).length = 1) ∧
    (∀ a : Nat → Bool,
      (∀ c ∈ xor_to_cnf [1, 2] true, clause_sat a c = true) ↔ xor_val a [1, 2] = true) :=
  xor_to_cnf_spec [1, 2] true (by decide) (by decide)


/-! ### Claim C8: helper lemmas -/

/-- `getD` after an in-range write at the same index. -/
theorem getD_set_self_of_lt {α : Type} (l : List α) (i : Nat) (x d : α)
    (h : i < l.length) : (l.set i x).getD i d = x := by
  rw [List.getD_eq_getElem?_getD, List.getElem?_set_self h]
  rfl

/-- `list_swap` does not change the length. -/
theorem list_swap_length {α : Type} (l : List α) (i j : Nat) :
    (list_swap l i j).length = l.length := by
  unfold list_swap
  cases hgi : l.get? i with
  | none => rfl
  | some a =>
    cases hgj : l.get? j with
    | none => rfl
    | some b =>
      rw [List.length_set, List.length_set]

/-- `list_swap` introduces no new elements. -/
theorem list_swap_subset {α : Type} (l : List α) (i j : Nat) :
    ∀ x ∈ list_swap l i j, x ∈ l := by
  intro x hx
  unfold list_swap at hx
  cases hgi : l.get? i with
  | none =>
    rw [hgi] at hx
    exact hx
  | some a =>
    rw [hgi] at hx
    cases hgj : l.get? j with
    | none =>
      rw [hgj] at hx
      exact hx
    | some b =>
      rw [hgj] at hx
      have ha : a ∈ l := List.get?_mem hgi
      have hb : b ∈ l := List.get?_mem hgj
      rcases List.mem_or_eq_of_mem_set hx with hx1 | rfl
      · rcases List.mem_or_eq_of_mem_set hx1 with hx2 | rfl
        · exact hx2
        · exact hb
      · exact ha

/-- `getD` just past the end of the left part of an append of a singleton. -/
theorem getD_append_len {α : Type} (l : List α) (x d : α) :
    (l ++ [x]).getD l.length d = x := by
  rw [List.getD_eq_getElem?_getD, List.getElem?_append_right (le_refl _), Nat.sub_self]
  rfl

/-- `getD` inside the left part of an append. -/
theorem getD_append_lt {α : Type} (l l2 : List α) (n : Nat) (d : α) (h : n < l.length) :
    (l ++ l2).getD n d = l.getD n d := by
  rw [List.getD_eq_getElem?_getD, List.getD_eq_getElem?_getD, List.getElem?_append,
    if_pos h]

/-- Membership in a watch list after `push_watch`. -/
theorem push_watch_mem (w : List (List Watcher)) (idx : Nat) (x v : Watcher) (i : Nat)
    (hv : v ∈ (push_watch w idx x).getD i []) : v ∈ w.getD i [] ∨ v = x := by
  unfold push_watch at hv
  by_cases hi : i = idx
  · subst hi
    by_cases hlen : i < w.length
    · rw [getD_set_self_of_lt w i _ [] hlen] at hv
      rcases List.mem_append.mp hv with h1 | h1
      · exact Or.inl h1
      · exact Or.inr (List.mem_singleton.mp h1)
    · rw [List.set_eq_of_length_le (by omega)] at hv
      exact Or.inl hv
  · rw [getD_set_ne w idx i _ [] (fun e => hi e.symm)] at hv
    exact Or.inl hv

/-- `WValid` only looks at the clause database. -/
theorem WValid_congr (s s2 : Solver) (hc : s2.clauses = s.clauses) (w : Watcher)
    (h : WValid s w) : WValid s2 w := by
  show w.clause_idx < s2.clauses.length ∧
    2 ≤ (s2.clauses.getD w.clause_idx default).lits.length
  rw [hc]
  exact h

/-- `WatchOK` only looks at the watch lists and the clause database. -/
theorem WatchOK_congr (s s2 : Solver) (hw : s2.watches = s.watches)
    (hc : s2.clauses = s.clauses) (h : WatchOK s) : WatchOK s2 := by
  intro i w hmem
  rw [hw] at hmem
  exact WValid_congr s s2 hc w (h i w hmem)

/-- `TrailInv` only looks at assignments, trail, clauses and `num_vars`. -/
theorem TrailInv_congr (s s2 : Solver) (ha : s2.assignments = s.assignments)
    (ht : s2.trail = s.trail) (hn : s2.num_vars = s.num_vars)
    (hc : s2.clauses = s.clauses) (h : TrailInv s) : TrailInv s2 := by
  unfold TrailInv at h ⊢
  obtain ⟨h1, h2, h3, h4, h5⟩ := h
  refine ⟨?_, ?_, ?_, ?_, ?_⟩
  · rw [ha, hn]
    exact h1
  · rw [ht, hn]
    exact h2
  · rw [ht]
    exact h3
  · rw [ha, ht]
    exact h4
  · rw [hc, hn]
    exact h5

/-- `unchecked_enqueue` as a plain conditional. -/
theorem unchecked_enqueue_eq (s : Solver) (lit : Lit) (r : Option Nat) :
    unchecked_enqueue s lit r =
      (if s.assignments.getD lit.var VarValue.Unassigned ≠ VarValue.Unassigned then s
       else
        { s with
          assignments := s.assignments.set lit.var
            (if lit.neg then VarValue.VFalse else VarValue.VTrue)
          level := s.level.set lit.var s.trail_lim.length
          reason := s.reason.set lit.var r
          trail := s.trail ++ [lit] }) := rfl

/-- `unchecked_enqueue` never touches clauses, watches, `num_vars`, the
queue head or the decision-level stack. -/
theorem unchecked_enqueue_frames (s : Solver) (lit : Lit) (r : Option Nat) :
    (unchecked_enqueue s lit r).clauses = s.clauses ∧
    (unchecked_enqueue s lit r).watches = s.watches ∧
    (unchecked_enqueue s lit r).num_vars = s.num_vars := by
  rw [unchecked_enqueue_eq]
  by_cases h : s.assignments.getD lit.var VarValue.Unassigned ≠ VarValue.Unassigned
  · rw [if_pos h]
    exact ⟨rfl, rfl, rfl⟩
  · rw [if_neg h]
    exact ⟨rfl, rfl, rfl⟩

/-- `unchecked_enqueue` preserves the trail invariant when the enqueued
variable is in range (the condition under which the source's array writes
do not panic). -/
theorem unchecked_enqueue_inv (s : Solver) (lit : Lit) (r : Option Nat)
    (hinv : TrailInv s) (hvar : Lit.var lit < s.num_vars) :
    TrailInv (unchecked_enqueue s lit r) := by
  unfold TrailInv at hinv ⊢
  obtain ⟨h1, h2, h3, h4, h5⟩ := hinv
  rw [unchecked_enqueue_eq]
  by_cases h : s.assignments.getD lit.var VarValue.Unassigned ≠ VarValue.Unassigned
  · rw [if_pos h]
    exact ⟨h1, h2, h3, h4, h5⟩
  · rw [if_neg h]
    have hun : s.assignments.getD lit.var VarValue.Unassigned = VarValue.Unassigned := by
      by_contra hc
      exact h hc
    have hnotmem : Lit.var lit ∉ s.trail.map Lit.var := by
      intro hm
      exact ((h4 (Lit.var lit)).mpr hm) hun
    refine ⟨?_, ?_, ?_, ?_, ?_⟩
    · show (s.assignments.set lit.var
          (if lit.neg then VarValue.VFalse else VarValue.VTrue)).length = s.num_vars
      rw [List.length_set]
      exact h1
    · intro l hl
      show Lit.var l < s.num_vars
      rcases List.mem_append.mp hl with h0 | h0
      · exact h2 l h0
      · rw [List.mem_singleton.mp h0]
        exact hvar
    · show ((s.trail ++ [lit]).map Lit.var).Nodup
      rw [List.map_append, List.nodup_append]
      refine ⟨h3, List.nodup_singleton _, ?_⟩
      intro a ha hb
      rw [List.map_singleton, List.mem_singleton] at hb
      subst hb
      exact hnotmem ha
    · intro v
      by_cases hv : v = Lit.var lit
      · subst hv
        constructor
        · intro _
          show Lit.var lit ∈ (s.trail ++ [lit]).map Lit.var
          rw [List.map_append, List.map_singleton]
          exact List.mem_append.mpr (Or.inr (List.mem_singleton.mpr rfl))
        · intro _
          show (s.assignments.set lit.var
              (if lit.neg then VarValue.VFalse else VarValue.VTrue)).getD lit.var
              VarValue.Unassigned ≠ VarValue.Unassigned
          rw [getD_set_self_of_lt s.assignments lit.var _ VarValue.Unassigned (by omega)]
          cases hn : lit.neg <;> decide
      · constructor
        · intro hne
          have hne2 : s.assignments.getD v VarValue.Unassigned ≠ VarValue.Unassigned := by
            rwa [getD_set_ne s.assignments lit.var v _ _ (fun e => hv e.symm)] at hne
          show v ∈ (s.trail ++ [lit]).map Lit.var
          rw [List.map_append]
          exact List.mem_append.mpr (Or.inl ((h4 v).mp hne2))
        · intro hm
          show (s.assignments.set lit.var
              (if lit.neg then VarValue.VFalse else VarValue.VTrue)).getD v
              VarValue.Unassigned ≠ VarValue.Unassigned
          rw [getD_set_ne s.assignments lit.var v _ _ (fun e => hv e.symm)]
          rw [List.map_append] at hm
          rcases List.mem_append.mp hm with h0 | h0
          · exact (h4 v).mpr h0
          · rw [List.map_singleton, List.mem_singleton] at h0
            exact absurd h0 hv
    · exact h5

/-- Membership after `insert_by_code`. -/
theorem insert_by_code_mem (a : Lit) : ∀ (l : List Lit) (x : Lit),
    x ∈ insert_by_code a l → x = a ∨ x ∈ l := by
  intro l
  induction l with
  | nil =>
    intro x hx
    exact Or.inl (List.mem_singleton.mp hx)
  | cons y ys ih =>
    intro x hx
    by_cases hc : a.code ≤ y.code
    · rw [insert_by_code, if_pos hc] at hx
      rcases List.mem_cons.mp hx with h0 | hx1
      · exact Or.inl h0
      · exact Or.inr hx1
    · rw [insert_by_code, if_neg hc] at hx
      rcases List.mem_cons.mp hx with h0 | hx1
      · subst h0
        exact Or.inr (List.mem_cons_self _ _)
      · rcases ih x hx1 with h0 | h0
        · exact Or.inl h0
        · exact Or.inr (List.mem_cons_of_mem _ h0)

/-- The sort introduces no new literals. -/
theorem sort_by_code_mem : ∀ (l : List Lit) (x : Lit), x ∈ sort_by_code l → x ∈ l := by
  intro l
  induction l with
  | nil =>
    intro x hx
    exact hx
  | cons y ys ih =>
    intro x hx
    rw [sort_by_code] at hx
    rcases insert_by_code_mem y (sort_by_code ys) x hx with h0 | h0
    · subst h0
      exact List.mem_cons_self _ _
    · exact List.mem_cons_of_mem _ (ih x h0)

/-- `insert_by_code` adds exactly one entry. -/
theorem insert_by_code_length (a : Lit) : ∀ l : List Lit,
    (insert_by_code a l).length = l.length + 1 := by
  intro l
  induction l with
  | nil => rfl
  | cons y ys ih =>
    by_cases hc : a.code ≤ y.code
    · rw [insert_by_code, if_pos hc]
      rfl
    · rw [insert_by_code, if_neg hc]
      show (insert_by_code a ys).length + 1 = ys.length + 1 + 1
      rw [ih]

/-- The sort keeps the length. -/
theorem sort_by_code_length : ∀ l : List Lit, (sort_by_code l).length = l.length := by
  intro l
  induction l with
  | nil => rfl
  | cons y ys ih =>
    show (insert_by_code y (sort_by_code ys)).length = ys.length + 1
    rw [insert_by_code_length, ih]

/-- `dedup_adj` introduces no new elements. -/
theorem dedup_adj_mem {α : Type} [DecidableEq α] : ∀ (l : List α) (x : α),
    x ∈ dedup_adj l → x ∈ l := by
  intro l
  induction l with
  | nil =>
    intro x hx
    exact hx
  | cons a tl ih =>
    intro x hx
    cases tl with
    | nil => exact hx
    | cons b rest =>
      show x ∈ a :: b :: rest
      by_cases hab : a = b
      · rw [dedup_adj, if_pos hab] at hx
        exact List.mem_cons_of_mem _ (ih x hx)
      · rw [dedup_adj, if_neg hab] at hx
        rcases List.mem_cons.mp hx with h0 | h0
        · subst h0
          exact List.mem_cons_self _ _
        · exact List.mem_cons_of_mem _ (ih x h0)

/-- `dedup_adj` of a non-empty list is non-empty. -/
theorem dedup_adj_ne_nil {α : Type} [DecidableEq α] : ∀ l : List α,
    l ≠ [] → dedup_adj l ≠ [] := by
  intro l
  induction l with
  | nil =>
    intro h
    exact absurd rfl h
  | cons a tl ih =>
    intro _
    cases tl with
    | nil =>
      intro hc
      exact List.cons_ne_nil a [] hc
    | cons b rest =>
      by_cases hab : a = b
      · rw [dedup_adj, if_pos hab]
        exact ih (List.cons_ne_nil b rest)
      · rw [dedup_adj, if_neg hab]
        exact List.cons_ne_nil _ _


/-- `pop_trail` keeps the length of the assignment array. -/
theorem pop_trail_assignments_length (limit : Nat) :
    ∀ (fuel : Nat) (s : Solver),
      (pop_trail limit fuel s).assignments.length = s.assignments.length := by
  intro fuel
  induction fuel with
  | zero =>
    intro s
    rfl
  | succ f ih =>
    intro s
    by_cases hlt : limit < s.trail.length
    · have hstep : pop_trail limit (f + 1) s =
          pop_trail limit f
            { s with
              trail := s.trail.dropLast
              assignments := s.assignments.set (s.trail.getLastD default).var
                VarValue.Unassigned
              reason := s.reason.set (s.trail.getLastD default).var none
              level := s.level.set (s.trail.getLastD default).var 0 } := by
        conv_lhs => rw [pop_trail]
        rw [if_pos hlt]
      rw [hstep, ih]
      show (s.assignments.set (s.trail.getLastD default).var
          VarValue.Unassigned).length = s.assignments.length
      rw [List.length_set]
    · have hstep : pop_trail limit (f + 1) s = s := by
        conv_lhs => rw [pop_trail]
        rw [if_neg hlt]
      rw [hstep]

/-- One round of the backtrack loop preserves the trail invariant: the
popped suffix is cleared and the kept prefix is a prefix of a duplicate-free
trail. -/
theorem bt_step_trail_inv (s : Solver) (h : TrailInv s) : TrailInv (bt_step s) := by
  obtain ⟨p_tr, p_cl, p_wa, p_tl, p_qh, p_nv, p_frame, p_clear⟩ :=
    pop_trail_spec (s.trail_lim.getLastD 0) s.trail.length s (Nat.le_add_left _ _)
  unfold TrailInv at h ⊢
  obtain ⟨h1, h2, h3, h4, h5⟩ := h
  have E1 : (bt_step s).assignments
      = (pop_trail (s.trail_lim.getLastD 0) s.trail.length s).assignments := rfl
  have e_tr : (bt_step s).trail = s.trail.take (s.trail_lim.getLastD 0) := by
    show (pop_trail (s.trail_lim.getLastD 0) s.trail.length s).trail = _
    exact p_tr
  have e_nv : (bt_step s).num_vars = s.num_vars := by
    show (pop_trail (s.trail_lim.getLastD 0) s.trail.length s).num_vars = _
    exact p_nv
  have e_cl : (bt_step s).clauses = s.clauses := by
    show (pop_trail (s.trail_lim.getLastD 0) s.trail.length s).clauses = _
    exact p_cl
  rw [E1, e_tr, e_nv, e_cl]
  refine ⟨?_, ?_, ?_, ?_, ?_⟩
  · rw [pop_trail_assignments_length, h1]
  · intro l hl
    exact h2 l (List.take_subset _ _ hl)
  · rw [List.map_take]
    exact h3.sublist (List.take_sublist _ _)
  · intro v
    by_cases hvd : v ∈ (s.trail.drop (s.trail_lim.getLastD 0)).map Lit.var
    · obtain ⟨c1, c2, c3⟩ := p_clear v hvd
      rw [c1]
      constructor
      · intro hne
        exact absurd rfl hne
      · intro hm
        rw [List.map_take] at hm
        have hvd2 : v ∈ List.drop (s.trail_lim.getLastD 0) (s.trail.map Lit.var) := by
          rw [← List.map_drop]
          exact hvd
        have h3x := h3
        rw [show s.trail.map Lit.var
            = List.take (s.trail_lim.getLastD 0) (s.trail.map Lit.var)
              ++ List.drop (s.trail_lim.getLastD 0) (s.trail.map Lit.var)
          from (List.take_append_drop _ _).symm, List.nodup_append] at h3x
        exact (h3x.2.2 hm hvd2).elim
    · obtain ⟨f1, f2, f3⟩ := p_frame v hvd
      rw [f1]
      constructor
      · intro hne
        have hm := (h4 v).mp hne
        rw [List.map_take]
        rw [show s.trail.map Lit.var
            = List.take (s.trail_lim.getLastD 0) (s.trail.map Lit.var)
              ++ List.drop (s.trail_lim.getLastD 0) (s.trail.map Lit.var)
          from (List.take_append_drop _ _).symm] at hm
        rcases List.mem_append.mp hm with h0 | h0
        · exact h0
        · have hvd2 : v ∈ (s.trail.drop (s.trail_lim.getLastD 0)).map Lit.var := by
            rw [List.map_drop]
            exact h0
          exact absurd hvd2 hvd
      · intro hm
        rw [List.map_take] at hm
        exact (h4 v).mpr (List.take_subset _ _ hm)
  · exact h5

/-- The backtrack loop preserves the trail invariant and does not touch the
clause database, the watch lists or `num_vars`. -/
theorem backtrack_loop_trail_inv (lvl : Nat) : ∀ (fuel : Nat) (s : Solver),
    TrailInv s → TrailInv (backtrack_loop lvl fuel s) ∧
      (backtrack_loop lvl fuel s).clauses = s.clauses ∧
      (backtrack_loop lvl fuel s).watches = s.watches ∧
      (backtrack_loop lvl fuel s).num_vars = s.num_vars := by
  intro fuel
  induction fuel with
  | zero =>
    intro s h
    exact ⟨h, rfl, rfl, rfl⟩
  | succ f ih =>
    intro s h
    by_cases hcond : lvl < s.trail_lim.length
    · have hstep : backtrack_loop lvl (f + 1) s = backtrack_loop lvl f (bt_step s) := by
        conv_lhs => rw [backtrack_loop]
        rw [if_pos hcond]
        rfl
      rw [hstep]
      obtain ⟨i1, i2, i3, i4⟩ := ih (bt_step s) (bt_step_trail_inv s h)
      obtain ⟨p_tr, p_cl, p_wa, p_tl, p_qh, p_nv, p_frame, p_clear⟩ :=
        pop_trail_spec (s.trail_lim.getLastD 0) s.trail.length s (Nat.le_add_left _ _)
      refine ⟨i1, ?_, ?_, ?_⟩
      · rw [i2]
        show (pop_trail (s.trail_lim.getLastD 0) s.trail.length s).clauses = s.clauses
        exact p_cl
      · rw [i3]
        show (pop_trail (s.trail_lim.getLastD 0) s.trail.length s).watches = s.watches
        exact p_wa
      · rw [i4]
        show (pop_trail (s.trail_lim.getLastD 0) s.trail.length s).num_vars = s.num_vars
        exact p_nv
    · rw [backtrack_loop_noop lvl (f + 1) s hcond]
      exact ⟨h, rfl, rfl, rfl⟩

/-- `backtrack` preserves both invariants and `num_vars`. -/
theorem backtrack_inv (s : Solver) (lvl : Nat) (h : TrailInv s) (hw : WatchOK s) :
    TrailInv (backtrack s lvl) ∧ WatchOK (backtrack s lvl) ∧
      (backtrack s lvl).num_vars = s.num_vars := by
  obtain ⟨i1, i2, i3, i4⟩ := backtrack_loop_trail_inv lvl s.trail_lim.length s h
  have E : backtrack s lvl =
      { backtrack_loop lvl s.trail_lim.length s with
        q_head := (backtrack_loop lvl s.trail_lim.length s).trail.length } := rfl
  rw [E]
  refine ⟨?_, ?_, ?_⟩
  · exact TrailInv_congr (backtrack_loop lvl s.trail_lim.length s) _ rfl rfl rfl rfl i1
  · have hwl : WatchOK (backtrack_loop lvl s.trail_lim.length s) :=
      WatchOK_congr s _ i3 i2 hw
    exact WatchOK_congr (backtrack_loop lvl s.trail_lim.length s) _ rfl rfl hwl
  · show (backtrack_loop lvl s.trail_lim.length s).num_vars = s.num_vars
    exact i4

/-- A fresh solver satisfies both invariants. -/
theorem solver_new_inv (n : Nat) : TrailInv (Solver.new n) ∧ WatchOK (Solver.new n) := by
  have hval : ∀ v : Nat, (List.replicate n VarValue.Unassigned).getD v
      VarValue.Unassigned = VarValue.Unassigned := by
    intro v
    by_cases hv : v < n
    · rw [List.getD_eq_getElem _ _ (by rw [List.length_replicate]; exact hv),
        List.getElem_replicate]
    · rw [List.getD_eq_getElem?_getD,
        List.getElem?_eq_none (by rw [List.length_replicate]; omega)]
      rfl
  constructor
  · refine ⟨?_, ?_, ?_, ?_, ?_⟩
    · show (List.replicate n VarValue.Unassigned).length = n
      rw [List.length_replicate]
    · intro l hl
      exact absurd hl (List.not_mem_nil l)
    · exact List.nodup_nil
    · intro v
      constructor
      · intro hne
        exact absurd (hval v) hne
      · intro hm
        exact absurd hm (List.not_mem_nil v)
    · intro c hc
      exact absurd hc (List.not_mem_nil c)
  · intro i w hw
    have hnil : (List.replicate (n * 2) ([] : List Watcher)).getD i [] = [] := by
      by_cases hv : i < n * 2
      · rw [List.getD_eq_getElem _ _ (by rw [List.length_replicate]; exact hv),
          List.getElem_replicate]
      · rw [List.getD_eq_getElem?_getD,
          List.getElem?_eq_none (by rw [List.length_replicate]; omega)]
        rfl
    rw [show (Solver.new n).watches = List.replicate (n * 2) [] from rfl, hnil] at hw
    exact absurd hw (List.not_mem_nil w)


/-- The clause scan of `analyze` writes only the analysis buffers. -/
theorem analyze_lits_frame (dl : Nat) (p : Option Lit) :
    ∀ (lits : List Lit) (i : Nat) (s : Solver) (counter : Int),
      (analyze_lits dl p i lits s counter).1.clauses = s.clauses ∧
      (analyze_lits dl p i lits s counter).1.watches = s.watches ∧
      (analyze_lits dl p i lits s counter).1.assignments = s.assignments ∧
      (analyze_lits dl p i lits s counter).1.trail = s.trail ∧
      (analyze_lits dl p i lits s counter).1.num_vars = s.num_vars := by
  intro lits
  induction lits with
  | nil =>
    intro i s counter
    exact ⟨rfl, rfl, rfl, rfl, rfl⟩
  | cons lit rest ih =>
    intro i s counter
    have he : analyze_lits dl p i (lit :: rest) s counter =
        (if i = 0 ∧ p = some lit then analyze_lits dl p (i + 1) rest s counter
         else
          if s.analyze_seen.getD lit.var false = false ∧ s.level.getD lit.var 0 > 0 then
            if s.level.getD lit.var 0 = dl then
              analyze_lits dl p (i + 1) rest
                { s with
                  analyze_seen := s.analyze_seen.set lit.var true
                  analyze_toclear := s.analyze_toclear ++ [lit.var] } (counter + 1)
            else
              analyze_lits dl p (i + 1) rest
                { s with
                  analyze_seen := s.analyze_seen.set lit.var true
                  analyze_toclear := s.analyze_toclear ++ [lit.var]
                  analyze_clause := s.analyze_clause ++ [lit] } counter
          else analyze_lits dl p (i + 1) rest s counter) := rfl
    rw [he]
    by_cases h1 : i = 0 ∧ p = some lit
    · rw [if_pos h1]
      exact ih (i + 1) s counter
    · rw [if_neg h1]
      by_cases h2 : s.analyze_seen.getD lit.var false = false ∧ s.level.getD lit.var 0 > 0
      · rw [if_pos h2]
        by_cases h3 : s.level.getD lit.var 0 = dl
        · rw [if_pos h3]
          obtain ⟨a1, a2, a3, a4, a5⟩ := ih (i + 1)
            { s with
              analyze_seen := s.analyze_seen.set lit.var true
              analyze_toclear := s.analyze_toclear ++ [lit.var] } (counter + 1)
          exact ⟨a1, a2, a3, a4, a5⟩
        · rw [if_neg h3]
          obtain ⟨a1, a2, a3, a4, a5⟩ := ih (i + 1)
            { s with
              analyze_seen := s.analyze_seen.set lit.var true
              analyze_toclear := s.analyze_toclear ++ [lit.var]
              analyze_clause := s.analyze_clause ++ [lit] } counter
          exact ⟨a1, a2, a3, a4, a5⟩
      · rw [if_neg h2]
        exact ih (i + 1) s counter

/-- The tail of an `analyze_loop` round writes only the analysis buffers,
assuming the recursive call does. -/
theorem analyze_loop_tail_frame (dl fuel : Nat)
    (IH : ∀ (s : Solver) (counter : Int) (cci : Option Nat) (p : Option Lit)
      (index : Nat) (r : Solver) (plit : Lit),
      analyze_loop dl fuel s counter cci p index = some (r, plit) →
      r.clauses = s.clauses ∧ r.watches = s.watches ∧ r.assignments = s.assignments ∧
      r.trail = s.trail ∧ r.num_vars = s.num_vars)
    (s : Solver) (counter : Int) (index : Nat) (r : Solver) (plit : Lit)
    (heq : analyze_loop_tail dl fuel s counter index = some (r, plit)) :
    r.clauses = s.clauses ∧ r.watches = s.watches ∧ r.assignments = s.assignments ∧
    r.trail = s.trail ∧ r.num_vars = s.num_vars := by
  rcases hscan : scan_seen s.analyze_seen s.trail index with _ | idx1
  · have heq2 : (none : Option (Solver × Lit)) = some (r, plit) := by
      rw [← heq]
      conv_rhs => rw [analyze_loop_tail]
      rw [hscan]
    exact Option.noConfusion heq2
  · have heq2 : (if counter - 1 = 0 then
        some ({ s with analyze_seen :=
            s.analyze_seen.set (s.trail.getD (idx1 - 1) default).var false },
          s.trail.getD (idx1 - 1) default)
      else
        analyze_loop dl fuel
          { s with analyze_seen :=
              s.analyze_seen.set (s.trail.getD (idx1 - 1) default).var false }
          (counter - 1) (s.reason.getD (s.trail.getD (idx1 - 1) default).var none)
          (some (s.trail.getD (idx1 - 1) default)) (idx1 - 1))
        = some (r, plit) := by
      rw [← heq]
      conv_rhs => rw [analyze_loop_tail]
      rw [hscan]
    by_cases hc : counter - 1 = 0
    · rw [if_pos hc] at heq2
      have h2 := Option.some.inj heq2
      injection h2 with e1 e2
      subst e1
      exact ⟨rfl, rfl, rfl, rfl, rfl⟩
    · rw [if_neg hc] at heq2
      obtain ⟨b1, b2, b3, b4, b5⟩ := IH _ _ _ _ _ _ _ heq2
      exact ⟨b1, b2, b3, b4, b5⟩

/-- The resolution loop of `analyze` writes only the analysis buffers. -/
theorem analyze_loop_frame (dl : Nat) : ∀ (fuel : Nat) (s : Solver) (counter : Int)
    (cci : Option Nat) (p : Option Lit) (index : Nat) (r : Solver) (plit : Lit),
    analyze_loop dl fuel s counter cci p index = some (r, plit) →
    r.clauses = s.clauses ∧ r.watches = s.watches ∧ r.assignments = s.assignments ∧
    r.trail = s.trail ∧ r.num_vars = s.num_vars := by
  intro fuel
  induction fuel with
  | zero =>
    intro s counter cci p index r plit heq
    exact Option.noConfusion heq
  | succ fuel ih =>
    intro s counter cci p index r plit heq
    rcases cci with _ | c_idx
    · have he : analyze_loop dl (fuel + 1) s counter none p index
          = analyze_loop_tail dl fuel s counter index := rfl
      rw [he] at heq
      exact analyze_loop_tail_frame dl fuel ih s counter index r plit heq
    · obtain ⟨a1, a2, a3, a4, a5⟩ :=
        analyze_lits_frame dl p (s.clauses.getD c_idx default).lits 0 s counter
      have he : analyze_loop dl (fuel + 1) s counter (some c_idx) p index
          = analyze_loop_tail dl fuel
              (analyze_lits dl p 0 (s.clauses.getD c_idx default).lits s counter).1
              (analyze_lits dl p 0 (s.clauses.getD c_idx default).lits s counter).2
              index := rfl
      rw [he] at heq
      obtain ⟨b1, b2, b3, b4, b5⟩ :=
        analyze_loop_tail_frame dl fuel ih _ _ index r plit heq
      exact ⟨b1.trans a1, b2.trans a2, b3.trans a3, b4.trans a4, b5.trans a5⟩

/-- `analyze` returns a state differing from its input only in the analysis
buffers: trail, assignments, clauses, watches and `num_vars` are unchanged. -/
theorem analyze_frames (fuel : Nat) (s : Solver) (ci : Nat) (learned : List Lit)
    (bl : Nat) (r : Solver) (heq : analyze fuel s ci = some (learned, bl, r)) :
    r.clauses = s.clauses ∧ r.watches = s.watches ∧ r.assignments = s.assignments ∧
    r.trail = s.trail ∧ r.num_vars = s.num_vars := by
  have he : analyze fuel s ci =
      (match analyze_loop s.trail_lim.length fuel
          { s with
            analyze_seen := s.analyze_toclear.foldl (fun f v => f.set v false)
              s.analyze_seen
            analyze_toclear := []
            analyze_clause := [] } 0 (some ci) none s.trail.length with
       | none => none
       | some (s2, plit2) =>
         some (plit2.not :: s2.analyze_clause,
           (if (plit2.not :: s2.analyze_clause).length > 1 then
              (((plit2.not :: s2.analyze_clause).drop 1).map
                (fun l => s2.level.getD l.var 0)).foldl max 0
            else 0),
           { s2 with analyze_clause := plit2.not :: s2.analyze_clause })) := rfl
  rw [he] at heq
  rcases hloop : analyze_loop s.trail_lim.length fuel
      { s with
        analyze_seen := s.analyze_toclear.foldl (fun f v => f.set v false)
          s.analyze_seen
        analyze_toclear := []
        analyze_clause := [] } 0 (some ci) none s.trail.length with _ | sp
  · rw [hloop] at heq
    exact Option.noConfusion heq
  · rw [hloop] at heq
    have h2 := Option.some.inj heq
    injection h2 with e1 e23
    injection e23 with e2 e3
    obtain ⟨b1, b2, b3, b4, b5⟩ := analyze_loop_frame s.trail_lim.length fuel
      { s with
        analyze_seen := s.analyze_toclear.foldl (fun f v => f.set v false)
          s.analyze_seen
        analyze_toclear := []
        analyze_clause := [] } 0 (some ci) none s.trail.length sp.1 sp.2 hloop
    subst e3
    exact ⟨b1, b2, b3, b4, b5⟩


/-- One full pass of the inner watcher loop of `Solver::propagate` preserves
the trail invariant and watcher validity, and keeps `num_vars`; the kept
prefix it returns is valid for the final state. -/
theorem process_watchers_inv (p : Lit) :
    ∀ (rest : List Watcher) (s : Solver) (conflict : Option Nat) (kept : List Watcher),
      TrailInv s → WatchOK s →
      (∀ w ∈ rest, WValid s w) → (∀ w ∈ kept, WValid s w) →
      TrailInv (process_watchers p s conflict kept rest).1 ∧
      WatchOK (process_watchers p s conflict kept rest).1 ∧
      (∀ w ∈ (process_watchers p s conflict kept rest).2.2,
        WValid (process_watchers p s conflict kept rest).1 w) ∧
      (process_watchers p s conflict kept rest).1.num_vars = s.num_vars := by
  intro rest
  induction rest with
  | nil =>
    intro s conflict kept hinv hok _ hkept
    exact ⟨hinv, hok, hkept, rfl⟩
  | cons w rest ih =>
    intro s conflict kept hinv hok hrest hkept
    have hrest1 : ∀ x ∈ rest, WValid s x := fun x hx => hrest x (List.mem_cons_of_mem _ hx)
    have hwv : WValid s w := hrest w (List.mem_cons_self _ _)
    have hkw : ∀ x ∈ kept ++ [w], WValid s x := by
      intro x hx
      rcases List.mem_append.mp hx with h0 | h0
      · exact hkept x h0
      · rw [List.mem_singleton.mp h0]
        exact hwv
    have he : process_watchers p s conflict kept (w :: rest) =
        (if conflict.isSome then process_watchers p s conflict (kept ++ [w]) rest
         else if value_lit s.assignments w.blocker = VarValue.VTrue then
           process_watchers p s conflict (kept ++ [w]) rest
         else
           if value_lit s.assignments ((if (s.clauses.getD w.clause_idx default).lits.getD 0 default = p.not then { (s.clauses.getD w.clause_idx default) with lits := list_swap (s.clauses.getD w.clause_idx default).lits 0 1 } else (s.clauses.getD w.clause_idx default)).lits.getD 0 default) = VarValue.VTrue then
             process_watchers p ({ s with clauses := s.clauses.set w.clause_idx (if (s.clauses.getD w.clause_idx default).lits.getD 0 default = p.not then { (s.clauses.getD w.clause_idx default) with lits := list_swap (s.clauses.getD w.clause_idx default).lits 0 1 } else (s.clauses.getD w.clause_idx default)) } : Solver) conflict (kept ++ [{ w with blocker := ((if (s.clauses.getD w.clause_idx default).lits.getD 0 default = p.not then { (s.clauses.getD w.clause_idx default) with lits := list_swap (s.clauses.getD w.clause_idx default).lits 0 1 } else (s.clauses.getD w.clause_idx default)).lits.getD 0 default) }]) rest
           else
             (match find_new_watch s.assignments (if (s.clauses.getD w.clause_idx default).lits.getD 0 default = p.not then { (s.clauses.getD w.clause_idx default) with lits := list_swap (s.clauses.getD w.clause_idx default).lits 0 1 } else (s.clauses.getD w.clause_idx default)).lits with
              | some k => process_watchers p ({ ({ ({ s with clauses := s.clauses.set w.clause_idx (if (s.clauses.getD w.clause_idx default).lits.getD 0 default = p.not then { (s.clauses.getD w.clause_idx default) with lits := list_swap (s.clauses.getD w.clause_idx default).lits 0 1 } else (s.clauses.getD w.clause_idx default)) } : Solver) with clauses := ({ s with clauses := s.clauses.set w.clause_idx (if (s.clauses.getD w.clause_idx default).lits.getD 0 default = p.not then { (s.clauses.getD w.clause_idx default) with lits := list_swap (s.clauses.getD w.clause_idx default).lits 0 1 } else (s.clauses.getD w.clause_idx default)) } : Solver).clauses.set w.clause_idx ({ (if (s.clauses.getD w.clause_idx default).lits.getD 0 default = p.not then { (s.clauses.getD w.clause_idx default) with lits := list_swap (s.clauses.getD w.clause_idx default).lits 0 1 } else (s.clauses.getD w.clause_idx default)) with lits := list_swap (if (s.clauses.getD w.clause_idx default).lits.getD 0 default = p.not then { (s.clauses.getD w.clause_idx default) with lits := list_swap (s.clauses.getD w.clause_idx default).lits 0 1 } else (s.clauses.getD w.clause_idx default)).lits 1 k } : Clause) } : Solver) with watches := push_watch ({ ({ s with clauses := s.clauses.set w.clause_idx (if (s.clauses.getD w.clause_idx default).lits.getD 0 default = p.not then { (s.clauses.getD w.clause_idx default) with lits := list_swap (s.clauses.getD w.clause_idx default).lits 0 1 } else (s.clauses.getD w.clause_idx default)) } : Solver) with clauses := ({ s with clauses := s.clauses.set w.clause_idx (if (s.clauses.getD w.clause_idx default).lits.getD 0 default = p.not then { (s.clauses.getD w.clause_idx default) with lits := list_swap (s.clauses.getD w.clause_idx default).lits 0 1 } else (s.clauses.getD w.clause_idx default)) } : Solver).clauses.set w.clause_idx ({ (if (s.clauses.getD w.clause_idx default).lits.getD 0 default = p.not then { (s.clauses.getD w.clause_idx default) with lits := list_swap (s.clauses.getD w.clause_idx default).lits 0 1 } else (s.clauses.getD w.clause_idx default)) with lits := list_swap (if (s.clauses.getD w.clause_idx default).lits.getD 0 default = p.not then { (s.clauses.getD w.clause_idx default) with lits := list_swap (s.clauses.getD w.clause_idx default).lits 0 1 } else (s.clauses.getD w.clause_idx default)).lits 1 k } : Clause) } : Solver).watches (({ (if (s.clauses.getD w.clause_idx default).lits.getD 0 default = p.not then { (s.clauses.getD w.clause_idx default) with lits := list_swap (s.clauses.getD w.clause_idx default).lits 0 1 } else (s.clauses.getD w.clause_idx default)) with lits := list_swap (if (s.clauses.getD w.clause_idx default).lits.getD 0 default = p.not then { (s.clauses.getD w.clause_idx default) with lits := list_swap (s.clauses.getD w.clause_idx default).lits 0 1 } else (s.clauses.getD w.clause_idx default)).lits 1 k } : Clause).lits.getD 1 default).not.code ⟨w.clause_idx, ((if (s.clauses.getD w.clause_idx default).lits.getD 0 default = p.not then { (s.clauses.getD w.clause_idx default) with lits := list_swap (s.clauses.getD w.clause_idx default).lits 0 1 } else (s.clauses.getD w.clause_idx default)).lits.getD 0 default)⟩ } : Solver) conflict kept rest
              | none =>
                if value_lit s.assignments ((if (s.clauses.getD w.clause_idx default).lits.getD 0 default = p.not then { (s.clauses.getD w.clause_idx default) with lits := list_swap (s.clauses.getD w.clause_idx default).lits 0 1 } else (s.clauses.getD w.clause_idx default)).lits.getD 0 default) = VarValue.VFalse then
                  process_watchers p ({ s with clauses := s.clauses.set w.clause_idx (if (s.clauses.getD w.clause_idx default).lits.getD 0 default = p.not then { (s.clauses.getD w.clause_idx default) with lits := list_swap (s.clauses.getD w.clause_idx default).lits 0 1 } else (s.clauses.getD w.clause_idx default)) } : Solver) (some w.clause_idx) (kept ++ [w]) rest
                else
                  process_watchers p (unchecked_enqueue ({ s with clauses := s.clauses.set w.clause_idx (if (s.clauses.getD w.clause_idx default).lits.getD 0 default = p.not then { (s.clauses.getD w.clause_idx default) with lits := list_swap (s.clauses.getD w.clause_idx default).lits 0 1 } else (s.clauses.getD w.clause_idx default)) } : Solver) ((if (s.clauses.getD w.clause_idx default).lits.getD 0 default = p.not then { (s.clauses.getD w.clause_idx default) with lits := list_swap (s.clauses.getD w.clause_idx default).lits 0 1 } else (s.clauses.getD w.clause_idx default)).lits.getD 0 default) (some w.clause_idx))
                    conflict (kept ++ [w]) rest)) := rfl
    rw [he]
    by_cases h1 : conflict.isSome
    · rw [if_pos h1]
      exact ih s conflict (kept ++ [w]) hinv hok hrest1 hkw
    · rw [if_neg h1]
      by_cases h2 : value_lit s.assignments w.blocker = VarValue.VTrue
      · rw [if_pos h2]
        exact ih s conflict (kept ++ [w]) hinv hok hrest1 hkw
      · rw [if_neg h2]
        obtain ⟨g1, g2, g3, g4, g5⟩ := hinv
        set cl0 := s.clauses.getD w.clause_idx default with hcl0
        set cl1 := (if cl0.lits.getD 0 default = p.not then
            { cl0 with lits := list_swap cl0.lits 0 1 } else cl0) with hcl1
        set s1 := ({ s with clauses := s.clauses.set w.clause_idx cl1 } : Solver) with hs1
        set other := cl1.lits.getD 0 default with hother
        have hcl0_mem : cl0 ∈ s.clauses := by
          rw [hcl0]
          exact getD_mem_of_lt _ _ _ hwv.1
        have hc1_sub : ∀ x ∈ cl1.lits, x ∈ cl0.lits := by
          rw [hcl1]
          by_cases h0 : cl0.lits.getD 0 default = p.not
          · rw [if_pos h0]
            exact list_swap_subset _ 0 1
          · rw [if_neg h0]
            exact fun x hx => hx
        have hc1_len : cl1.lits.length = cl0.lits.length := by
          rw [hcl1]
          by_cases h0 : cl0.lits.getD 0 default = p.not
          · rw [if_pos h0]
            exact list_swap_length _ 0 1
          · rw [if_neg h0]
        have hinv1 : TrailInv s1 := by
          refine ⟨g1, g2, g3, g4, ?_⟩
          intro c hc l hl
          rcases List.mem_or_eq_of_mem_set hc with h0 | h0
          · exact g5 c h0 l hl
          · subst h0
            exact g5 _ hcl0_mem l (hc1_sub l hl)
        have hcl_len_eq : s1.clauses.length = s.clauses.length := by
          show (s.clauses.set w.clause_idx cl1).length = s.clauses.length
          rw [List.length_set]
        have hwlt1 : w.clause_idx < s1.clauses.length := by
          rw [hcl_len_eq]
          exact hwv.1
        have hgetD_len : ∀ j : Nat, (s1.clauses.getD j default).lits.length
            = (s.clauses.getD j default).lits.length := by
          intro j
          by_cases hj : j = w.clause_idx
          · subst hj
            show ((s.clauses.set w.clause_idx cl1).getD w.clause_idx default).lits.length = _
            rw [getD_set_self_of_lt _ _ _ _ hwv.1]
            rw [hcl0] at hc1_len
            exact hc1_len
          · show ((s.clauses.set w.clause_idx cl1).getD j default).lits.length = _
            rw [getD_set_ne _ _ _ _ _ (fun e => hj e.symm)]
        have hWValid1 : ∀ x : Watcher, WValid s x → WValid s1 x := by
          intro x hx
          show x.clause_idx < s1.clauses.length ∧
            2 ≤ (s1.clauses.getD x.clause_idx default).lits.length
          rw [hcl_len_eq, hgetD_len]
          exact hx
        have hok1 : WatchOK s1 := fun i x hx => hWValid1 x (hok i x hx)
        have hrest2 : ∀ x ∈ rest, WValid s1 x := fun x hx => hWValid1 x (hrest1 x hx)
        have hkept2 : ∀ x ∈ kept ++ [w], WValid s1 x := fun x hx => hWValid1 x (hkw x hx)
        have h0lt : 0 < cl1.lits.length := by
          rw [hc1_len, hcl0]
          have h2w := hwv.2
          omega
        have hother_lt : Lit.var other < s.num_vars :=
          g5 _ hcl0_mem _ (hc1_sub _ (getD_mem_of_lt cl1.lits 0 default h0lt))
        by_cases h3 : value_lit s.assignments other = VarValue.VTrue
        · rw [if_pos h3]
          have hkb : ∀ x ∈ kept ++ [{ w with blocker := other }], WValid s1 x := by
            intro x hx
            rcases List.mem_append.mp hx with h0 | h0
            · exact hWValid1 x (hkept x h0)
            · rw [List.mem_singleton.mp h0]
              exact hWValid1 _ hwv
          exact ih s1 conflict _ hinv1 hok1 hrest2 hkb
        · rw [if_neg h3]
          split
          next k hfind =>
            set cl2 := ({ cl1 with lits := list_swap cl1.lits 1 k } : Clause) with hcl2
            set s2 := ({ s1 with clauses := s1.clauses.set w.clause_idx cl2 } : Solver)
              with hs2
            set nw := push_watch s2.watches (cl2.lits.getD 1 default).not.code
              ⟨w.clause_idx, other⟩ with hnw
            set s3 := ({ s2 with watches := nw } : Solver) with hs3
            have hinv2 : TrailInv s2 := by
              refine ⟨g1, g2, g3, g4, ?_⟩
              intro c hc l hl
              rcases List.mem_or_eq_of_mem_set hc with h0 | h0
              · rcases List.mem_or_eq_of_mem_set h0 with h5 | h5
                · exact g5 c h5 l hl
                · subst h5
                  exact g5 _ hcl0_mem l (hc1_sub l hl)
              · subst h0
                have hl2 : l ∈ cl1.lits := by
                  have := list_swap_subset cl1.lits 1 k l hl
                  exact this
                exact g5 _ hcl0_mem l (hc1_sub l hl2)
            have hcl_len2 : s2.clauses.length = s.clauses.length := by
              show (s1.clauses.set w.clause_idx cl2).length = s.clauses.length
              rw [List.length_set]
              exact hcl_len_eq
            have hgetD_len2 : ∀ j : Nat, (s2.clauses.getD j default).lits.length
                = (s.clauses.getD j default).lits.length := by
              intro j
              by_cases hj : j = w.clause_idx
              · subst hj
                show ((s1.clauses.set w.clause_idx cl2).getD w.clause_idx
                    default).lits.length = _
                rw [getD_set_self_of_lt _ _ _ _ hwlt1]
                show (list_swap cl1.lits 1 k).length = _
                rw [list_swap_length]
                rw [hcl0] at hc1_len
                exact hc1_len
              · show ((s1.clauses.set w.clause_idx cl2).getD j default).lits.length = _
                rw [getD_set_ne _ _ _ _ _ (fun e => hj e.symm)]
                exact hgetD_len j
            have hWValid2 : ∀ x : Watcher, WValid s x → WValid s2 x := by
              intro x hx
              show x.clause_idx < s2.clauses.length ∧
                2 ≤ (s2.clauses.getD x.clause_idx default).lits.length
              rw [hcl_len2, hgetD_len2]
              exact hx
            have hok2 : WatchOK s2 := fun i x hx => hWValid2 x (hok i x hx)
            have hnew_valid : WValid s2 ⟨w.clause_idx, other⟩ := by
              show w.clause_idx < s2.clauses.length ∧
                2 ≤ (s2.clauses.getD w.clause_idx default).lits.length
              rw [hcl_len2, hgetD_len2]
              exact hwv
            have hok3 : WatchOK s3 := by
              intro i x hx
              rcases push_watch_mem s2.watches (cl2.lits.getD 1 default).not.code
                  ⟨w.clause_idx, other⟩ x i hx with h0 | h0
              · exact WValid_congr s2 s3 rfl x (hok2 i x h0)
              · subst h0
                exact WValid_congr s2 s3 rfl _ hnew_valid
            have hinv3 : TrailInv s3 := TrailInv_congr s2 s3 rfl rfl rfl rfl hinv2
            have hval3 : ∀ x : Watcher, WValid s x → WValid s3 x :=
              fun x hx => WValid_congr s2 s3 rfl x (hWValid2 x hx)
            exact ih s3 conflict kept hinv3 hok3
              (fun x hx => hval3 x (hrest1 x hx))
              (fun x hx => hval3 x (hkept x hx))
          next hfind =>
            by_cases h4 : value_lit s.assignments other = VarValue.VFalse
            · rw [if_pos h4]
              exact ih s1 (some w.clause_idx) _ hinv1 hok1 hrest2 hkept2
            · rw [if_neg h4]
              have hinv2 : TrailInv (unchecked_enqueue s1 other (some w.clause_idx)) :=
                unchecked_enqueue_inv s1 other _ hinv1 hother_lt
              obtain ⟨ef1, ef2, ef3⟩ := unchecked_enqueue_frames s1 other (some w.clause_idx)
              have hok2 : WatchOK (unchecked_enqueue s1 other (some w.clause_idx)) :=
                WatchOK_congr s1 _ ef2 ef1 hok1
              have hval2 : ∀ x : Watcher, WValid s1 x →
                  WValid (unchecked_enqueue s1 other (some w.clause_idx)) x :=
                fun x hx => WValid_congr s1 _ ef1 x hx
              obtain ⟨r1, r2, r3, r4⟩ := ih (unchecked_enqueue s1 other (some w.clause_idx))
                conflict (kept ++ [w]) hinv2 hok2
                (fun x hx => hval2 x (hrest2 x hx))
                (fun x hx => hval2 x (hkept2 x hx))
              refine ⟨r1, r2, r3, ?_⟩
              rw [r4, ef3]


/-- Membership in a watch list after writing one slot. -/
theorem set_list_mem {α : Type} (w : List (List α)) (idx i : Nat) (ks : List α) (x : α)
    (hx : x ∈ (w.set idx ks).getD i []) : x ∈ w.getD i [] ∨ x ∈ ks := by
  by_cases hi : i = idx
  · subst hi
    by_cases hlen : i < w.length
    · rw [getD_set_self_of_lt _ _ _ _ hlen] at hx
      exact Or.inr hx
    · rw [List.set_eq_of_length_le (by omega)] at hx
      exact Or.inl hx
  · rw [getD_set_ne _ _ _ _ _ (fun e => hi e.symm)] at hx
    exact Or.inl hx

/-- One dequeue round of `Solver::propagate` preserves both invariants and
`num_vars`. -/
theorem propagate_step_inv (s : Solver) (hinv : TrailInv s) (hok : WatchOK s) :
    TrailInv (propagate_step s).1 ∧ WatchOK (propagate_step s).1 ∧
    (propagate_step s).1.num_vars = s.num_vars := by
  have he : propagate_step s =
      ({ (process_watchers (s.trail.getD s.q_head default) ({ s with q_head := s.q_head + 1, watches := s.watches.set (s.trail.getD s.q_head default).code [] } : Solver) none [] (s.watches.getD (s.trail.getD s.q_head default).code [])).1 with watches := ((process_watchers (s.trail.getD s.q_head default) ({ s with q_head := s.q_head + 1, watches := s.watches.set (s.trail.getD s.q_head default).code [] } : Solver) none [] (s.watches.getD (s.trail.getD s.q_head default).code [])).1.watches.set (s.trail.getD s.q_head default).code (process_watchers (s.trail.getD s.q_head default) ({ s with q_head := s.q_head + 1, watches := s.watches.set (s.trail.getD s.q_head default).code [] } : Solver) none [] (s.watches.getD (s.trail.getD s.q_head default).code [])).2.2) }, (process_watchers (s.trail.getD s.q_head default) ({ s with q_head := s.q_head + 1, watches := s.watches.set (s.trail.getD s.q_head default).code [] } : Solver) none [] (s.watches.getD (s.trail.getD s.q_head default).code [])).2.1) := rfl
  rw [he]
  set pl := s.trail.getD s.q_head default with hpl
  set sB := ({ s with q_head := s.q_head + 1, watches := s.watches.set pl.code [] } : Solver) with hsB
  set taken := s.watches.getD pl.code [] with htaken
  set r := process_watchers pl sB none [] taken with hr
  have hinvB : TrailInv sB := TrailInv_congr s sB rfl rfl rfl rfl hinv
  have hokB : WatchOK sB := by
    intro i x hx
    have hx2 : x ∈ s.watches.getD i [] := by
      rcases set_list_mem s.watches pl.code i [] x hx with h0 | h0
      · exact h0
      · exact absurd h0 (List.not_mem_nil x)
    exact WValid_congr s sB rfl x (hok i x hx2)
  have htk : ∀ x ∈ taken, WValid sB x := by
    intro x hx
    exact WValid_congr s sB rfl x (hok pl.code x hx)
  obtain ⟨r1, r2, r3, r4⟩ := process_watchers_inv pl taken sB none [] hinvB hokB htk
    (fun x hx => absurd hx (List.not_mem_nil x))
  refine ⟨?_, ?_, ?_⟩
  · show TrailInv { r.1 with watches := r.1.watches.set pl.code r.2.2 }
    exact TrailInv_congr r.1 _ rfl rfl rfl rfl r1
  · show WatchOK { r.1 with watches := r.1.watches.set pl.code r.2.2 }
    intro i x hx
    rcases set_list_mem r.1.watches pl.code i r.2.2 x hx with h0 | h0
    · exact WValid_congr r.1 _ rfl x (r2 i x h0)
    · exact WValid_congr r.1 _ rfl x (r3 x h0)
  · show ({ r.1 with watches := r.1.watches.set pl.code r.2.2 } : Solver).num_vars
        = s.num_vars
    exact r4

/-- `Solver::propagate` preserves both invariants and `num_vars` whenever it
returns. -/
theorem propagate_inv : ∀ (fuel : Nat) (s : Solver), TrailInv s → WatchOK s →
    ∀ (r : Solver) (c : Option Nat), propagate fuel s = some (r, c) →
    TrailInv r ∧ WatchOK r ∧ r.num_vars = s.num_vars := by
  intro fuel
  induction fuel with
  | zero =>
    intro s hinv hok r c heq
    by_cases hq : s.q_head < s.trail.length
    · have he : propagate 0 s = none := by
        unfold propagate
        rw [if_pos hq]
      rw [he] at heq
      exact Option.noConfusion heq
    · rw [propagate_stop 0 s hq] at heq
      have h2 := Option.some.inj heq
      injection h2 with e1 e2
      subst e1
      exact ⟨hinv, hok, rfl⟩
  | succ f ih =>
    intro s hinv hok r c heq
    by_cases hq : s.q_head < s.trail.length
    · rw [propagate_succ f s hq] at heq
      obtain ⟨p1, p2, p3⟩ := propagate_step_inv s hinv hok
      rcases hps : propagate_step s with ⟨s2, c2⟩
      rw [hps] at heq p1 p2 p3
      rcases c2 with _ | cc
      · rw [propagate_branch_none] at heq
        obtain ⟨q1, q2, q3⟩ := ih s2 p1 p2 r c heq
        exact ⟨q1, q2, q3.trans p3⟩
      · have hb : propagate_branch f (s2, some cc) = some (s2, some cc) := rfl
        rw [hb] at heq
        have h2 := Option.some.inj heq
        injection h2 with e1 e2
        subst e1
        exact ⟨p1, p2, p3⟩
    · rw [propagate_stop (f + 1) s hq] at heq
      have h2 := Option.some.inj heq
      injection h2 with e1 e2
      subst e1
      exact ⟨hinv, hok, rfl⟩

/-- `Solver::add_clause` preserves both invariants and `num_vars` when all
inserted literals are in range (otherwise the source's watch-list indexing
panics). -/
theorem add_clause_inv (fuel : Nat) (s : Solver) (lits0 : List Lit)
    (hinv : TrailInv s) (hok : WatchOK s)
    (hrange : ∀ l ∈ lits0, Lit.var l < s.num_vars) :
    ∀ (r : Solver) (b : Bool), add_clause fuel s lits0 = some (r, b) →
    TrailInv r ∧ WatchOK r ∧ r.num_vars = s.num_vars := by
  intro r b heq
  have he0 : add_clause fuel s lits0 =
      (if lits0.isEmpty then some (s, false)
       else
        if (dedup_adj (sort_by_code lits0)).length = 1 then
          match propagate fuel (unchecked_enqueue s ((dedup_adj (sort_by_code lits0)).getD 0 default) none) with
          | none => none
          | some (s2, c) => some (s2, c.isNone)
        else some (({ s with watches := push_watch (push_watch s.watches ((dedup_adj (sort_by_code lits0)).getD 0 default).not.code ⟨s.clauses.length, ((dedup_adj (sort_by_code lits0)).getD 1 default)⟩) ((dedup_adj (sort_by_code lits0)).getD 1 default).not.code ⟨s.clauses.length, ((dedup_adj (sort_by_code lits0)).getD 0 default)⟩, clauses := s.clauses ++ [(⟨(dedup_adj (sort_by_code lits0)), false⟩ : Clause)] } : Solver), true)) := rfl
  by_cases hemp : lits0.isEmpty
  · rw [he0, if_pos hemp] at heq
    have h2 := Option.some.inj heq
    injection h2 with e1 e2
    subst e1
    exact ⟨hinv, hok, rfl⟩
  · have hlits_sub : ∀ l ∈ (dedup_adj (sort_by_code lits0)), l ∈ lits0 :=
      fun l hl => sort_by_code_mem lits0 l (dedup_adj_mem (sort_by_code lits0) l hl)
    have hlits_range : ∀ l ∈ (dedup_adj (sort_by_code lits0)), Lit.var l < s.num_vars :=
      fun l hl => hrange l (hlits_sub l hl)
    have hso_ne : sort_by_code lits0 ≠ [] := by
      intro hc
      have hlen := sort_by_code_length lits0
      rw [hc] at hlen
      have h0 : lits0 = [] := List.length_eq_zero.mp hlen.symm
      subst h0
      exact hemp rfl
    have hlits_ne : (dedup_adj (sort_by_code lits0)) ≠ [] := dedup_adj_ne_nil _ hso_ne
    have hpos : 0 < (dedup_adj (sort_by_code lits0)).length := List.length_pos.mpr hlits_ne
    by_cases hone : (dedup_adj (sort_by_code lits0)).length = 1
    · rw [he0, if_neg hemp, if_pos hone] at heq
      have hgd0 : ((dedup_adj (sort_by_code lits0)).getD 0 default) ∈ (dedup_adj (sort_by_code lits0)) := getD_mem_of_lt _ _ _ hpos
      have hv0 : Lit.var ((dedup_adj (sort_by_code lits0)).getD 0 default) < s.num_vars := hlits_range _ hgd0
      have hinvE : TrailInv (unchecked_enqueue s ((dedup_adj (sort_by_code lits0)).getD 0 default) none) :=
        unchecked_enqueue_inv s ((dedup_adj (sort_by_code lits0)).getD 0 default) none hinv hv0
      obtain ⟨ef1, ef2, ef3⟩ := unchecked_enqueue_frames s ((dedup_adj (sort_by_code lits0)).getD 0 default) none
      have hokE : WatchOK (unchecked_enqueue s ((dedup_adj (sort_by_code lits0)).getD 0 default) none) :=
        WatchOK_congr s _ ef2 ef1 hok
      rcases hprop : propagate fuel (unchecked_enqueue s ((dedup_adj (sort_by_code lits0)).getD 0 default) none) with _ | ⟨s2, c2⟩
      · rw [hprop] at heq
        exact Option.noConfusion heq
      · rw [hprop] at heq
        have h2 := Option.some.inj heq
        injection h2 with e1 e2
        subst e1
        obtain ⟨q1, q2, q3⟩ := propagate_inv fuel (unchecked_enqueue s ((dedup_adj (sort_by_code lits0)).getD 0 default) none)
          hinvE hokE s2 c2 hprop
        exact ⟨q1, q2, q3.trans ef3⟩
    · rw [he0, if_neg hemp, if_neg hone] at heq
      have h2 := Option.some.inj heq
      injection h2 with e1 e2
      subst e1
      have hlen2 : 2 ≤ (dedup_adj (sort_by_code lits0)).length := by omega
      refine ⟨?_, ?_, rfl⟩
      · obtain ⟨g1, g2, g3, g4, g5⟩ := hinv
        refine ⟨g1, g2, g3, g4, ?_⟩
        intro c hc l hl
        rcases List.mem_append.mp hc with h0 | h0
        · exact g5 c h0 l hl
        · rw [List.mem_singleton.mp h0] at hl
          exact hlits_range l hl
      · intro i x hx
        rcases push_watch_mem
            (push_watch s.watches ((dedup_adj (sort_by_code lits0)).getD 0 default).not.code ⟨s.clauses.length, ((dedup_adj (sort_by_code lits0)).getD 1 default)⟩)
            ((dedup_adj (sort_by_code lits0)).getD 1 default).not.code ⟨s.clauses.length, ((dedup_adj (sort_by_code lits0)).getD 0 default)⟩ x i hx with h0 | h0
        · rcases push_watch_mem s.watches ((dedup_adj (sort_by_code lits0)).getD 0 default).not.code ⟨s.clauses.length, ((dedup_adj (sort_by_code lits0)).getD 1 default)⟩
              x i h0 with h5 | h5
          · obtain ⟨hv1, hv2⟩ := hok i x h5
            refine ⟨?_, ?_⟩
            · show x.clause_idx < (s.clauses ++ [(⟨(dedup_adj (sort_by_code lits0)), false⟩ : Clause)]).length
              rw [List.length_append]
              show x.clause_idx < s.clauses.length + 1
              omega
            · show 2 ≤ ((s.clauses ++ [(⟨(dedup_adj (sort_by_code lits0)), false⟩ : Clause)]).getD x.clause_idx default).lits.length
              rw [getD_append_lt _ _ _ _ hv1]
              exact hv2
          · subst h5
            refine ⟨?_, ?_⟩
            · show s.clauses.length < (s.clauses ++ [(⟨(dedup_adj (sort_by_code lits0)), false⟩ : Clause)]).length
              rw [List.length_append]
              show s.clauses.length < s.clauses.length + 1
              omega
            · show 2 ≤ ((s.clauses ++ [(⟨(dedup_adj (sort_by_code lits0)), false⟩ : Clause)]).getD s.clauses.length default).lits.length
              rw [getD_append_len]
              exact hlen2
        · subst h0
          refine ⟨?_, ?_⟩
          · show s.clauses.length < (s.clauses ++ [(⟨(dedup_adj (sort_by_code lits0)), false⟩ : Clause)]).length
            rw [List.length_append]
            show s.clauses.length < s.clauses.length + 1
            omega
          · show 2 ≤ ((s.clauses ++ [(⟨(dedup_adj (sort_by_code lits0)), false⟩ : Clause)]).getD s.clauses.length default).lits.length
            rw [getD_append_len]
            exact hlen2


/-- Claim C8: in every solver state reachable by any sequence of
`add_clause`, `propagate`, `analyze`, `backtrack` and decision steps, no
variable occurs in more than one trail entry, and every variable on the
trail is assigned.  Proved by strengthening to `TrailInv` and `WatchOK` and
showing each step preserves them. -/
theorem reach_trail_inv (s : Solver) (h : Reach s) :
    (s.trail.map Lit.var).Nodup ∧
    (∀ l ∈ s.trail,
      s.assignments.getD (Lit.var l) VarValue.Unassigned ≠ VarValue.Unassigned) := by
  have main : TrailInv s ∧ WatchOK s := by
    induction h with
    | init n => exact solver_new_inv n
    | add s0 fuel lits0 r b hre hrange heq ih =>
      obtain ⟨i1, i2⟩ := ih
      obtain ⟨q1, q2, q3⟩ := add_clause_inv fuel s0 lits0 i1 i2 hrange r b heq
      exact ⟨q1, q2⟩
    | prop s0 fuel r c hre heq ih =>
      obtain ⟨i1, i2⟩ := ih
      obtain ⟨q1, q2, q3⟩ := propagate_inv fuel s0 i1 i2 r c heq
      exact ⟨q1, q2⟩
    | analyzeStep s0 fuel ci learned bl r hre heq ih =>
      obtain ⟨i1, i2⟩ := ih
      obtain ⟨f1, f2, f3, f4, f5⟩ := analyze_frames fuel s0 ci learned bl r heq
      exact ⟨TrailInv_congr s0 r f3 f4 f5 f1 i1, WatchOK_congr s0 r f2 f1 i2⟩
    | backtrackStep s0 lvl hre ih =>
      obtain ⟨i1, i2⟩ := ih
      obtain ⟨q1, q2, q3⟩ := backtrack_inv s0 lvl i1 i2
      exact ⟨q1, q2⟩
    | decideStep s0 lit hre hlt ih =>
      obtain ⟨i1, i2⟩ := ih
      have i3 : TrailInv { s0 with trail_lim := s0.trail_lim ++ [s0.trail.length] } :=
        TrailInv_congr s0 _ rfl rfl rfl rfl i1
      have i4 : WatchOK { s0 with trail_lim := s0.trail_lim ++ [s0.trail.length] } :=
        WatchOK_congr s0 _ rfl rfl i2
      have q1 := unchecked_enqueue_inv
        { s0 with trail_lim := s0.trail_lim ++ [s0.trail.length] } lit none i3 hlt
      obtain ⟨ef1, ef2, ef3⟩ := unchecked_enqueue_frames
        { s0 with trail_lim := s0.trail_lim ++ [s0.trail.length] } lit none
      exact ⟨q1, WatchOK_congr _ _ ef2 ef1 i4⟩
  obtain ⟨⟨m1, m2, m3, m4, m5⟩, m6⟩ := main
  refine ⟨m3, ?_⟩
  intro l hl
  exact (m4 (Lit.var l)).mpr (List.mem_map_of_mem Lit.var hl)

/-- Witness for claim C8: the state reached by inserting the unit clause
`[x1]` into a fresh one-variable solver has the duplicate-free trail `[x1]`,
and its single trail variable is assigned. -/
theorem reach_trail_inv_witness :
    (c8_state.trail.map Lit.var).Nodup ∧
    (∀ l ∈ c8_state.trail,
      c8_state.assignments.getD (Lit.var l) VarValue.Unassigned ≠ VarValue.Unassigned) :=
  reach_trail_inv c8_state
    (Reach.add (Solver.new 1) 1 [Lit.new 0 false] c8_state true (Reach.init 1)
      (by decide) (by decide))


/-! ### Claim C4: helper lemmas -/

/-- Negating a literal keeps its variable. -/
theorem Lit_var_not (l : Lit) : (Lit.not l).var = l.var := by
  show (l.code ^^^ 1) / 2 = l.code / 2
  rw [← Nat.shiftRight_one, ← Nat.shiftRight_one]
  apply Nat.eq_of_testBit_eq
  intro i
  rw [Nat.testBit_shiftRight, Nat.testBit_shiftRight, Nat.testBit_xor]
  have h1 : (1 : Nat).testBit (1 + i) = false := by
    rw [show 1 + i = i + 1 from by omega, Nat.testBit_succ]
    simp
  rw [h1, Bool.xor_false]

/-- Two literals of the same variable that are both true under an
assignment are the same literal. -/
theorem lit_eq_of_true (a : List VarValue) (l1 l2 : Lit)
    (h1 : value_lit a l1 = VarValue.VTrue) (h2 : value_lit a l2 = VarValue.VTrue)
    (hv : l1.var = l2.var) : l1 = l2 := by
  have hneg : ∀ l : Lit, value_lit a l = VarValue.VTrue →
      (a.getD l.var VarValue.Unassigned = VarValue.VTrue ∧ l.neg = false) ∨
      (a.getD l.var VarValue.Unassigned = VarValue.VFalse ∧ l.neg = true) := by
    intro l hl
    unfold value_lit at hl
    rcases hg : a.getD l.var VarValue.Unassigned with _ | _ | _ <;> rw [hg] at hl
    · exact VarValue.noConfusion hl
    · cases hn : l.neg
      · exact Or.inl ⟨rfl, rfl⟩
      · rw [hn] at hl
        exact VarValue.noConfusion hl
    · cases hn : l.neg
      · rw [hn] at hl
        exact VarValue.noConfusion hl
      · exact Or.inr ⟨rfl, rfl⟩
  have e1 := hneg l1 h1
  have e2 := hneg l2 h2
  rw [hv] at e1
  have hnegeq : l1.neg = l2.neg := by
    rcases e1 with ⟨ha1, hb1⟩ | ⟨ha1, hb1⟩ <;> rcases e2 with ⟨ha2, hb2⟩ | ⟨ha2, hb2⟩
    · rw [hb1, hb2]
    · rw [ha1] at ha2
      exact absurd ha2 (by decide)
    · rw [ha1] at ha2
      exact absurd ha2 (by decide)
    · rw [hb1, hb2]
  have hceq : l1.code = l2.code := by
    have m1 : l1.code % 2 = l2.code % 2 := by
      have : (l1.code % 2 == 1) = (l2.code % 2 == 1) := hnegeq
      rcases Nat.mod_two_eq_zero_or_one l1.code with u1 | u1 <;>
        rcases Nat.mod_two_eq_zero_or_one l2.code with u2 | u2 <;>
        rw [u1, u2] at this ⊢ <;> first | rfl | exact absurd this (by decide)
    have m2 : l1.code / 2 = l2.code / 2 := hv
    omega
  rcases l1 with ⟨c1⟩
  rcases l2 with ⟨c2⟩
  rw [show (⟨c1⟩ : Lit).code = c1 from rfl, show (⟨c2⟩ : Lit).code = c2 from rfl] at hceq
  rw [hceq]

/-- Every element is at most the left fold of `max`. -/
theorem le_foldl_max : ∀ (L : List Nat) (a : Nat), a ≤ L.foldl max a ∧
    ∀ x ∈ L, x ≤ L.foldl max a := by
  intro L
  induction L with
  | nil =>
    intro a
    exact ⟨le_refl a, fun x hx => absurd hx (List.not_mem_nil x)⟩
  | cons y ys ih =>
    intro a
    obtain ⟨ha, hm⟩ := ih (max a y)
    refine ⟨le_trans (le_max_left a y) ha, ?_⟩
    intro x hx
    rcases List.mem_cons.mp hx with h0 | h0
    · subst h0
      exact le_trans (le_max_right a x) ha
    · exact hm x h0

/-- A left fold of `max` over a list of bounded values stays bounded. -/
theorem foldl_max_lt : ∀ (L : List Nat) (a B : Nat), a < B → (∀ x ∈ L, x < B) →
    L.foldl max a < B := by
  intro L
  induction L with
  | nil =>
    intro a B ha _
    exact ha
  | cons y ys ih =>
    intro a B ha hm
    show ys.foldl max (max a y) < B
    apply ih
    · have := hm y (List.mem_cons_self _ _)
      omega
    · exact fun x hx => hm x (List.mem_cons_of_mem _ hx)

/-- Flipping one member of a list from a false predicate to a true one,
monotonically, strictly increases the count. -/
theorem countP_flip {α : Type} : ∀ (L : List α) (q q2 : α → Bool) (x : α),
    (∀ y ∈ L, q y = true → q2 y = true) → x ∈ L → q x = false → q2 x = true →
    L.countP q + 1 ≤ L.countP q2 := by
  intro L
  induction L with
  | nil =>
    intro q q2 x _ hx
    exact absurd hx (List.not_mem_nil x)
  | cons a t ih =>
    intro q q2 x hmono hx hq hq2
    rw [List.countP_cons, List.countP_cons]
    by_cases hax : q a = true
    · have ha2 : q2 a = true := hmono a (List.mem_cons_self _ _) hax
      rw [if_pos hax, if_pos ha2]
      have hxa : x ≠ a := by
        intro e
        rw [e, hax] at hq
        exact Bool.noConfusion hq
      have hxt : x ∈ t := by
        rcases List.mem_cons.mp hx with h0 | h0
        · exact absurd h0 hxa
        · exact h0
      have := ih q q2 x (fun y hy => hmono y (List.mem_cons_of_mem _ hy)) hxt hq hq2
      omega
    · rw [if_neg hax]
      by_cases hx0 : x = a
      · subst hx0
        rw [if_pos hq2]
        have := List.countP_mono_left
          (fun y hy => hmono y (List.mem_cons_of_mem _ hy)) (l := t)
        omega
      · have hxt : x ∈ t := by
          rcases List.mem_cons.mp hx with h0 | h0
          · exact absurd h0 hx0
          · exact h0
        have := ih q q2 x (fun y hy => hmono y (List.mem_cons_of_mem _ hy)) hxt hq hq2
        by_cases ha2 : q2 a = true
        · rw [if_pos ha2]
          omega
        · rw [if_neg ha2]
          omega

/-- Specification of the backward trail scan of `analyze`: the returned
index is one past the topmost seen trail entry below the start. -/
theorem scan_seen_spec (seen : List Bool) (trail : List Lit) :
    ∀ (index idx1 : Nat), scan_seen seen trail index = some idx1 →
      1 ≤ idx1 ∧ idx1 ≤ index ∧
      seen.getD (trail.getD (idx1 - 1) default).var false = true ∧
      ∀ j : Nat, idx1 ≤ j → j < index →
        seen.getD (trail.getD j default).var false = false := by
  intro index
  induction index with
  | zero =>
    intro idx1 heq
    exact Option.noConfusion heq
  | succ i ih =>
    intro idx1 heq
    have he : scan_seen seen trail (i + 1) =
        (if seen.getD (trail.getD i default).var false then some (i + 1)
         else scan_seen seen trail i) := rfl
    rw [he] at heq
    by_cases hc : seen.getD (trail.getD i default).var false = true
    · rw [if_pos hc] at heq
      have h2 := Option.some.inj heq
      subst h2
      refine ⟨by omega, le_refl _, ?_, ?_⟩
      · show seen.getD (trail.getD (i + 1 - 1) default).var false = true
        rw [show i + 1 - 1 = i from by omega]
        exact hc
      · intro j hj1 hj2
        omega
    · rw [if_neg hc] at heq
      obtain ⟨k1, k2, k3, k4⟩ := ih idx1 heq
      refine ⟨k1, by omega, k3, ?_⟩
      intro j hj1 hj2
      by_cases hji : j < i
      · exact k4 j hj1 hji
      · have hje : j = i := by omega
        subst hje
        cases hcb : seen.getD (trail.getD j default).var false
        · rfl
        · exact absurd hcb hc

/-- The backward trail scan succeeds when some seen entry lies below the
start. -/
theorem scan_seen_finds (seen : List Bool) (trail : List Lit) :
    ∀ (index : Nat),
      (∃ j : Nat, j < index ∧ seen.getD (trail.getD j default).var false = true) →
      ∃ idx1, scan_seen seen trail index = some idx1 := by
  intro index
  induction index with
  | zero =>
    intro h
    obtain ⟨j, hj, _⟩ := h
    omega
  | succ i ih =>
    intro h
    have he : scan_seen seen trail (i + 1) =
        (if seen.getD (trail.getD i default).var false then some (i + 1)
         else scan_seen seen trail i) := rfl
    rw [he]
    by_cases hc : seen.getD (trail.getD i default).var false = true
    · rw [if_pos hc]
      exact ⟨i + 1, rfl⟩
    · rw [if_neg hc]
      apply ih
      obtain ⟨j, hj1, hj2⟩ := h
      refine ⟨j, ?_, hj2⟩
      by_cases hji : j = i
      · subst hji
        exact absurd hj2 hc
      · omega


/-- The clause scan of `analyze` also leaves level, reason and the
decision-level stack untouched. -/
theorem analyze_lits_frame2 (dl : Nat) (p : Option Lit) :
    ∀ (lits : List Lit) (i : Nat) (s : Solver) (counter : Int),
      (analyze_lits dl p i lits s counter).1.level = s.level ∧
      (analyze_lits dl p i lits s counter).1.reason = s.reason ∧
      (analyze_lits dl p i lits s counter).1.trail_lim = s.trail_lim := by
  intro lits
  induction lits with
  | nil =>
    intro i s counter
    exact ⟨rfl, rfl, rfl⟩
  | cons lit rest ih =>
    intro i s counter
    have he : analyze_lits dl p i (lit :: rest) s counter =
        (if i = 0 ∧ p = some lit then analyze_lits dl p (i + 1) rest s counter
         else
          if s.analyze_seen.getD lit.var false = false ∧ s.level.getD lit.var 0 > 0 then
            if s.level.getD lit.var 0 = dl then
              analyze_lits dl p (i + 1) rest
                { s with
                  analyze_seen := s.analyze_seen.set lit.var true
                  analyze_toclear := s.analyze_toclear ++ [lit.var] } (counter + 1)
            else
              analyze_lits dl p (i + 1) rest
                { s with
                  analyze_seen := s.analyze_seen.set lit.var true
                  analyze_toclear := s.analyze_toclear ++ [lit.var]
                  analyze_clause := s.analyze_clause ++ [lit] } counter
          else analyze_lits dl p (i + 1) rest s counter) := rfl
    rw [he]
    by_cases h1 : i = 0 ∧ p = some lit
    · rw [if_pos h1]
      exact ih (i + 1) s counter
    · rw [if_neg h1]
      by_cases h2 : s.analyze_seen.getD lit.var false = false ∧ s.level.getD lit.var 0 > 0
      · rw [if_pos h2]
        by_cases h3 : s.level.getD lit.var 0 = dl
        · rw [if_pos h3]
          obtain ⟨a1, a2, a3⟩ := ih (i + 1)
            { s with
              analyze_seen := s.analyze_seen.set lit.var true
              analyze_toclear := s.analyze_toclear ++ [lit.var] } (counter + 1)
          exact ⟨a1, a2, a3⟩
        · rw [if_neg h3]
          obtain ⟨a1, a2, a3⟩ := ih (i + 1)
            { s with
              analyze_seen := s.analyze_seen.set lit.var true
              analyze_toclear := s.analyze_toclear ++ [lit.var]
              analyze_clause := s.analyze_clause ++ [lit] } counter
          exact ⟨a1, a2, a3⟩
      · rw [if_neg h2]
        exact ih (i + 1) s counter

/-- The tail of an `analyze_loop` round also leaves level, reason and the
decision-level stack untouched, assuming the recursive call does. -/
theorem analyze_loop_tail_frame2 (dl fuel : Nat)
    (IH : ∀ (s : Solver) (counter : Int) (cci : Option Nat) (p : Option Lit)
      (index : Nat) (r : Solver) (plit : Lit),
      analyze_loop dl fuel s counter cci p index = some (r, plit) →
      r.level = s.level ∧ r.reason = s.reason ∧ r.trail_lim = s.trail_lim)
    (s : Solver) (counter : Int) (index : Nat) (r : Solver) (plit : Lit)
    (heq : analyze_loop_tail dl fuel s counter index = some (r, plit)) :
    r.level = s.level ∧ r.reason = s.reason ∧ r.trail_lim = s.trail_lim := by
  rcases hscan : scan_seen s.analyze_seen s.trail index with _ | idx1
  · have heq2 : (none : Option (Solver × Lit)) = some (r, plit) := by
      rw [← heq]
      conv_rhs => rw [analyze_loop_tail]
      rw [hscan]
    exact Option.noConfusion heq2
  · have heq2 : (if counter - 1 = 0 then
        some ({ s with analyze_seen :=
            s.analyze_seen.set (s.trail.getD (idx1 - 1) default).var false },
          s.trail.getD (idx1 - 1) default)
      else
        analyze_loop dl fuel
          { s with analyze_seen :=
              s.analyze_seen.set (s.trail.getD (idx1 - 1) default).var false }
          (counter - 1) (s.reason.getD (s.trail.getD (idx1 - 1) default).var none)
          (some (s.trail.getD (idx1 - 1) default)) (idx1 - 1))
        = some (r, plit) := by
      rw [← heq]
      conv_rhs => rw [analyze_loop_tail]
      rw [hscan]
    by_cases hc : counter - 1 = 0
    · rw [if_pos hc] at heq2
      have h2 := Option.some.inj heq2
      injection h2 with e1 e2
      subst e1
      exact ⟨rfl, rfl, rfl⟩
    · rw [if_neg hc] at heq2
      obtain ⟨b1, b2, b3⟩ := IH _ _ _ _ _ _ _ heq2
      exact ⟨b1, b2, b3⟩

/-- The resolution loop of `analyze` also leaves level, reason and the
decision-level stack untouched. -/
theorem analyze_loop_frame2 (dl : Nat) : ∀ (fuel : Nat) (s : Solver) (counter : Int)
    (cci : Option Nat) (p : Option Lit) (index : Nat) (r : Solver) (plit : Lit),
    analyze_loop dl fuel s counter cci p index = some (r, plit) →
    r.level = s.level ∧ r.reason = s.reason ∧ r.trail_lim = s.trail_lim := by
  intro fuel
  induction fuel with
  | zero =>
    intro s counter cci p index r plit heq
    exact Option.noConfusion heq
  | succ fuel ih =>
    intro s counter cci p index r plit heq
    rcases cci with _ | c_idx
    · have he : analyze_loop dl (fuel + 1) s counter none p index
          = analyze_loop_tail dl fuel s counter index := rfl
      rw [he] at heq
      exact analyze_loop_tail_frame2 dl fuel ih s counter index r plit heq
    · obtain ⟨a1, a2, a3⟩ :=
        analyze_lits_frame2 dl p (s.clauses.getD c_idx default).lits 0 s counter
      have he : analyze_loop dl (fuel + 1) s counter (some c_idx) p index
          = analyze_loop_tail dl fuel
              (analyze_lits dl p 0 (s.clauses.getD c_idx default).lits s counter).1
              (analyze_lits dl p 0 (s.clauses.getD c_idx default).lits s counter).2
              index := rfl
      rw [he] at heq
      obtain ⟨b1, b2, b3⟩ :=
        analyze_loop_tail_frame2 dl fuel ih _ _ index r plit heq
      exact ⟨b1.trans a1, b2.trans a2, b3.trans a3⟩


/-- Writing `true` into a seen array never clears a seen bit. -/
theorem getD_set_true_mono (L : List Bool) (w v : Nat)
    (h : L.getD v false = true) : (L.set w true).getD v false = true := by
  by_cases hv : v = w
  · subst hv
    by_cases hlen : v < L.length
    · rw [getD_set_self_of_lt _ _ _ _ hlen]
    · rw [List.set_eq_of_length_le (by omega)]
      exact h
  · rw [getD_set_ne _ _ _ _ _ (fun e => hv e.symm)]
    exact h

/-- A false literal has an assigned variable. -/
theorem value_false_assigned (a : List VarValue) (l : Lit)
    (h : value_lit a l = VarValue.VFalse) :
    a.getD l.var VarValue.Unassigned ≠ VarValue.Unassigned := by
  intro hc
  unfold value_lit at h
  rw [hc] at h
  exact VarValue.noConfusion h

/-- Witness for claim C10: variable 0 is `True` in `c10_state`, and
enqueuing the contradictory literal `-x0` leaves the state unchanged. -/
theorem unchecked_enqueue_assigned_noop_witness :
    c10_state.assignments.getD (Lit.new 0 true).var VarValue.Unassigned
      ≠ VarValue.Unassigned ∧
    unchecked_enqueue c10_state (Lit.new 0 true) none = c10_state :=
  ⟨by decide,
   unchecked_enqueue_assigned_noop c10_state (Lit.new 0 true) none (by decide)⟩

end SatLib

